import Mathlib

/-!
# Harmonic inflow model (`src/plugins/rotor/src/InflowModel.cpp`)

A shallow embedding of `HarmonicInflowModel::computeState`,
`HarmonicInflowModel::computeUniformInflow` and
`HarmonicInflowModel::computeHarmonicsInflow`.

The C++ functions compute in `double`.  They are embedded once, generically over a
carrier `α` with the operations the source applies to `double` values
(`DoubleArith`, `DoubleMath`), and evaluated in the carrier `Binary64`: IEEE 754
binary64 with round-to-nearest-even, signed zeros, infinities and NaN.  Every
operation computes the exact result and rounds it once; `std::sqrt` and `std::pow`
are taken to be correctly rounded.

Numerical statements read a finite double as the rational number it stands for
(`Binary64.toRat`) and use that an operation whose result is a normal number has a
relative rounding error of at most `2^-53` (`Binary64.Near`).
-/

namespace simulation

/-! ## The arithmetic interface used by the source -/

/-- The operations on `double` that the source uses outside `<cmath>` roots and
powers: `+ - * /`, unary minus, decimal literals, `std::abs`, `operator>` and
`std::isnan`. -/
class DoubleArith (α : Type) extends Add α, Sub α, Mul α, Div α, Neg α, OfScientific α where
  /-- The function `std::abs` on `double`. -/
  abs : α → α
  /-- The comparison `x > y` on `double`. -/
  gt : α → α → Bool
  /-- The predicate `std::isnan`. -/
  isnan : α → Bool

/-- The `<cmath>` functions of the uniform-inflow solver: `std::sqrt(x)`,
`std::pow(x, 2)` and `std::pow(x, 1.5)`. -/
class DoubleMath (α : Type) extends DoubleArith α where
  /-- The function `std::sqrt`. -/
  sqrt : α → α
  /-- The call `std::pow(x, 2)`. -/
  pow_2 : α → α
  /-- The call `std::pow(x, 1.5)`. -/
  pow_1_5 : α → α

/-- An integer literal used where a `double` is expected (`2*lmdPrev`, `lmd_0 = 0`)
is converted to the `double` of the same value. -/
instance instOfNatDouble {α : Type} [DoubleArith α] {n : Nat} : OfNat α n :=
  ⟨OfScientific.ofScientific n false 0⟩

/-! ## IEEE 754 binary64 -/

/-- A `double` value.  `fin neg m e` is the number `(-1)^neg * m * 2^e`; it is a zero
when `m = 0`.  The operations below accept any dyadic value and return canonical
binary64 values: a zero as `fin neg 0 0`, any other finite value with `m < 2^53`,
`-1074 ≤ e ≤ 971`, and `2^52 ≤ m` unless `e = -1074`. -/
inductive Binary64 where
  | nan
  | inf (neg : Bool)
  | fin (neg : Bool) (m : Nat) (e : Int)
  deriving DecidableEq, Repr

namespace Binary64

/-- The first `j` at or after the given one with `n < 2^(2^j)`, looking at no more than
`fuel` candidates. -/
def bitLenTop (n : Nat) : Nat → Nat → Nat
  | 0, j => j
  | fuel + 1, j => if 2 ^ 2 ^ j ≤ n then bitLenTop n fuel (j + 1) else j

/-- Bisection for the binary logarithm: from `2^lo ≤ n < 2^(lo + 2^k)` to the `lo` with
`2^lo ≤ n < 2^(lo + 1)`. -/
def bitLenGo (n : Nat) : Nat → Nat → Nat
  | 0, lo => lo
  | k + 1, lo => if 2 ^ (lo + 2 ^ k) ≤ n then bitLenGo n k (lo + 2 ^ k) else bitLenGo n k lo

/-- Number of binary digits of `n` (`0` for `n = 0`). -/
def bitLen (n : Nat) : Nat :=
  if n = 0 then 0 else bitLenGo n (bitLenTop n n 0) 0 + 1

/-- Integer square root, one binary digit per step from bit `i - 1` down to bit `0`. -/
def isqrtLoop (n : Nat) : Nat → Nat → Nat
  | 0, r => r
  | i + 1, r => isqrtLoop n i (if (r + 2 ^ i) * (r + 2 ^ i) ≤ n then r + 2 ^ i else r)

/-- Integer square root: the largest `r` with `r * r ≤ n`. -/
def isqrt (n : Nat) : Nat := isqrtLoop n (bitLen n / 2 + 1) 0

/-- Round the non-negative rational `n / d` to the nearest binary64 value, ties to
even, with sign `neg`; overflow gives an infinity, underflow a subnormal or zero. -/
def roundNE (neg : Bool) (n d : Nat) : Binary64 :=
  if n = 0 ∨ d = 0 then fin neg 0 0
  else
    let e1 : Int := (bitLen n : Int) - (bitLen d : Int) - 52
    let e2 : Int :=
      if n * 2 ^ (-e1).toNat < d * 2 ^ e1.toNat * 2 ^ 52 then e1 - 1 else e1
    let e : Int := max e2 (-1074)
    let num := n * 2 ^ (-e).toNat
    let den := d * 2 ^ e.toNat
    let q := num / den
    let r := num % den
    let q1 := if den < 2 * r ∨ (2 * r = den ∧ q % 2 = 1) then q + 1 else q
    if q1 = 0 then fin neg 0 0
    else if q1 = 2 ^ 53 then (if 971 < e + 1 then inf neg else fin neg (2 ^ 52) (e + 1))
    else if 971 < e then inf neg
    else fin neg q1 e

/-- Round the non-negative dyadic `m * 2^e` to binary64. -/
def roundScaled (neg : Bool) (m : Nat) (e : Int) : Binary64 :=
  roundNE neg (m * 2 ^ e.toNat) (2 ^ (-e).toNat)

/-- The integer `(-1)^neg * m * 2^k`. -/
def signedInt (neg : Bool) (m k : Nat) : Int :=
  if neg then -((m * 2 ^ k : Nat) : Int) else ((m * 2 ^ k : Nat) : Int)

/-- Addition (IEEE 754 `addition`, round to nearest even). -/
def add : Binary64 → Binary64 → Binary64
  | nan, _ => nan
  | _, nan => nan
  | inf n1, inf n2 => if n1 = n2 then inf n1 else nan
  | inf n1, fin _ _ _ => inf n1
  | fin _ _ _, inf n2 => inf n2
  | fin n1 m1 e1, fin n2 m2 e2 =>
    let e := min e1 e2
    let sum := signedInt n1 m1 (e1 - e).toNat + signedInt n2 m2 (e2 - e).toNat
    if sum = 0 then fin (n1 && n2) 0 0
    else roundScaled (decide (sum < 0)) sum.natAbs e

/-- Unary minus: flips the sign. -/
def neg : Binary64 → Binary64
  | nan => nan
  | inf n => inf (!n)
  | fin n m e => fin (!n) m e

/-- Subtraction: `x - y` is `x + (-y)`. -/
def sub (x y : Binary64) : Binary64 := add x (neg y)

/-- Multiplication. -/
def mul : Binary64 → Binary64 → Binary64
  | nan, _ => nan
  | _, nan => nan
  | inf n1, inf n2 => inf (xor n1 n2)
  | inf n1, fin n2 m2 _ => if m2 = 0 then nan else inf (xor n1 n2)
  | fin n1 m1 _, inf n2 => if m1 = 0 then nan else inf (xor n1 n2)
  | fin n1 m1 e1, fin n2 m2 e2 => roundScaled (xor n1 n2) (m1 * m2) (e1 + e2)

/-- Division. -/
def div : Binary64 → Binary64 → Binary64
  | nan, _ => nan
  | _, nan => nan
  | inf _, inf _ => nan
  | inf n1, fin n2 _ _ => inf (xor n1 n2)
  | fin n1 _ _, inf n2 => fin (xor n1 n2) 0 0
  | fin n1 m1 e1, fin n2 m2 e2 =>
    if m2 = 0 then (if m1 = 0 then nan else inf (xor n1 n2))
    else roundNE (xor n1 n2) (m1 * 2 ^ (e1 - e2).toNat) (m2 * 2 ^ (e2 - e1).toNat)

/-- The function `std::abs`: clears the sign. -/
def abs : Binary64 → Binary64
  | nan => nan
  | inf _ => inf false
  | fin _ m e => fin false m e

/-- The comparison `x > y`: false when either side is NaN; `-0` and `+0` compare equal. -/
def gt : Binary64 → Binary64 → Bool
  | nan, _ => false
  | _, nan => false
  | inf n1, inf n2 => !n1 && n2
  | inf n1, fin _ _ _ => !n1
  | fin _ _ _, inf n2 => n2
  | fin n1 m1 e1, fin n2 m2 e2 =>
    let e := min e1 e2
    decide (signedInt n2 m2 (e2 - e).toNat < signedInt n1 m1 (e1 - e).toNat)

/-- The predicate `std::isnan`. -/
def isnan : Binary64 → Bool
  | nan => true
  | _ => false

/-- The correctly rounded square root of the positive dyadic `m * 2^e`. -/
def sqrtRound (m : Nat) (e : Int) : Binary64 :=
  let m1 := if e % 2 = 0 then m else 2 * m
  let e1 := if e % 2 = 0 then e else e - 1
  let s := isqrt (m1 * 2 ^ 128)
  let sticky := if s * s = m1 * 2 ^ 128 then 0 else 1
  roundScaled false (2 * s + sticky) (e1 / 2 - 65)

/-- The function `std::sqrt`. -/
def sqrt : Binary64 → Binary64
  | nan => nan
  | inf n => if n then nan else inf false
  | fin n m e => if m = 0 then fin n 0 0 else if n then nan else sqrtRound m e

/-- The call `std::pow(x, 2)`. -/
def pow_2 : Binary64 → Binary64
  | nan => nan
  | inf _ => inf false
  | fin _ m e => roundScaled false (m * m) (2 * e)

/-- The call `std::pow(x, 1.5)`. -/
def pow_1_5 : Binary64 → Binary64
  | nan => nan
  | inf _ => inf false
  | fin n m e =>
    if m = 0 then fin false 0 0 else if n then nan else sqrtRound (m * m * m) (3 * e)

/-- A decimal literal `m * 10^(-e)` (or `m * 10^e`), rounded to binary64. -/
def ofDecimal (m : Nat) (s : Bool) (e : Nat) : Binary64 :=
  if s then roundNE false m (10 ^ e) else roundNE false (m * 10 ^ e) 1

/-- The comparison `x <= y`: false when either side is NaN. -/
def le (x y : Binary64) : Bool := !isnan x && !isnan y && !gt x y

/-- The comparison `x == y`: false when either side is NaN; `-0 == +0`. -/
def eq (x y : Binary64) : Bool := le x y && le y x

/-- Whether the value is `+0` or `-0`. -/
def isZero : Binary64 → Bool
  | fin _ m _ => decide (m = 0)
  | _ => false

/-- Whether the value is `+inf` or `-inf`. -/
def isInf : Binary64 → Bool
  | inf _ => true
  | _ => false

instance : DoubleMath Binary64 where
  add := add
  sub := sub
  mul := mul
  div := div
  neg := neg
  ofScientific := ofDecimal
  abs := abs
  gt := gt
  isnan := isnan
  sqrt := sqrt
  pow_2 := pow_2
  pow_1_5 := pow_1_5

end Binary64

/-! ## Data model

The classes below are declared outside `InflowModel.cpp`; each is modelled by the
members and accessors that the three functions read. -/

/-- The vector returned by `BodyState::omBar_H`, with its accessors `X()`, `Y()`, `Z()`. -/
structure Vector3 (α : Type) where
  X : α
  Y : α
  Z : α

/-- The members of `rotor->blade` that are read: lift-curve slope `a0`, radius `R`,
twist `th_tw`. -/
structure Blade (α : Type) where
  a0 : α
  R : α
  th_tw : α

/-- The rotor configuration: its blade and the value of `rotor->solidity()`. -/
structure Rotor (α : Type) where
  blade : Blade α
  solidity : α

/-- Collective and first-harmonic pitch angles: accessors `_0()`, `_1c()`, `_1s()`. -/
structure PitchState (α : Type) where
  _0 : α
  _1c : α
  _1s : α

/-- Coning and first-harmonic flap angles: accessors `_0()`, `_1c()`, `_1s()`. -/
structure FlappingState (α : Type) where
  _0 : α
  _1c : α
  _1s : α

/-- The blade force state: the thrust coefficient `C_T`. -/
structure BladeForceState (α : Type) where
  C_T : α

/-- The body state, through the accessors that are called: `mu(Omega, R)`,
`mu_z(Omega, R)`, `psi_w()` and `omBar_H(Omega)`. -/
structure BodyState (α : Type) where
  mu : α → α → α
  mu_z : α → α → α
  psi_w : α
  omBar_H : α → Vector3 α

/-- The result `InflowState(lmd_0, lmd_1c, lmd_1s)`, with accessors `_0()`, `_1c()`,
`_1s()`. -/
structure InflowState (α : Type) where
  _0 : α
  _1c : α
  _1s : α

/-- The `<cmath>` functions `std::sin` and `std::cos`, taken as parameters: the source
calls them and never uses the values. -/
structure Trig (α : Type) where
  sin : α → α
  cos : α → α

/-- The object `HarmonicInflowModel`: the pointer `rotor` to the rotor configuration
and the stored member `inflowState`. -/
structure HarmonicInflowModel (α : Type) where
  rotor : Rotor α
  inflowState : InflowState α

/-! ## The three functions of `InflowModel.cpp` -/

namespace HarmonicInflowModel

set_option linter.unusedVariables false

section Uniform

variable {α : Type} [DoubleMath α]

/-- The `do { ... } while (std::abs(lmd - lmdPrev) > tol)` loop of
`computeUniformInflow` (lines 57-64), entered with the current values of `lmdPrev`
and `lmd`.  `fuel` bounds the number of executions of the body; `none` means the
loop is still running when the bound is reached. -/
def uniformInflowLoop (f tol a0 s C_T mu mu_z : α) : Nat → α → α → Option α
  | 0, _, _ => none
  | fuel + 1, lmdPrev, lmd =>
    let Lambda := DoubleMath.pow_2 mu + DoubleMath.pow_2 (lmdPrev - mu_z)
    let h := -((2*lmdPrev*DoubleMath.sqrt Lambda - C_T)*Lambda)/(2*DoubleMath.pow_1_5 Lambda + a0*s/4.0*Lambda - C_T*(mu_z - lmdPrev))
    let tmp := lmdPrev + f*h
    let lmdPrev := lmd
    let lmd := tmp
    if DoubleArith.gt (DoubleArith.abs (lmd - lmdPrev)) tol then
      uniformInflowLoop f tol a0 s C_T mu mu_z fuel lmdPrev lmd
    else some lmd

/-- The function `HarmonicInflowModel::computeUniformInflow` (lines 47-66). -/
def computeUniformInflow (self : HarmonicInflowModel α) (fuel : Nat)
    (lmd_0 C_T mu mu_z : α) : Option α :=
  let f : α := 0.6
  let tol : α := 0.001
  let a0 := self.rotor.blade.a0
  let s := self.rotor.solidity
  let lmdPrev := lmd_0
  let lmd := lmd_0
  uniformInflowLoop f tol a0 s C_T mu mu_z fuel lmdPrev lmd

end Uniform

section Harmonics

variable {α : Type} [DoubleArith α]

/-- The function `HarmonicInflowModel::computeHarmonicsInflow` (lines 69-99); the
returned `std::vector<double>` is a list. -/
def computeHarmonicsInflow (self : HarmonicInflowModel α) (libm : Trig α)
    (pitchState : PitchState α) (flappingState : FlappingState α)
    (bodyState : BodyState α) (Omega lmd_0 : α) : List α :=
  let a0 := self.rotor.blade.a0
  let s := self.rotor.solidity
  let psi := bodyState.psi_w
  let th_tw := self.rotor.blade.th_tw
  let R := self.rotor.blade.R
  let sin := libm.sin psi
  let cos := libm.cos psi
  let beta_0 := flappingState._0
  let beta_1s := flappingState._1s
  let beta_1c := flappingState._1c
  let th_0 := pitchState._0
  let th_1s := pitchState._1s
  let th_1c := pitchState._1c
  let mu := bodyState.mu Omega R
  let mu_z := bodyState.mu_z Omega R
  let qBar := (bodyState.omBar_H Omega).Y
  let pBar := (bodyState.omBar_H Omega).X
  let C_prime := 1/(1 + a0*s/(16*lmd_0))
  let lmd_1c := C_prime*(a0*s)/(16*lmd_0)*(th_1c - beta_1s + qBar)
  let lmd_1s := C_prime*(a0*s)/(16*lmd_0)*(th_1s + beta_1c + pBar)
  let sol := [lmd_1c, lmd_1s]
  sol

end Harmonics

section State

variable {α : Type} [DoubleMath α]

/-- The NaN guard of `computeState` (lines 32-43): `if (std::isnan(x)) x = 0;`. -/
def nanToZero (x : α) : α :=
  if DoubleArith.isnan x then 0 else x

/-- The function `HarmonicInflowModel::computeState` (lines 22-45).  The result is
`none` only when the loop of `computeUniformInflow` has not ended within `fuel`
executions of its body. -/
def computeState (self : HarmonicInflowModel α) (libm : Trig α) (fuel : Nat)
    (pitchState : PitchState α) (flappingState : FlappingState α)
    (aeroForcesState : BladeForceState α) (bodyState : BodyState α) (Omega : α) :
    Option (InflowState α) := do
  let a0 := self.rotor.blade.a0
  let R := self.rotor.blade.R
  let s := self.rotor.solidity
  let lmd_0 ← computeUniformInflow self fuel self.inflowState._0 aeroForcesState.C_T
    (bodyState.mu Omega R) (bodyState.mu_z Omega R)
  let lmd_harmonic := computeHarmonicsInflow self libm pitchState flappingState bodyState Omega lmd_0
  let lmd_1c ← lmd_harmonic[0]?
  let lmd_1s ← lmd_harmonic[1]?
  let lmd_0 := nanToZero lmd_0
  let lmd_1c := nanToZero lmd_1c
  let lmd_1s := nanToZero lmd_1s
  return InflowState.mk lmd_0 lmd_1c lmd_1s

/-- The call `model.computeState(...)` as a step on the object: the returned
`InflowState` together with the object after the call.  The body of `computeState`
(lines 22-45) reads `rotor` and `inflowState` and assigns neither, so the object after
the call is the object before it. -/
def computeStateCall (self : HarmonicInflowModel α) (libm : Trig α) (fuel : Nat)
    (pitchState : PitchState α) (flappingState : FlappingState α)
    (aeroForcesState : BladeForceState α) (bodyState : BodyState α) (Omega : α) :
    Option (InflowState α × HarmonicInflowModel α) := do
  let result ← computeState self libm fuel pitchState flappingState aeroForcesState
    bodyState Omega
  return (result, self)

/-- Two calls of `computeState` in succession on the same object with the same
arguments: the two results and the object after the second call. -/
def computeStateTwice (self : HarmonicInflowModel α) (libm : Trig α) (fuel : Nat)
    (pitchState : PitchState α) (flappingState : FlappingState α)
    (aeroForcesState : BladeForceState α) (bodyState : BodyState α) (Omega : α) :
    Option (InflowState α × InflowState α × HarmonicInflowModel α) := do
  let (first, self1) ← computeStateCall self libm fuel pitchState flappingState
    aeroForcesState bodyState Omega
  let (second, self2) ← computeStateCall self1 libm fuel pitchState flappingState
    aeroForcesState bodyState Omega
  return (first, second, self2)

end State

/-- The value `tmp` that one execution of the loop body (lines 58-60) computes from
`lmdPrev`. -/
def dampedUpdate {α : Type} [DoubleMath α] (f a0 s C_T mu mu_z lmdPrev : α) : α :=
  let Lambda := DoubleMath.pow_2 mu + DoubleMath.pow_2 (lmdPrev - mu_z)
  let h := -((2*lmdPrev*DoubleMath.sqrt Lambda - C_T)*Lambda)/(2*DoubleMath.pow_1_5 Lambda + a0*s/4.0*Lambda - C_T*(mu_z - lmdPrev))
  lmdPrev + f*h

end HarmonicInflowModel

/-! ## The iteration and the balance equation as the specification words them -/

section Spec

variable {α : Type} [DoubleMath α]

/-- One update of the specification (section 4.1):
`Λ = μ² + (λ_prev − μz)²`,
`h = −[(2·λ_prev·√Λ − C_T)·Λ] / [2·Λ^1.5 + (a0·s/4)·Λ − C_T·(μz − λ_prev)]`,
`λ_next = λ_prev + 0.6·h`. -/
def specUpdate (a0 s C_T mu mu_z lmd_prev : α) : α :=
  let Lambda := DoubleMath.pow_2 mu + DoubleMath.pow_2 (lmd_prev - mu_z)
  let h := -((2*lmd_prev*DoubleMath.sqrt Lambda - C_T)*Lambda)
    / (2*DoubleMath.pow_1_5 Lambda + (a0*s/4)*Lambda - C_T*(mu_z - lmd_prev))
  lmd_prev + 0.6*h

/-- The fixed-point iteration of the specification: from `lmd_k` compute
`lmd_{k+1} = specUpdate lmd_k` and return `lmd_{k+1}` for the first `k` at which
`|lmd_{k+1} - lmd_k| > 0.001` fails; `none` when no such `k` is met within `fuel`
updates. -/
def specUniformInflow (a0 s C_T mu mu_z : α) : Nat → α → Option α
  | 0, _ => none
  | fuel + 1, lmd_k =>
    let lmd_next := specUpdate a0 s C_T mu mu_z lmd_k
    if DoubleArith.gt (DoubleArith.abs (lmd_next - lmd_k)) 0.001 then
      specUniformInflow a0 s C_T mu mu_z fuel lmd_next
    else some lmd_next

end Spec

/-! ## Concrete configurations -/

/-- The rotor of the end-to-end scenario: `a0 = 5.7`, `s = 0.08`, `R = 5.5` (no twist). -/
def scenarioRotor : Rotor Binary64 := ⟨⟨5.7, 5.5, 0⟩, 0.08⟩

/-- A model on the scenario rotor whose stored inflow state has uniform component `seed`. -/
def scenarioModel (seed : Binary64) : HarmonicInflowModel Binary64 :=
  ⟨scenarioRotor, ⟨seed, 0, 0⟩⟩

/-- A body state whose accessors return the given values for every `Omega` and `R`. -/
def constBody (mu mu_z psi_w pBar qBar : Binary64) : BodyState Binary64 :=
  ⟨fun _ _ => mu, fun _ _ => mu_z, psi_w, fun _ => ⟨pBar, qBar, 0⟩⟩

/-- Sine and cosine at the azimuth `psi_w = 0`. -/
def trigAtZero : Trig Binary64 := ⟨fun _ => 0, fun _ => 1⟩

/-! ## The numbers that doubles stand for -/

namespace Binary64

/-- The rational number that a finite double stands for; `0` for infinities and NaN. -/
def toRat : Binary64 → ℚ
  | fin neg m e => (if neg then -1 else 1) * (m : ℚ) * (2 : ℚ) ^ e
  | _ => 0

/-- Whether the value is a finite double with a full 53-bit significand (in particular
not a zero, not subnormal, not infinite and not NaN). -/
def isNormal : Binary64 → Bool
  | fin _ m _ => decide (2 ^ 52 ≤ m)
  | _ => false

/-- Whether the value is a finite double in the form that the operations produce:
a zero, a normal number with significand in `[2^52, 2^53)` and exponent in
`[-1074, 971]`, or a subnormal number with exponent `-1074`. -/
def isCanonical : Binary64 → Bool
  | fin _ m e => decide (m = 0 ∨ (2 ^ 52 ≤ m ∧ m < 2 ^ 53 ∧ -1074 ≤ e ∧ e ≤ 971)
      ∨ (m < 2 ^ 52 ∧ e = -1074))
  | _ => false

/-- The relation between the rounded result `z` of an operation and its exact result `v`:
the error is at most `2^-53` of the rounded result. -/
def Near (z v : ℚ) : Prop := |z - v| ≤ |z| / 2 ^ 53

/-- The relation "`z` is `v` up to `k` rounding factors":
`v * (1 - 2^-53)^k ≤ z ≤ v * (1 + 2^-53)^k`. -/
def Within (k : ℕ) (z v : ℚ) : Prop :=
  v * (1 - 1 / 2 ^ 53) ^ k ≤ z ∧ z ≤ v * (1 + 1 / 2 ^ 53) ^ k

/-- The exponent at which `roundNE` rounds the quotient `n / d`. -/
def roundExp (n d : ℕ) : ℤ :=
  max (if n * 2 ^ (-((bitLen n : ℤ) - (bitLen d : ℤ) - 52)).toNat
        < d * 2 ^ ((bitLen n : ℤ) - (bitLen d : ℤ) - 52).toNat * 2 ^ 52
      then (bitLen n : ℤ) - (bitLen d : ℤ) - 52 - 1
      else (bitLen n : ℤ) - (bitLen d : ℤ) - 52) (-1074)

/-- The quotient `num / den` rounded to the nearest integer, ties to even. -/
def roundQ (num den : ℕ) : ℕ :=
  if den < 2 * (num % den) ∨ (2 * (num % den) = den ∧ num / den % 2 = 1) then num / den + 1
  else num / den

end Binary64

namespace HarmonicInflowModel

/-- The intermediate results of the harmonic gain `C_prime*(a0*s)/(16*lmd_0)` (lines 94-96),
in the order in which they are computed. -/
def harmonicGainSteps {α : Type} [DoubleArith α] (a0 s lmd_0 : α) : List α :=
  [a0*s, 16*lmd_0, a0*s/(16*lmd_0), 1 + a0*s/(16*lmd_0), 1/(1 + a0*s/(16*lmd_0)),
   1/(1 + a0*s/(16*lmd_0))*(a0*s), 1/(1 + a0*s/(16*lmd_0))*(a0*s)/(16*lmd_0)]

/-- The intermediate results of one execution of the loop body (lines 58-60), ending with
`h`, `f*h` and `tmp = lmdPrev + f*h`. -/
def dampedUpdateSteps {α : Type} [DoubleMath α] (f a0 s C_T mu mu_z lmdPrev : α) : List α :=
  let Lambda := DoubleMath.pow_2 mu + DoubleMath.pow_2 (lmdPrev - mu_z)
  let den := 2*DoubleMath.pow_1_5 Lambda + a0*s/4.0*Lambda - C_T*(mu_z - lmdPrev)
  let h := -((2*lmdPrev*DoubleMath.sqrt Lambda - C_T)*Lambda)/den
  [DoubleMath.pow_2 mu, lmdPrev - mu_z, DoubleMath.pow_2 (lmdPrev - mu_z), Lambda,
   DoubleMath.sqrt Lambda, 2*lmdPrev, 2*lmdPrev*DoubleMath.sqrt Lambda,
   2*lmdPrev*DoubleMath.sqrt Lambda - C_T, (2*lmdPrev*DoubleMath.sqrt Lambda - C_T)*Lambda,
   DoubleMath.pow_1_5 Lambda, 2*DoubleMath.pow_1_5 Lambda, a0*s, a0*s/4.0, a0*s/4.0*Lambda,
   2*DoubleMath.pow_1_5 Lambda + a0*s/4.0*Lambda, den, h, f*h, lmdPrev + f*h]

/-- The two intermediate results of the thrust term `C_T*(mu_z - lmdPrev)` of the
denominator of `h` (line 59). -/
def thrustTermSteps {α : Type} [DoubleArith α] (C_T mu_z lmdPrev : α) : List α :=
  [mu_z - lmdPrev, C_T*(mu_z - lmdPrev)]

/-- The value `Lambda` of line 58. -/
def updateLambda {α : Type} [DoubleMath α] (mu mu_z lmdPrev : α) : α :=
  DoubleMath.pow_2 mu + DoubleMath.pow_2 (lmdPrev - mu_z)

/-- The value `f*h` that line 60 adds to `lmdPrev`. -/
def updateIncrement {α : Type} [DoubleMath α] (f a0 s C_T mu mu_z lmdPrev : α) : α :=
  let Lambda := DoubleMath.pow_2 mu + DoubleMath.pow_2 (lmdPrev - mu_z)
  let h := -((2*lmdPrev*DoubleMath.sqrt Lambda - C_T)*Lambda)/(2*DoubleMath.pow_1_5 Lambda + a0*s/4.0*Lambda - C_T*(mu_z - lmdPrev))
  f*h

/-- The factor `2*lmdPrev*sqrt(Lambda) - C_T` in the numerator of `h` (line 59). -/
def updateResidual {α : Type} [DoubleMath α] (C_T mu mu_z lmdPrev : α) : α :=
  2*lmdPrev*DoubleMath.sqrt (DoubleMath.pow_2 mu + DoubleMath.pow_2 (lmdPrev - mu_z)) - C_T

end HarmonicInflowModel

/-! ## The harmonic formulas as the specification words them -/

/-- The closed form of the specification (section 4.2), operation by operation in the
grouping in which it is written:
`C' = 1 / (1 + a0·s / (16·λ0))`, `λ_1c = C' · (a0·s/16/λ0) · (θ_1c − β_1s + q̄)`,
`λ_1s = C' · (a0·s/16/λ0) · (θ_1s + β_1c + p̄)`. -/
def specHarmonicsInflow {α : Type} [DoubleArith α] (a0 s lambda0 th_1c th_1s beta_1c beta_1s
    qBar pBar : α) : List α :=
  let C' := 1 / (1 + a0*s / (16*lambda0))
  let lambda_1c := C' * (a0*s/16/lambda0) * (th_1c - beta_1s + qBar)
  let lambda_1s := C' * (a0*s/16/lambda0) * (th_1s + beta_1c + pBar)
  [lambda_1c, lambda_1s]

/-- The simplified form `a0·s·X / (16·λ0 + a0·s)` of the two harmonics, operation by
operation. -/
def specSimplifiedHarmonics {α : Type} [DoubleArith α] (a0 s lambda0 th_1c th_1s beta_1c
    beta_1s qBar pBar : α) : List α :=
  [a0*s*(th_1c - beta_1s + qBar)/(16*lambda0 + a0*s),
   a0*s*(th_1s + beta_1c + pBar)/(16*lambda0 + a0*s)]


/-! ## Basic facts about `Binary64` -/

namespace Binary64

theorem add_def (x y : Binary64) : x + y = add x y := rfl
theorem sub_def (x y : Binary64) : x - y = sub x y := rfl
theorem mul_def (x y : Binary64) : x * y = mul x y := rfl
theorem div_def (x y : Binary64) : x / y = div x y := rfl
theorem neg_def (x : Binary64) : -x = neg x := rfl
theorem abs_def (x : Binary64) : DoubleArith.abs x = abs x := rfl
theorem gt_def (x y : Binary64) : DoubleArith.gt x y = gt x y := rfl
theorem isnan_def (x : Binary64) : DoubleArith.isnan x = isnan x := rfl

/-- Values of the model that are known from IEEE 754 hardware: `0.6`, `0.1 + 0.2`,
`sqrt 2`, `1/3`, `pow(0.2, 2)`, `pow(0.04, 1.5)`, the largest finite value, overflow
to `+inf`, a subnormal product and underflow to zero. -/
theorem known_values :
    (0.6 : Binary64) = fin false 5404319552844595 (-53)
    ∧ (0.1 + 0.2 : Binary64) = fin false 5404319552844596 (-54)
    ∧ DoubleMath.sqrt (2 : Binary64) = fin false 6369051672525773 (-52)
    ∧ (1 / 3 : Binary64) = fin false 6004799503160661 (-54)
    ∧ DoubleMath.pow_2 (0.2 : Binary64) = fin false 5764607523034236 (-57)
    ∧ DoubleMath.pow_1_5 (0.04 : Binary64) = fin false 4611686018427388 (-59)
    ∧ (1.7976931348623157e308 : Binary64) = fin false 9007199254740991 971
    ∧ (1e308 * 10 : Binary64) = inf false
    ∧ (1e-310 * 0.5 : Binary64) = fin false 10120112665366 (-1074)
    ∧ (5e-324 / 2 : Binary64) = fin false 0 0 := by
  decide!

theorem lit_zero : (0 : Binary64) = fin false 0 0 := by decide!
theorem lit_one : (1 : Binary64) = fin false 4503599627370496 (-52) := by decide!
theorem lit_sixteen : (16 : Binary64) = fin false 4503599627370496 (-48) := by decide!
theorem lit_tol : (0.001 : Binary64) = fin false 4611686018427388 (-62) := by decide!

theorem roundNE_zero (neg : Bool) (d : Nat) : roundNE neg 0 d = fin neg 0 0 := by
  simp [roundNE]

theorem roundScaled_zero (neg : Bool) (e : Int) : roundScaled neg 0 e = fin neg 0 0 := by
  simp [roundScaled, roundNE_zero]

theorem signedInt_zero (n : Bool) (k : Nat) : signedInt n 0 k = 0 := by
  cases n <;> simp [signedInt]

theorem signedInt_not (n : Bool) (m k : Nat) : signedInt (!n) m k = - signedInt n m k := by
  cases n <;> simp [signedInt]

theorem signedInt_cancel (n : Bool) (m k : Nat) :
    signedInt n m k + signedInt (!n) m k = 0 := by
  cases n <;> simp [signedInt]

theorem neg_neg (x : Binary64) : neg (neg x) = x := by
  cases x <;> simp [neg]

/-- The difference `x - x` is NaN (for NaN and the infinities) or `+0`. -/
theorem sub_self_cases (x : Binary64) : sub x x = nan ∨ sub x x = fin false 0 0 := by
  cases x with
  | nan => left; rfl
  | inf n => left; cases n <;> rfl
  | fin n m e =>
    right
    simp [sub, neg, add, signedInt_cancel]

/-- The loop test `std::abs(lmd - lmdPrev) > tol` fails when both variables hold the
same value. -/
theorem gt_abs_sub_self (x : Binary64) :
    DoubleArith.gt (DoubleArith.abs (x - x)) (0.001 : Binary64) = false := by
  show gt (abs (sub x x)) (0.001 : Binary64) = false
  rcases sub_self_cases x with h | h <;> rw [h, lit_tol] <;> decide!

theorem mul_nan_left (x : Binary64) : mul nan x = nan := by
  cases x <;> rfl

theorem mul_fin_zero (n : Bool) (m : Nat) (e : Int) (y : Binary64) (hy : isZero y = true) :
    isZero (mul (fin n m e) y) = true := by
  cases y <;> simp_all [mul, isZero, roundScaled_zero]

/-- A product with a zero or NaN right factor is a zero or NaN. -/
theorem mul_zeroOrNan_right (x y : Binary64) (hy : isZero y = true ∨ isnan y = true) :
    isZero (mul x y) = true ∨ isnan (mul x y) = true := by
  cases x <;> cases y <;> simp_all [mul, isZero, isnan, roundScaled_zero]

/-- A product with a zero or NaN left factor is a zero or NaN. -/
theorem mul_zeroOrNan_left (x y : Binary64) (hx : isZero x = true ∨ isnan x = true) :
    isZero (mul x y) = true ∨ isnan (mul x y) = true := by
  cases x <;> cases y <;> simp_all [mul, isZero, isnan, roundScaled_zero]

/-- A quotient with a zero denominator is an infinity or NaN. -/
theorem div_zero_cases (x y : Binary64) (hy : isZero y = true) :
    isInf (div x y) = true ∨ isnan (div x y) = true := by
  cases x with
  | nan => cases y <;> simp [div, isnan]
  | inf n1 => cases y <;> simp_all [div, isZero, isnan, isInf]
  | fin n1 m1 e1 =>
    cases y with
    | nan => simp [div, isnan]
    | inf n2 => simp [isZero] at hy
    | fin n2 m2 e2 =>
      have hm : m2 = 0 := by simpa [isZero] using hy
      by_cases h1 : m1 = 0 <;> simp [div, hm, h1, isInf, isnan]

/-- Adding a finite value to an infinity or NaN gives an infinity or NaN. -/
theorem add_fin_infOrNan (n : Bool) (m : Nat) (e : Int) (y : Binary64)
    (hy : isInf y = true ∨ isnan y = true) :
    isInf (add (fin n m e) y) = true ∨ isnan (add (fin n m e) y) = true := by
  cases y <;> simp_all [add, isnan, isInf]

/-- A finite value divided by an infinity or NaN is a zero or NaN. -/
theorem div_fin_infOrNan (n : Bool) (m : Nat) (e : Int) (y : Binary64)
    (hy : isInf y = true ∨ isnan y = true) :
    isZero (div (fin n m e) y) = true ∨ isnan (div (fin n m e) y) = true := by
  cases y <;> simp_all [div, isnan, isInf, isZero]

/-- A zero or NaN divided by a zero is NaN. -/
theorem div_zeroOrNan_zero (x y : Binary64) (hx : isZero x = true ∨ isnan x = true)
    (hy : isZero y = true) : div x y = nan := by
  cases x <;> cases y <;> simp_all [div, isnan, isZero]

/-- When `x == y` holds, `x - y` is a zero (finite operands) or NaN (equal infinities). -/
theorem sub_zeroOrNan_of_eq (x y : Binary64) (h : eq x y = true) :
    isZero (sub x y) = true ∨ isnan (sub x y) = true := by
  cases x with
  | nan => simp [eq, le, isnan] at h
  | inf n1 =>
    cases y with
    | nan => simp [eq, le, isnan] at h
    | inf n2 => cases n1 <;> cases n2 <;> simp_all [eq, le, isnan, gt, sub, neg, add]
    | fin n2 m2 e2 => cases n1 <;> simp [eq, le, isnan, gt] at h
  | fin n1 m1 e1 =>
    cases y with
    | nan => simp [eq, le, isnan] at h
    | inf n2 => cases n2 <;> simp [eq, le, isnan, gt] at h
    | fin n2 m2 e2 =>
      left
      simp only [eq, le, isnan, gt, Bool.not_false, Bool.true_and, Bool.and_eq_true,
        Bool.not_eq_true', decide_eq_false_iff_not, not_lt] at h
      rw [min_comm e2 e1] at h
      have hab : signedInt n1 m1 (e1 - min e1 e2).toNat
          = signedInt n2 m2 (e2 - min e1 e2).toNat := le_antisymm h.1 h.2
      simp [sub, neg, add, signedInt_not, hab, isZero]

/-- Adding a zero to a zero or NaN gives a zero or NaN. -/
theorem add_zeroOrNan_zero (x y : Binary64) (hx : isZero x = true ∨ isnan x = true)
    (hy : isZero y = true) : isZero (add x y) = true ∨ isnan (add x y) = true := by
  cases x <;> cases y <;> simp_all [add, isZero, isnan, signedInt_zero]

theorem isnan_nanToZero (x : Binary64) :
    isnan (HarmonicInflowModel.nanToZero x) = false := by
  unfold HarmonicInflowModel.nanToZero
  rw [isnan_def]
  cases h : isnan x
  · simpa using h
  · simp [lit_zero, isnan]

theorem isZero_nanToZero (x : Binary64) (hx : isZero x = true ∨ isnan x = true) :
    isZero (HarmonicInflowModel.nanToZero x) = true := by
  unfold HarmonicInflowModel.nanToZero
  rw [isnan_def]
  cases x <;> simp_all [isnan, isZero, lit_zero]

end Binary64

namespace HarmonicInflowModel

/-! ## The loop of `computeUniformInflow` and the shape of `computeState` -/

/-- Entered with `lmdPrev = lmd = lmd_0`, the loop returns the first update of `lmd_0`
after one or two executions of its body: on a second pass `tmp` is computed again from
`lmdPrev = lmd_0`, so `lmd` and `lmdPrev` are equal when the test is made. -/
theorem uniformInflowLoop_succ_succ {α : Type} [DoubleMath α] (f tol a0 s C_T mu mu_z : α)
    (hself : ∀ x : α, DoubleArith.gt (DoubleArith.abs (x - x)) tol = false)
    (n : Nat) (lmd_0 : α) :
    uniformInflowLoop f tol a0 s C_T mu mu_z (n + 2) lmd_0 lmd_0
      = some (dampedUpdate f a0 s C_T mu mu_z lmd_0) := by
  simp only [uniformInflowLoop, dampedUpdate]
  split
  · simp [hself]
  · rfl

theorem computeUniformInflow_eq (self : HarmonicInflowModel Binary64) (n : Nat)
    (lmd_0 C_T mu mu_z : Binary64) :
    computeUniformInflow self (n + 2) lmd_0 C_T mu mu_z
      = some (dampedUpdate 0.6 self.rotor.blade.a0 self.rotor.solidity C_T mu mu_z lmd_0) := by
  unfold computeUniformInflow
  exact uniformInflowLoop_succ_succ _ _ _ _ _ _ _ Binary64.gt_abs_sub_self n lmd_0

theorem computeHarmonicsInflow_pair {α : Type} [DoubleArith α] (self : HarmonicInflowModel α)
    (libm : Trig α) (pitchState : PitchState α) (flappingState : FlappingState α)
    (bodyState : BodyState α) (Omega lmd_0 : α) :
    ∃ c s, computeHarmonicsInflow self libm pitchState flappingState bodyState Omega lmd_0
      = [c, s] :=
  ⟨_, _, rfl⟩

theorem computeState_eq {α : Type} [DoubleMath α] (self : HarmonicInflowModel α)
    (libm : Trig α) (fuel : Nat) (pitchState : PitchState α) (flappingState : FlappingState α)
    (aeroForcesState : BladeForceState α) (bodyState : BodyState α) (Omega r c s : α)
    (hr : computeUniformInflow self fuel self.inflowState._0 aeroForcesState.C_T
      (bodyState.mu Omega self.rotor.blade.R) (bodyState.mu_z Omega self.rotor.blade.R) = some r)
    (hcs : computeHarmonicsInflow self libm pitchState flappingState bodyState Omega r = [c, s]) :
    computeState self libm fuel pitchState flappingState aeroForcesState bodyState Omega
      = some ⟨nanToZero r, nanToZero c, nanToZero s⟩ := by
  simp [computeState, hr, hcs]

/-- With a zero uniform inflow the common factor `C_prime*(a0*s)/(16*lmd_0)` is NaN. -/
theorem harmonic_gain_nan (p r : Binary64) (hz : Binary64.isZero r = true) :
    (1/(1 + p/(16*r)))*p/(16*r) = Binary64.nan := by
  have hZ : Binary64.isZero (16*r) = true := by
    rw [Binary64.lit_sixteen]; exact Binary64.mul_fin_zero _ _ _ r hz
  have hD := Binary64.div_zero_cases p (16*r) hZ
  have hS : Binary64.isInf (1 + p/(16*r)) = true ∨ Binary64.isnan (1 + p/(16*r)) = true := by
    rw [Binary64.lit_one]; exact Binary64.add_fin_infOrNan _ _ _ _ hD
  have hC : Binary64.isZero (1/(1 + p/(16*r))) = true
      ∨ Binary64.isnan (1/(1 + p/(16*r))) = true := by
    rw [Binary64.lit_one]; exact Binary64.div_fin_infOrNan _ _ _ _ hS
  have hP := Binary64.mul_zeroOrNan_left _ p hC
  exact Binary64.div_zeroOrNan_zero _ _ hP hZ

/-! ## The claims -/

/-- C1: for every input, `computeState` returns (its loop ends within two passes, so
every bound of at least two passes gives the same state) and none of the three
returned components is NaN; a component whose computed value `r`, `c` or `s` is NaN is
returned as `+0.0`. -/
theorem computeState_no_nan (self : HarmonicInflowModel Binary64) (libm : Trig Binary64)
    (pitchState : PitchState Binary64) (flappingState : FlappingState Binary64)
    (aeroForcesState : BladeForceState Binary64) (bodyState : BodyState Binary64)
    (Omega : Binary64) :
    ∃ r c s st,
      (∀ n, computeUniformInflow self (n + 2) self.inflowState._0 aeroForcesState.C_T
        (bodyState.mu Omega self.rotor.blade.R) (bodyState.mu_z Omega self.rotor.blade.R)
          = some r)
      ∧ computeHarmonicsInflow self libm pitchState flappingState bodyState Omega r = [c, s]
      ∧ (∀ n, computeState self libm (n + 2) pitchState flappingState aeroForcesState
          bodyState Omega = some st)
      ∧ Binary64.isnan st._0 = false ∧ Binary64.isnan st._1c = false
      ∧ Binary64.isnan st._1s = false
      ∧ (Binary64.isnan r = true → st._0 = Binary64.fin false 0 0)
      ∧ (Binary64.isnan c = true → st._1c = Binary64.fin false 0 0)
      ∧ (Binary64.isnan s = true → st._1s = Binary64.fin false 0 0) := by
  obtain ⟨c, s, hcs⟩ := computeHarmonicsInflow_pair self libm pitchState flappingState
    bodyState Omega (dampedUpdate 0.6 self.rotor.blade.a0 self.rotor.solidity
      aeroForcesState.C_T (bodyState.mu Omega self.rotor.blade.R)
      (bodyState.mu_z Omega self.rotor.blade.R) self.inflowState._0)
  refine ⟨_, c, s, _, fun n => computeUniformInflow_eq self n _ _ _ _, hcs,
    fun n => computeState_eq self libm (n + 2) pitchState flappingState aeroForcesState
      bodyState Omega _ c s (computeUniformInflow_eq self n _ _ _ _) hcs,
    Binary64.isnan_nanToZero _, Binary64.isnan_nanToZero _, Binary64.isnan_nanToZero _,
    ?_, ?_, ?_⟩ <;>
  · intro h
    simp [nanToZero, Binary64.isnan_def, h, Binary64.lit_zero]

/-- C2: for every input, `computeState` returns a state `st` in which every component
whose computed value (`r`, `c`, `s`) is not NaN is that value unchanged; in particular
an infinite computed value is returned as the same infinity. -/
theorem computeState_keeps_non_nan (self : HarmonicInflowModel Binary64)
    (libm : Trig Binary64) (pitchState : PitchState Binary64)
    (flappingState : FlappingState Binary64) (aeroForcesState : BladeForceState Binary64)
    (bodyState : BodyState Binary64) (Omega : Binary64) :
    ∃ r c s st,
      (∀ n, computeUniformInflow self (n + 2) self.inflowState._0 aeroForcesState.C_T
        (bodyState.mu Omega self.rotor.blade.R) (bodyState.mu_z Omega self.rotor.blade.R)
          = some r)
      ∧ computeHarmonicsInflow self libm pitchState flappingState bodyState Omega r = [c, s]
      ∧ (∀ n, computeState self libm (n + 2) pitchState flappingState aeroForcesState
          bodyState Omega = some st)
      ∧ (Binary64.isnan r = false → st._0 = r)
      ∧ (Binary64.isnan c = false → st._1c = c)
      ∧ (Binary64.isnan s = false → st._1s = s)
      ∧ (Binary64.isInf r = true → st._0 = r)
      ∧ (Binary64.isInf c = true → st._1c = c)
      ∧ (Binary64.isInf s = true → st._1s = s) := by
  obtain ⟨c, s, hcs⟩ := computeHarmonicsInflow_pair self libm pitchState flappingState
    bodyState Omega (dampedUpdate 0.6 self.rotor.blade.a0 self.rotor.solidity
      aeroForcesState.C_T (bodyState.mu Omega self.rotor.blade.R)
      (bodyState.mu_z Omega self.rotor.blade.R) self.inflowState._0)
  have keep : ∀ x : Binary64, Binary64.isnan x = false → nanToZero x = x := by
    intro x hx
    simp [nanToZero, Binary64.isnan_def, hx]
  have inf_not_nan : ∀ x : Binary64, Binary64.isInf x = true → Binary64.isnan x = false := by
    intro x hx
    cases x <;> simp_all [Binary64.isInf, Binary64.isnan]
  exact ⟨_, c, s, _, fun n => computeUniformInflow_eq self n _ _ _ _, hcs,
    fun n => computeState_eq self libm (n + 2) pitchState flappingState aeroForcesState
      bodyState Omega _ c s (computeUniformInflow_eq self n _ _ _ _) hcs,
    keep _, keep _, keep _,
    fun h => keep _ (inf_not_nan _ h), fun h => keep _ (inf_not_nan _ h),
    fun h => keep _ (inf_not_nan _ h)⟩

/-- C2 at a concrete input: the pitch and flap harmonics `1e308` and `-1e308` make
`th_1c - beta_1s` overflow, the computed cosine harmonic is `+inf`, and `computeState`
returns `+inf` in that component. -/
theorem computeState_keeps_non_nan_witness :
    ∃ st, computeState (scenarioModel 0.05) trigAtZero 2 ⟨0.1, 1e308, 0.03⟩
        ⟨0.05, 0.01, -1e308⟩ ⟨0.006⟩ (constBody 0.2 0 0 0 0) 30 = some st
      ∧ st._1c = Binary64.inf false := by
  obtain ⟨r, c, s, st, hr, hcs, hst, -, -, -, -, hic, -⟩ :=
    computeState_keeps_non_nan (scenarioModel 0.05) trigAtZero ⟨0.1, 1e308, 0.03⟩
      ⟨0.05, 0.01, -1e308⟩ ⟨0.006⟩ (constBody 0.2 0 0 0 0) 30
  have hr0 : some r = some (Binary64.fin false 4836310042879524 (-57)) :=
    (hr 0).symm.trans (by decide!)
  have hrv : r = Binary64.fin false 4836310042879524 (-57) := Option.some.inj hr0
  subst hrv
  have hc : c = Binary64.inf false := by
    have h1 : (computeHarmonicsInflow (scenarioModel 0.05) trigAtZero ⟨0.1, 1e308, 0.03⟩
        ⟨0.05, 0.01, -1e308⟩ (constBody 0.2 0 0 0 0) 30
        (Binary64.fin false 4836310042879524 (-57))).head? = some (Binary64.inf false) := by
      decide!
    rw [hcs] at h1
    exact Option.some.inj h1
  exact ⟨st, hst 0, by rw [hic (by rw [hc]; rfl), hc]⟩

/-- C3: the value returned by `computeUniformInflow` is not the result of the
iteration of the specification.  End-to-end scenario (`C_T = 0.006`, `mu = 0.2`,
`mu_z = 0`, guess `0.05`): the code returns `0.033558642273942035`, the iteration
`0.01575197067823564`.  Hover (`C_T = 0.005`, `mu = mu_z = 0`, guess `0.1`): the code
returns `0.07527472527472527`, the iteration `0.05104229228899434`.  Zero thrust
(`C_T = 0`, `mu = 0.2`, `mu_z = 0`, guess `1.0`): the code returns `0.4317606575474484`,
the iteration `0.0006346154413391205`. -/
theorem computeUniformInflow_differs_from_specUniformInflow :
    (computeUniformInflow (scenarioModel 0) 10000 0.05 0.006 0.2 0
        = some (Binary64.fin false 4836310042879524 (-57))
      ∧ specUniformInflow (5.7 : Binary64) 0.08 0.006 0.2 0 10000 0.05
        = some (Binary64.fin false 4540196433718592 (-58)))
    ∧ (computeUniformInflow (scenarioModel 0) 10000 0.1 0.005 0 0
        = some (Binary64.fin false 5424115595162707 (-56))
      ∧ specUniformInflow (5.7 : Binary64) 0.08 0.005 0 0 10000 0.1
        = some (Binary64.fin false 7355969553051227 (-57)))
    ∧ (computeUniformInflow (scenarioModel 0) 10000 1.0 0 0.2 0
        = some (Binary64.fin false 7777908545775716 (-54))
      ∧ specUniformInflow (5.7 : Binary64) 0.08 0 0.2 0 10000 1.0
        = some (Binary64.fin false 5853294315803496 (-63))) := by
  decide!

/-- C5, refuted: hover (`mu = 0`, `mu_z = 0`, `C_T = 0.005`, `a0 = 5.7`, `s = 0.08`) with
the positive starting guess `0.052`.  The loop ends on its first pass and returns
`0.051220763956904995`, above `0.0505`. -/
theorem hover_counterexample :
    Binary64.gt 0.052 0 = true
    ∧ computeUniformInflow (scenarioModel 0) 1 0.052 0.005 0 0
        = some (Binary64.fin false 7381690031038383 (-57))
    ∧ computeUniformInflow (scenarioModel 0) 10000 0.052 0.005 0 0
        = some (Binary64.fin false 7381690031038383 (-57))
    ∧ Binary64.gt (Binary64.fin false 7381690031038383 (-57)) 0.0505 = true := by
  decide!

/-- C6, refuted: zero thrust (`C_T = 0`, `mu_z = 0`, `mu = 0.2`, `a0 = 5.7`, `s = 0.08`)
with the starting guess `0.0021`.  The loop ends on its first pass and returns
`0.0011194432654587933`, further than `0.001` from zero. -/
theorem zero_thrust_counterexample :
    Binary64.gt 0.2 0 = true
    ∧ computeUniformInflow (scenarioModel 0) 1 0.0021 0 0.2 0
        = some (Binary64.fin false 5162520855739016 (-62))
    ∧ computeUniformInflow (scenarioModel 0) 10000 0.0021 0 0.2 0
        = some (Binary64.fin false 5162520855739016 (-62))
    ∧ Binary64.gt (Binary64.abs (Binary64.fin false 5162520855739016 (-62))) 0.001
        = true := by
  decide!

/-- C7: for every starting guess, thrust coefficient and advance ratios (in particular
for `mu > 0`, `mu_z > 0`, `C_T > 0`) and every rotor, the do-while loop of
`computeUniformInflow` ends: two executions of its body are always enough, so it ends
within 10,000 of them, and every larger bound gives the same returned value. -/
theorem computeUniformInflow_terminates (self : HarmonicInflowModel Binary64)
    (lmd_0 C_T mu mu_z : Binary64) :
    ∃ r, computeUniformInflow self 2 lmd_0 C_T mu mu_z = some r
      ∧ computeUniformInflow self 10000 lmd_0 C_T mu mu_z = some r
      ∧ ∀ n, computeUniformInflow self (n + 2) lmd_0 C_T mu mu_z = some r :=
  ⟨_, computeUniformInflow_eq self 0 lmd_0 C_T mu mu_z,
    computeUniformInflow_eq self 9998 lmd_0 C_T mu mu_z,
    fun n => computeUniformInflow_eq self n lmd_0 C_T mu mu_z⟩

/-- C9: harmonic symmetry.  For every rotor, stored state and input, `computeState`
returns a state `st` (two loop passes are always enough); if `th_1c == beta_1s` and
`qBar == 0` then `st._1c` is a zero, and if `th_1s == -beta_1c` and `pBar == 0` then
`st._1s` is a zero.  (The zero may carry either sign; `-0.0 == 0.0` in C++.) -/
theorem computeState_harmonic_symmetry (self : HarmonicInflowModel Binary64)
    (libm : Trig Binary64) (n : Nat) (pitchState : PitchState Binary64)
    (flappingState : FlappingState Binary64) (aeroForcesState : BladeForceState Binary64)
    (bodyState : BodyState Binary64) (Omega : Binary64) :
    ∃ st, computeState self libm (n + 2) pitchState flappingState aeroForcesState bodyState
        Omega = some st
      ∧ (Binary64.eq pitchState._1c flappingState._1s = true →
          Binary64.isZero (bodyState.omBar_H Omega).Y = true →
          Binary64.isZero st._1c = true)
      ∧ (Binary64.eq pitchState._1s (-flappingState._1c) = true →
          Binary64.isZero (bodyState.omBar_H Omega).X = true →
          Binary64.isZero st._1s = true) := by
  refine ⟨_, computeState_eq self libm (n + 2) pitchState flappingState aeroForcesState
    bodyState Omega _ _ _ (computeUniformInflow_eq self n _ _ _ _) rfl, ?_, ?_⟩
  · intro he hq
    apply Binary64.isZero_nanToZero
    apply Binary64.mul_zeroOrNan_right
    exact Binary64.add_zeroOrNan_zero _ _ (Binary64.sub_zeroOrNan_of_eq _ _ he) hq
  · intro he hp
    apply Binary64.isZero_nanToZero
    apply Binary64.mul_zeroOrNan_right
    refine Binary64.add_zeroOrNan_zero _ _ ?_ hp
    have h := Binary64.sub_zeroOrNan_of_eq _ _ he
    rw [Binary64.neg_def] at h
    simpa [Binary64.sub, Binary64.neg_neg] using h

/-- C9 at a concrete input with a non-zero uniform inflow: `th_1c = beta_1s = 0.02`,
`qBar = 0`, `th_1s = -0.01 = -beta_1c`, `pBar = 0`. -/
theorem computeState_harmonic_symmetry_witness :
    ∃ st, computeState (scenarioModel 0.05) trigAtZero 2 ⟨0.1, 0.02, -0.01⟩ ⟨0.05, 0.01, 0.02⟩
        ⟨0.006⟩ (constBody 0.2 0 0 0 0) 30 = some st
      ∧ Binary64.isZero st._1c = true ∧ Binary64.isZero st._1s = true := by
  obtain ⟨st, hst, hc, hs⟩ := computeState_harmonic_symmetry (scenarioModel 0.05) trigAtZero 0
    ⟨0.1, 0.02, -0.01⟩ ⟨0.05, 0.01, 0.02⟩ ⟨0.006⟩ (constBody 0.2 0 0 0 0) 30
  exact ⟨st, hst, hc (by decide!) (by decide!), hs (by decide!) (by decide!)⟩

/-- C10: whenever the uniform inflow `r` returned by the solver is a zero, both values
computed by `computeHarmonicsInflow` are NaN and `computeState` returns `+0.0` in both
harmonic components, for every pitch, flapping and body state and every rotor. -/
theorem computeState_zero_inflow (self : HarmonicInflowModel Binary64) (libm : Trig Binary64)
    (fuel : Nat) (pitchState : PitchState Binary64) (flappingState : FlappingState Binary64)
    (aeroForcesState : BladeForceState Binary64) (bodyState : BodyState Binary64)
    (Omega r : Binary64)
    (hr : computeUniformInflow self fuel self.inflowState._0 aeroForcesState.C_T
      (bodyState.mu Omega self.rotor.blade.R) (bodyState.mu_z Omega self.rotor.blade.R) = some r)
    (hz : Binary64.isZero r = true) :
    computeHarmonicsInflow self libm pitchState flappingState bodyState Omega r
        = [Binary64.nan, Binary64.nan]
      ∧ ∃ st, computeState self libm fuel pitchState flappingState aeroForcesState bodyState
          Omega = some st
        ∧ st._1c = Binary64.fin false 0 0 ∧ st._1s = Binary64.fin false 0 0 := by
  have hcs : computeHarmonicsInflow self libm pitchState flappingState bodyState Omega r
      = [Binary64.nan, Binary64.nan] := by
    simp only [computeHarmonicsInflow]
    rw [harmonic_gain_nan _ r hz]
    simp [Binary64.mul_def, Binary64.mul_nan_left]
  refine ⟨hcs, _, computeState_eq self libm fuel pitchState flappingState aeroForcesState
    bodyState Omega r _ _ hr hcs, ?_, ?_⟩ <;>
  simp [nanToZero, Binary64.isnan_def, Binary64.isnan, Binary64.lit_zero]

/-- C10 at the example of the claim: stored seed `0`, `C_T = 0`, `mu = 0.2`, `mu_z = 0`
on the scenario rotor, with non-zero pitch, flapping and body rates. -/
theorem computeState_zero_inflow_witness :
    computeUniformInflow (scenarioModel 0) 2 (scenarioModel 0).inflowState._0 0 0.2 0
        = some (Binary64.fin false 0 0)
      ∧ ∃ st, computeState (scenarioModel 0) trigAtZero 2 ⟨0.1, 0.02, 0.03⟩ ⟨0.05, 0.01, 0.04⟩
          ⟨0⟩ (constBody 0.2 0 0 0.001 0.002) 30 = some st
        ∧ st._1c = Binary64.fin false 0 0 ∧ st._1s = Binary64.fin false 0 0 :=
  ⟨by decide!,
    (computeState_zero_inflow (scenarioModel 0) trigAtZero 2 ⟨0.1, 0.02, 0.03⟩
      ⟨0.05, 0.01, 0.04⟩ ⟨0⟩ (constBody 0.2 0 0 0.001 0.002) 30 (Binary64.fin false 0 0)
      (by decide!) (by decide!)).2⟩

/-! ## Helper lemmas for the stored state -/

/-- For every input `computeState` returns, and every bound of at least two loop passes
gives the same state. -/
theorem computeState_total (self : HarmonicInflowModel Binary64) (libm : Trig Binary64)
    (pitchState : PitchState Binary64) (flappingState : FlappingState Binary64)
    (aeroForcesState : BladeForceState Binary64) (bodyState : BodyState Binary64)
    (Omega : Binary64) :
    ∃ st, ∀ n, computeState self libm (n + 2) pitchState flappingState aeroForcesState
      bodyState Omega = some st :=
  ⟨_, fun n => computeState_eq self libm (n + 2) pitchState flappingState aeroForcesState
    bodyState Omega _ _ _ (computeUniformInflow_eq self n _ _ _ _) rfl⟩

/-! ## The claims, continued -/

/-- C11, refuted: two models with the scenario rotor and the same five arguments, whose
stored uniform inflow is `0.05` and `0.1`, return the uniform components
`0.033558642273942035` and `0.05946918232158507`. -/
theorem computeState_stored_state_counterexample :
    (scenarioModel 0.05).rotor = (scenarioModel 0.1).rotor
    ∧ Option.map InflowState._0 (computeState (scenarioModel 0.05) trigAtZero 10000
        ⟨0.1, 0.02, 0.03⟩ ⟨0.05, 0.01, 0.04⟩ ⟨0.006⟩ (constBody 0.2 0 0 0.001 0.002) 30)
      = some (Binary64.fin false 4836310042879524 (-57))
    ∧ Option.map InflowState._0 (computeState (scenarioModel 0.1) trigAtZero 10000
        ⟨0.1, 0.02, 0.03⟩ ⟨0.05, 0.01, 0.04⟩ ⟨0.006⟩ (constBody 0.2 0 0 0.001 0.002) 30)
      = some (Binary64.fin false 8570412394992596 (-57)) := by
  refine ⟨rfl, ?_, ?_⟩ <;> decide!

/-- C11, amended: the result of `computeState` is a function of its five arguments, the
rotor configuration and the uniform component `_0` of the stored inflow state (the
starting guess of the solver).  Two models with the same rotor and the same stored
`_0` return the same state for the same arguments, whatever their stored harmonic
components; two loop passes are always enough. -/
theorem computeState_depends_on_stored_uniform_only (self1 self2 : HarmonicInflowModel Binary64)
    (libm : Trig Binary64) (pitchState : PitchState Binary64)
    (flappingState : FlappingState Binary64) (aeroForcesState : BladeForceState Binary64)
    (bodyState : BodyState Binary64) (Omega : Binary64)
    (hrotor : self1.rotor = self2.rotor)
    (hseed : self1.inflowState._0 = self2.inflowState._0) :
    ∃ st, ∀ n,
      computeState self1 libm (n + 2) pitchState flappingState aeroForcesState bodyState Omega
        = some st
      ∧ computeState self2 libm (n + 2) pitchState flappingState aeroForcesState bodyState
        Omega = some st := by
  refine ⟨_, fun n => ⟨computeState_eq self1 libm (n + 2) pitchState flappingState
    aeroForcesState bodyState Omega _ _ _ (computeUniformInflow_eq self1 n _ _ _ _) rfl, ?_⟩⟩
  rw [computeState_eq self2 libm (n + 2) pitchState flappingState
    aeroForcesState bodyState Omega _ _ _ (computeUniformInflow_eq self2 n _ _ _ _) rfl]
  simp only [computeHarmonicsInflow, hrotor, hseed]

/-- C11, amended, at a concrete pair: the scenario rotor with stored states
`(0.05, 0, 0)` and `(0.05, 0.3, 0.4)`. -/
theorem computeState_depends_on_stored_uniform_only_witness :
    ∃ st, ∀ n,
      computeState (scenarioModel 0.05) trigAtZero (n + 2) ⟨0.1, 0.02, 0.03⟩ ⟨0.05, 0.01, 0.04⟩
        ⟨0.006⟩ (constBody 0.2 0 0 0.001 0.002) 30 = some st
      ∧ computeState ⟨scenarioRotor, ⟨0.05, 0.3, 0.4⟩⟩ trigAtZero (n + 2) ⟨0.1, 0.02, 0.03⟩
        ⟨0.05, 0.01, 0.04⟩ ⟨0.006⟩ (constBody 0.2 0 0 0.001 0.002) 30 = some st :=
  computeState_depends_on_stored_uniform_only (scenarioModel 0.05)
    ⟨scenarioRotor, ⟨0.05, 0.3, 0.4⟩⟩ trigAtZero ⟨0.1, 0.02, 0.03⟩ ⟨0.05, 0.01, 0.04⟩
    ⟨0.006⟩ (constBody 0.2 0 0 0.001 0.002) 30 rfl rfl

/-- C12: `computeState` leaves the object as it was (neither the stored inflow state nor
the rotor configuration changes), and two calls in succession with identical arguments
return the same `InflowState`; two loop passes are always enough. -/
theorem computeStateTwice_same_result (self : HarmonicInflowModel Binary64)
    (libm : Trig Binary64) (pitchState : PitchState Binary64)
    (flappingState : FlappingState Binary64) (aeroForcesState : BladeForceState Binary64)
    (bodyState : BodyState Binary64) (Omega : Binary64) :
    ∃ st, ∀ n,
      computeStateCall self libm (n + 2) pitchState flappingState aeroForcesState bodyState
        Omega = some (st, self)
      ∧ computeStateTwice self libm (n + 2) pitchState flappingState aeroForcesState bodyState
        Omega = some (st, st, self) := by
  obtain ⟨st, hst⟩ := computeState_total self libm pitchState flappingState aeroForcesState
    bodyState Omega
  refine ⟨st, fun n => ?_⟩
  have hcall : computeStateCall self libm (n + 2) pitchState flappingState aeroForcesState
      bodyState Omega = some (st, self) := by
    simp [computeStateCall, hst n]
  exact ⟨hcall, by simp [computeStateTwice, hcall]⟩

/-- C13: for every starting guess `lmd_0`, every `C_T`, `mu`, `mu_z` and every rotor,
`computeUniformInflow` returns exactly one damped update of the starting guess,
`lmd_0 + 0.6*h` with `Lambda` and `h` evaluated at `lmd_0`.  One loop pass returns it
when the update moved the guess by at most the tolerance; otherwise a second pass
computes the same value again and returns it. -/
theorem computeUniformInflow_one_update (self : HarmonicInflowModel Binary64)
    (lmd_0 C_T mu mu_z : Binary64) :
    ∃ r, r = lmd_0 + 0.6 *
          (-((2*lmd_0*DoubleMath.sqrt (DoubleMath.pow_2 mu + DoubleMath.pow_2 (lmd_0 - mu_z))
                - C_T) * (DoubleMath.pow_2 mu + DoubleMath.pow_2 (lmd_0 - mu_z)))
            / (2*DoubleMath.pow_1_5 (DoubleMath.pow_2 mu + DoubleMath.pow_2 (lmd_0 - mu_z))
                + self.rotor.blade.a0*self.rotor.solidity/4.0
                  * (DoubleMath.pow_2 mu + DoubleMath.pow_2 (lmd_0 - mu_z))
                - C_T*(mu_z - lmd_0)))
      ∧ computeUniformInflow self 1 lmd_0 C_T mu mu_z
        = (if DoubleArith.gt (DoubleArith.abs (r - lmd_0)) 0.001 then none else some r)
      ∧ ∀ n, computeUniformInflow self (n + 2) lmd_0 C_T mu mu_z = some r := by
  refine ⟨_, rfl, ?_, fun n => computeUniformInflow_eq self n lmd_0 C_T mu mu_z⟩
  simp only [computeUniformInflow, uniformInflowLoop]

/-- C18: the pair returned by `computeHarmonicsInflow` does not depend on the azimuth
`psi_w`, on the collective pitch `th_0`, the coning `beta_0`, the twist `th_tw`, the
advance ratios returned by `mu` and `mu_z` (nor on the radius `R` passed to them, the
`Z` body rate, the stored inflow state or the values of `std::sin` and `std::cos`):
two calls that differ only in these return the same pair. -/
theorem computeHarmonicsInflow_unused_inputs {α : Type} [DoubleArith α]
    (a0 s th_1c th_1s beta_1c beta_1s pBar qBar Omega lmd_0 : α)
    (R R2 th_tw th_tw2 th_0 th_02 beta_0 beta_02 psi_w psi_w2 rBar rBar2 : α)
    (mu mu2 mu_z mu_z2 : α → α → α) (stored stored2 : InflowState α) (libm libm2 : Trig α) :
    computeHarmonicsInflow ⟨⟨⟨a0, R, th_tw⟩, s⟩, stored⟩ libm ⟨th_0, th_1c, th_1s⟩
        ⟨beta_0, beta_1c, beta_1s⟩ ⟨mu, mu_z, psi_w, fun _ => ⟨pBar, qBar, rBar⟩⟩ Omega lmd_0
      = computeHarmonicsInflow ⟨⟨⟨a0, R2, th_tw2⟩, s⟩, stored2⟩ libm2 ⟨th_02, th_1c, th_1s⟩
        ⟨beta_02, beta_1c, beta_1s⟩ ⟨mu2, mu_z2, psi_w2, fun _ => ⟨pBar, qBar, rBar2⟩⟩ Omega
        lmd_0 :=
  rfl

end HarmonicInflowModel

/-! ## Rounding error of the operations

An operation whose result is a normal number returns its exact result with a relative
error of at most `2^-53` (`Near`). -/

namespace Binary64

theorem roundHalfEven_near (num den : ℕ) (hden : 0 < den) :
    |(((if den < 2 * (num % den) ∨ (2 * (num % den) = den ∧ num / den % 2 = 1)
        then num / den + 1 else num / den : ℕ) : ℚ)) - (num : ℚ) / den| ≤ 1 / 2 := by
  have hdq : (0:ℚ) < den := by exact_mod_cast hden
  have hsplit : (num : ℚ) = den * ((num / den : ℕ) : ℚ) + ((num % den : ℕ) : ℚ) := by
    exact_mod_cast (Nat.div_add_mod num den).symm
  have hr0 : (0:ℚ) ≤ ((num % den : ℕ) : ℚ) := by positivity
  have e : (num:ℚ)/den = ((num / den : ℕ) : ℚ) + ((num % den : ℕ):ℚ)/den := by
    field_simp
    linarith
  rw [e, abs_le]
  split_ifs with h
  · have h2 : (den : ℚ) ≤ 2 * ((num % den : ℕ) : ℚ) := by
      rcases h with h | h
      · exact_mod_cast h.le
      · exact_mod_cast h.1.symm.le
    have hr : ((num % den : ℕ) : ℚ) < den := by exact_mod_cast Nat.mod_lt num hden
    have h3 : ((num % den : ℕ):ℚ)/den < 1 := by rw [div_lt_one hdq]; exact hr
    have h4 : (1:ℚ)/2 ≤ ((num % den : ℕ):ℚ)/den := by rw [le_div_iff₀ hdq]; linarith
    push_cast
    constructor <;> linarith
  · have h2 : 2 * ((num % den : ℕ) : ℚ) ≤ den := by
      have : ¬ den < 2 * (num % den) := fun hh => h (Or.inl hh)
      exact_mod_cast not_lt.mp this
    have h3 : 0 ≤ ((num % den : ℕ):ℚ)/den := by positivity
    have h4 : ((num % den : ℕ):ℚ)/den ≤ 1/2 := by rw [div_le_iff₀ hdq]; linarith
    constructor <;> linarith

theorem zpow_toNat_sub (e : ℤ) : ((2:ℚ) ^ e.toNat) / (2:ℚ) ^ (-e).toNat = (2:ℚ) ^ e := by
  rcases le_total 0 e with h | h
  · have h1 : (-e).toNat = 0 := by omega
    rw [h1, pow_zero, div_one, ← zpow_natCast, Int.toNat_of_nonneg h]
  · have h1 : e.toNat = 0 := by omega
    have h2 : ((-e).toNat : ℤ) = -e := Int.toNat_of_nonneg (by omega)
    rw [h1, pow_zero, ← zpow_natCast, h2, zpow_neg, one_div, inv_inv]

/-- The result of rounding `n / d`, when it is a normal number, has the requested sign and
is within half a unit in the last place of `n / d`. -/
theorem roundNE_fin (neg : Bool) (n d : ℕ) (hd : 0 < d) (s : Bool) (m : ℕ) (e : ℤ)
    (h : roundNE neg n d = fin s m e) (hm : 2 ^ 52 ≤ m) :
    s = neg ∧ |(m : ℚ) * (2:ℚ) ^ e - (n : ℚ) / d| ≤ (m : ℚ) * (2:ℚ) ^ e / 2 ^ 53 := by
  unfold roundNE at h
  by_cases hn : n = 0
  · simp [hn] at h
    omega
  · have hd0 : d ≠ 0 := by omega
    simp only [hn, hd0, or_self, if_false] at h
    generalize (max (if n * 2 ^ (-((bitLen n : ℤ) - (bitLen d : ℤ) - 52)).toNat
        < d * 2 ^ ((bitLen n : ℤ) - (bitLen d : ℤ) - 52).toNat * 2 ^ 52
        then (bitLen n : ℤ) - (bitLen d : ℤ) - 52 - 1 else (bitLen n : ℤ) - (bitLen d : ℤ) - 52)
        (-1074)) = E at h
    have hden : 0 < d * 2 ^ E.toNat := by positivity
    have hnear := roundHalfEven_near (n * 2 ^ (-E).toNat) (d * 2 ^ E.toNat) hden
    have hval : ((n * 2 ^ (-E).toNat : ℕ) : ℚ) / ((d * 2 ^ E.toNat : ℕ) : ℚ)
        = (n : ℚ) / d / (2:ℚ) ^ E := by
      rw [← zpow_toNat_sub E]
      push_cast
      field_simp
    rw [hval] at hnear
    generalize (if d * 2 ^ E.toNat < 2 * (n * 2 ^ (-E).toNat % (d * 2 ^ E.toNat)) ∨
        2 * (n * 2 ^ (-E).toNat % (d * 2 ^ E.toNat)) = d * 2 ^ E.toNat ∧
        n * 2 ^ (-E).toNat / (d * 2 ^ E.toNat) % 2 = 1
        then n * 2 ^ (-E).toNat / (d * 2 ^ E.toNat) + 1
        else n * 2 ^ (-E).toNat / (d * 2 ^ E.toNat)) = q1 at h hnear
    have hE : (0:ℚ) < (2:ℚ) ^ E := by positivity
    have key : ∀ (M : ℕ) (F : ℤ), (M : ℚ) * (2:ℚ) ^ F = (q1 : ℚ) * (2:ℚ) ^ E → 2 ^ 52 ≤ q1 →
        |(M : ℚ) * (2:ℚ) ^ F - (n : ℚ) / d| ≤ (M : ℚ) * (2:ℚ) ^ F / 2 ^ 53 := by
      intro M F hMF hq
      rw [hMF]
      have hq' : (2:ℚ) ^ 52 ≤ (q1 : ℚ) := by exact_mod_cast hq
      have h1 : (q1 : ℚ) * (2:ℚ) ^ E - (n : ℚ) / d
          = (2:ℚ) ^ E * ((q1 : ℚ) - (n : ℚ) / d / (2:ℚ) ^ E) := by
        field_simp
        ring
      rw [h1, abs_mul, abs_of_pos hE]
      have h2 : (2:ℚ) ^ E * |(q1 : ℚ) - (n : ℚ) / d / (2:ℚ) ^ E| ≤ (2:ℚ) ^ E * (1 / 2) :=
        mul_le_mul_of_nonneg_left hnear hE.le
      have h3 : (2:ℚ) ^ E * (1 / 2) ≤ (q1 : ℚ) * (2:ℚ) ^ E / 2 ^ 53 := by
        rw [le_div_iff₀ (by positivity)]
        nlinarith
      linarith
    split_ifs at h with h0 h53 hov hov2
    · cases h; omega
    · cases h
      refine ⟨rfl, key _ _ ?_ (by omega)⟩
      rw [h53, zpow_add_one₀ (by norm_num)]
      push_cast
      ring
    · cases h
      exact ⟨rfl, key _ _ rfl hm⟩


/-- The sign factor of a value. -/
theorem sgn_abs (b : Bool) : |(if b then (-1:ℚ) else 1)| = 1 := by
  cases b <;> simp

theorem sgn_xor (a b : Bool) :
    (if xor a b then (-1:ℚ) else 1) = (if a then -1 else 1) * (if b then -1 else 1) := by
  cases a <;> cases b <;> simp

theorem toRat_roundNE (neg : Bool) (n d : ℕ) (hd : 0 < d)
    (hN : isNormal (roundNE neg n d) = true) :
    |toRat (roundNE neg n d) - (if neg then -1 else 1) * ((n : ℚ) / d)|
      ≤ |toRat (roundNE neg n d)| / 2 ^ 53 := by
  cases h : roundNE neg n d with
  | nan => rw [h] at hN; simp [isNormal] at hN
  | inf s => rw [h] at hN; simp [isNormal] at hN
  | fin s m e =>
    rw [h] at hN
    have hm : 2 ^ 52 ≤ m := by simpa [isNormal] using hN
    obtain ⟨hs, hb⟩ := roundNE_fin neg n d hd s m e h hm
    subst hs
    have hpos : (0:ℚ) ≤ (m : ℚ) * (2:ℚ) ^ e := by positivity
    have h1 : toRat (fin s m e) - (if s then -1 else 1) * ((n : ℚ) / d)
        = (if s then (-1:ℚ) else 1) * ((m : ℚ) * (2:ℚ) ^ e - (n : ℚ) / d) := by
      simp only [toRat]; ring
    have h2 : |toRat (fin s m e)| = (m : ℚ) * (2:ℚ) ^ e := by
      simp only [toRat]
      rw [mul_assoc, abs_mul, sgn_abs, one_mul, abs_of_nonneg hpos]
    rw [h1, h2, abs_mul, sgn_abs, one_mul]
    exact hb

theorem toRat_roundScaled (neg : Bool) (m : ℕ) (e : ℤ)
    (hN : isNormal (roundScaled neg m e) = true) :
    |toRat (roundScaled neg m e) - (if neg then -1 else 1) * ((m : ℚ) * (2:ℚ) ^ e)|
      ≤ |toRat (roundScaled neg m e)| / 2 ^ 53 := by
  have h := toRat_roundNE neg (m * 2 ^ e.toNat) (2 ^ (-e).toNat) (by positivity) hN
  have hv : ((m * 2 ^ e.toNat : ℕ) : ℚ) / ((2 ^ (-e).toNat : ℕ) : ℚ) = (m : ℚ) * (2:ℚ) ^ e := by
    rw [← zpow_toNat_sub e]
    push_cast
    ring
  rw [hv] at h
  exact h

theorem mul_near (x y : Binary64) (hN : isNormal (mul x y) = true) :
    Near (toRat (mul x y)) (toRat x * toRat y) := by
  cases x with
  | nan => simp [mul, isNormal] at hN
  | inf n1 =>
    cases y with
    | nan => simp [mul, isNormal] at hN
    | inf n2 => simp [mul, isNormal] at hN
    | fin n2 m2 e2 =>
      simp only [mul] at hN
      split_ifs at hN <;> simp [isNormal] at hN
  | fin n1 m1 e1 =>
    cases y with
    | nan => simp [mul, isNormal] at hN
    | inf n2 =>
      simp only [mul] at hN
      split_ifs at hN <;> simp [isNormal] at hN
    | fin n2 m2 e2 =>
      have h := toRat_roundScaled (xor n1 n2) (m1 * m2) (e1 + e2) hN
      have hv : toRat (fin n1 m1 e1) * toRat (fin n2 m2 e2)
          = (if xor n1 n2 then (-1:ℚ) else 1) * (((m1 * m2 : ℕ) : ℚ) * (2:ℚ) ^ (e1 + e2)) := by
        simp only [toRat]
        rw [sgn_xor, zpow_add₀ (by norm_num)]
        push_cast
        ring
      unfold Near
      rw [hv]
      exact h

theorem div_near (x y : Binary64) (hN : isNormal (div x y) = true) :
    Near (toRat (div x y)) (toRat x / toRat y) := by
  cases x with
  | nan => simp [div, isNormal] at hN
  | inf n1 => cases y <;> simp [div, isNormal] at hN
  | fin n1 m1 e1 =>
    cases y with
    | nan => simp [div, isNormal] at hN
    | inf n2 => simp [div, isNormal] at hN
    | fin n2 m2 e2 =>
      simp only [div] at hN ⊢
      by_cases hm2 : m2 = 0
      · simp only [hm2, if_true] at hN
        split_ifs at hN <;> simp [isNormal] at hN
      · simp only [hm2, if_false] at hN ⊢
        have hd : 0 < m2 * 2 ^ (e2 - e1).toNat := by
          have : 0 < m2 := Nat.pos_of_ne_zero hm2
          positivity
        have h := toRat_roundNE (xor n1 n2) _ _ hd hN
        have hm2q : (m2 : ℚ) ≠ 0 := by exact_mod_cast hm2
        have hv : toRat (fin n1 m1 e1) / toRat (fin n2 m2 e2)
            = (if xor n1 n2 then (-1:ℚ) else 1)
              * (((m1 * 2 ^ (e1 - e2).toNat : ℕ) : ℚ) / ((m2 * 2 ^ (e2 - e1).toNat : ℕ) : ℚ)) := by
          simp only [toRat]
          have hz := zpow_toNat_sub (e1 - e2)
          rw [show -(e1 - e2) = e2 - e1 by ring, zpow_sub₀ (by norm_num)] at hz
          rw [sgn_xor]
          push_cast
          have h2e1 : (2:ℚ) ^ e1 ≠ 0 := by positivity
          have h2e2 : (2:ℚ) ^ e2 ≠ 0 := by positivity
          have ha : (2:ℚ) ^ (e1 - e2).toNat = (2:ℚ) ^ e1 / (2:ℚ) ^ e2 * (2:ℚ) ^ (e2 - e1).toNat := by
            rw [← hz]; field_simp
          rw [ha]
          cases n1 <;> cases n2 <;> simp <;> field_simp <;> ring
        unfold Near
        rw [hv]
        exact h


theorem signedInt_cast (n : Bool) (m k : ℕ) :
    ((signedInt n m k : ℤ) : ℚ) = (if n then -1 else 1) * ((m : ℚ) * 2 ^ k) := by
  cases n <;> simp [signedInt]

theorem pow_toNat_mul_zpow (a b : ℤ) (h : b ≤ a) :
    (2:ℚ) ^ (a - b).toNat * (2:ℚ) ^ b = (2:ℚ) ^ a := by
  have h1 : ((a - b).toNat : ℤ) = a - b := Int.toNat_of_nonneg (by omega)
  rw [← zpow_natCast, h1, ← zpow_add₀ (by norm_num)]
  congr 1
  ring

theorem add_near (x y : Binary64) (hN : isNormal (add x y) = true) :
    Near (toRat (add x y)) (toRat x + toRat y) := by
  cases x with
  | nan => simp [add, isNormal] at hN
  | inf n1 =>
    cases y with
    | nan => simp [add, isNormal] at hN
    | inf n2 =>
      simp only [add] at hN
      split_ifs at hN <;> simp [isNormal] at hN
    | fin n2 m2 e2 => simp [add, isNormal] at hN
  | fin n1 m1 e1 =>
    cases y with
    | nan => simp [add, isNormal] at hN
    | inf n2 => simp [add, isNormal] at hN
    | fin n2 m2 e2 =>
      simp only [add] at hN ⊢
      split_ifs at hN ⊢ with h0
      · simp [isNormal] at hN
      · have h := toRat_roundScaled _ _ _ hN
        have hv : toRat (fin n1 m1 e1) + toRat (fin n2 m2 e2)
            = (if decide (signedInt n1 m1 (e1 - min e1 e2).toNat
                  + signedInt n2 m2 (e2 - min e1 e2).toNat < 0) then (-1:ℚ) else 1)
              * ((((signedInt n1 m1 (e1 - min e1 e2).toNat
                  + signedInt n2 m2 (e2 - min e1 e2).toNat).natAbs : ℕ) : ℚ)
                * (2:ℚ) ^ (min e1 e2)) := by
          have hs : ∀ z : ℤ, (if decide (z < 0) then (-1:ℚ) else 1) * ((z.natAbs : ℕ) : ℚ)
              = (z : ℚ) := by
            intro z
            rcases lt_or_le z 0 with hz | hz
            · simp only [hz, decide_True, if_true]
              rw [Nat.cast_natAbs, abs_of_neg hz]
              push_cast
              ring
            · simp only [not_lt.mpr hz, decide_False]
              rw [Nat.cast_natAbs, abs_of_nonneg hz]
              simp
          rw [← mul_assoc, hs]
          push_cast
          rw [signedInt_cast, signedInt_cast]
          simp only [toRat]
          have ha := pow_toNat_mul_zpow e1 (min e1 e2) (min_le_left _ _)
          have hb := pow_toNat_mul_zpow e2 (min e1 e2) (min_le_right _ _)
          rw [← ha, ← hb]
          ring
        unfold Near
        rw [hv]
        exact h

theorem toRat_neg (x : Binary64) : toRat (neg x) = - toRat x := by
  cases x with
  | nan => simp [neg, toRat]
  | inf n => simp [neg, toRat]
  | fin n m e => cases n <;> simp [neg, toRat]

theorem sub_near (x y : Binary64) (hN : isNormal (sub x y) = true) :
    Near (toRat (sub x y)) (toRat x - toRat y) := by
  have h := add_near x (neg y) hN
  rw [toRat_neg, ← sub_eq_add_neg] at h
  exact h

theorem pow_2_near (x : Binary64) (hN : isNormal (pow_2 x) = true) :
    Near (toRat (pow_2 x)) (toRat x ^ 2) := by
  cases x with
  | nan => simp [pow_2, isNormal] at hN
  | inf n => simp [pow_2, isNormal] at hN
  | fin n m e =>
    have h := toRat_roundScaled false (m * m) (2 * e) hN
    have hv : toRat (fin n m e) ^ 2
        = (if false then (-1:ℚ) else 1) * (((m * m : ℕ) : ℚ) * (2:ℚ) ^ (2 * e)) := by
      simp only [toRat]
      rw [show 2 * e = e + e by ring, zpow_add₀ (by norm_num)]
      push_cast
      cases n <;> simp <;> ring
    unfold Near
    rw [hv]
    exact h

/-! ### Consequences of `Near` -/

theorem Near.pos_iff {z v : ℚ} (h : Near z v) (hz : z ≠ 0) : 0 < z ↔ 0 < v := by
  unfold Near at h
  have hzabs : 0 < |z| := abs_pos.mpr hz
  have h1 : |z| / 2 ^ 53 < |z| := by
    rw [div_lt_iff₀ (by positivity)]
    nlinarith
  have h2 := abs_le.mp (h.trans h1.le)
  have h3 := abs_lt.mp (lt_of_le_of_lt h h1)
  constructor
  · intro hp
    rw [abs_of_pos hp] at h3
    linarith [h3.2]
  · intro hv
    by_contra hn
    have hneg : z < 0 := lt_of_le_of_ne (not_lt.mp hn) hz
    rw [abs_of_neg hneg] at h3
    linarith [h3.1]

theorem Near.bounds {z v : ℚ} (h : Near z v) (hz : 0 < z) :
    z * (1 - 1 / 2 ^ 53) ≤ v ∧ v ≤ z * (1 + 1 / 2 ^ 53) := by
  unfold Near at h
  rw [abs_of_pos hz] at h
  have h2 := abs_le.mp h
  constructor <;> linarith [h2.1, h2.2]

theorem isNormal_toRat_ne_zero (x : Binary64) (h : isNormal x = true) : toRat x ≠ 0 := by
  cases x with
  | nan => simp [isNormal] at h
  | inf n => simp [isNormal] at h
  | fin n m e =>
    have hm : 2 ^ 52 ≤ m := by simpa [isNormal] using h
    have : (0:ℚ) < (m : ℚ) := by
      have : 0 < m := by omega
      exact_mod_cast this
    simp only [toRat]
    have h2 : (0:ℚ) < (2:ℚ) ^ e := by positivity
    have h3 : (if n then (-1:ℚ) else 1) ≠ 0 := by cases n <;> simp
    exact mul_ne_zero (mul_ne_zero h3 this.ne') h2.ne'

end Binary64

/-! ## The harmonic gain (lines 94-96) -/

namespace Binary64

theorem gain_chain (a b p q k s C t g : ℚ) (ha : 0 < a) (hb : 0 < b) (ha1 : a ≤ 1)
    (hb1 : 1 ≤ b) (hp : 0 < p) (hq : 0 < q) (hk : 0 < k) (hs : 0 < s) (hC : 0 < C)
    (ht : 0 < t) (hg : 0 < g)
    (k1 : k * q * a ≤ p) (k2 : p ≤ k * q * b)
    (s1 : s * a ≤ 1 + k) (s2 : 1 + k ≤ s * b)
    (C1 : C * s * a ≤ 1) (C2 : 1 ≤ C * s * b)
    (t1 : t * a ≤ C * p) (t2 : C * p ≤ t * b)
    (g1 : g * q * a ≤ t) (g2 : t ≤ g * q * b) :
    g * (q + p) * a ^ 3 ≤ p * b ^ 2 ∧ p * a ^ 2 ≤ g * (q + p) * b ^ 3 := by
  constructor
  · have A1 : g * q * a ^ 2 ≤ C * p :=
      calc g * q * a ^ 2 = g * q * a * a := by ring
        _ ≤ t * a := mul_le_mul_of_nonneg_right g1 ha.le
        _ ≤ C * p := t1
    have A2 : g * q * s * a ^ 3 ≤ p :=
      calc g * q * s * a ^ 3 = g * q * a ^ 2 * (s * a) := by ring
        _ ≤ C * p * (s * a) := mul_le_mul_of_nonneg_right A1 (by positivity)
        _ = C * s * a * p := by ring
        _ ≤ 1 * p := mul_le_mul_of_nonneg_right C1 hp.le
        _ = p := one_mul p
    have B1 : q + p ≤ q * s * b ^ 2 :=
      calc q + p ≤ q * b + k * q * b := add_le_add (le_mul_of_one_le_right hq.le hb1) k2
        _ = q * (1 + k) * b := by ring
        _ ≤ q * (s * b) * b :=
          mul_le_mul_of_nonneg_right (mul_le_mul_of_nonneg_left s2 hq.le) hb.le
        _ = q * s * b ^ 2 := by ring
    calc g * (q + p) * a ^ 3 ≤ g * (q * s * b ^ 2) * a ^ 3 :=
          mul_le_mul_of_nonneg_right (mul_le_mul_of_nonneg_left B1 hg.le) (by positivity)
      _ = g * q * s * a ^ 3 * b ^ 2 := by ring
      _ ≤ p * b ^ 2 := mul_le_mul_of_nonneg_right A2 (by positivity)
  · have A1 : C * p ≤ g * q * b ^ 2 :=
      calc C * p ≤ t * b := t2
        _ ≤ g * q * b * b := mul_le_mul_of_nonneg_right g2 hb.le
        _ = g * q * b ^ 2 := by ring
    have A2 : p ≤ g * q * s * b ^ 3 :=
      calc p = 1 * p := (one_mul p).symm
        _ ≤ C * s * b * p := mul_le_mul_of_nonneg_right C2 hp.le
        _ = C * p * (s * b) := by ring
        _ ≤ g * q * b ^ 2 * (s * b) := mul_le_mul_of_nonneg_right A1 (by positivity)
        _ = g * q * s * b ^ 3 := by ring
    have B1 : q * s * a ^ 2 ≤ q + p :=
      calc q * s * a ^ 2 = q * (s * a) * a := by ring
        _ ≤ q * (1 + k) * a :=
          mul_le_mul_of_nonneg_right (mul_le_mul_of_nonneg_left s1 hq.le) ha.le
        _ = q * a + k * q * a := by ring
        _ ≤ q + p := add_le_add (mul_le_of_le_one_right hq.le ha1) k1
    calc p * a ^ 2 ≤ g * q * s * b ^ 3 * a ^ 2 :=
          mul_le_mul_of_nonneg_right A2 (by positivity)
      _ = g * (q * s * a ^ 2) * b ^ 3 := by ring
      _ ≤ g * (q + p) * b ^ 3 :=
          mul_le_mul_of_nonneg_right (mul_le_mul_of_nonneg_left B1 hg.le) (by positivity)


theorem toRat_one : toRat (1 : Binary64) = 1 := by
  rw [lit_one]
  simp only [toRat]
  norm_num

theorem toRat_sixteen : toRat (16 : Binary64) = 16 := by
  rw [lit_sixteen]
  simp only [toRat]
  norm_num

theorem toRat_zero : toRat (0 : Binary64) = 0 := by
  rw [lit_zero]
  simp [toRat]

/-- A finite value that compares greater than `0` stands for a positive number. -/
theorem toRat_pos_of_gt_zero (x : Binary64) (h : gt x 0 = true) (hx : isInf x = false) :
    0 < toRat x := by
  rw [lit_zero] at h
  cases x with
  | nan => simp [gt] at h
  | inf n => simp [isInf] at hx
  | fin n m e =>
    simp only [gt, signedInt_zero, decide_eq_true_eq] at h
    cases n with
    | true =>
      simp only [signedInt, if_true] at h
      omega
    | false =>
      simp only [signedInt, if_false] at h
      have hm : 0 < m := by
        rcases Nat.eq_zero_or_pos m with h0 | h0
        · subst h0; simp at h
        · exact h0
      simp only [toRat]
      have : (0:ℚ) < (m:ℚ) := by exact_mod_cast hm
      have h2 : (0:ℚ) < (2:ℚ) ^ e := by positivity
      simp
      positivity

theorem isNormal_not_isInf (x : Binary64) (h : isNormal x = true) : isInf x = false := by
  cases x <;> simp_all [isNormal, isInf]

/-- A normal product has finite factors. -/
theorem mul_normal_finite (x y : Binary64) (h : isNormal (mul x y) = true) :
    isInf x = false ∧ isInf y = false := by
  cases x with
  | nan => simp [mul, isNormal] at h
  | inf n1 =>
    cases y with
    | nan => simp [mul, isNormal] at h
    | inf n2 => simp [mul, isNormal] at h
    | fin n2 m2 e2 =>
      simp only [mul] at h
      split_ifs at h <;> simp [isNormal] at h
  | fin n1 m1 e1 =>
    cases y with
    | nan => simp [mul, isNormal] at h
    | inf n2 =>
      simp only [mul] at h
      split_ifs at h <;> simp [isNormal] at h
    | fin n2 m2 e2 => simp [isInf]

theorem Near.abs_bounds {z v : ℚ} (h : Near z v) :
    |z| * (1 - 1 / 2 ^ 53) ≤ |v| ∧ |v| ≤ |z| * (1 + 1 / 2 ^ 53) := by
  unfold Near at h
  have h1 : |z| - |v| ≤ |z - v| := abs_sub_abs_le_abs_sub z v
  have h2 : |v| - |z| ≤ |z - v| := by
    rw [abs_sub_comm z v]; exact abs_sub_abs_le_abs_sub v z
  constructor <;> linarith

/-- The gain of the harmonic corrector, `C_prime*p/q` with `C_prime = 1/(1 + p/q)`, for
positive `p` and `q`, when every intermediate result is a normal number: the gain is
positive and within a few rounding errors of `p/(q + p)`. -/
theorem harmonic_gain_near (p q : Binary64) (hp : 0 < toRat p) (hq : 0 < toRat q)
    (hk : isNormal (p / q) = true) (hs : isNormal (1 + p / q) = true)
    (hC : isNormal (1 / (1 + p / q)) = true) (ht : isNormal (1 / (1 + p / q) * p) = true)
    (hg : isNormal (1 / (1 + p / q) * p / q) = true) :
    0 < toRat (1 / (1 + p / q) * p / q)
    ∧ toRat (1 / (1 + p / q) * p / q) * (toRat q + toRat p) * (1 - 1 / 2 ^ 53) ^ 3
        ≤ toRat p * (1 + 1 / 2 ^ 53) ^ 2
    ∧ toRat p * (1 - 1 / 2 ^ 53) ^ 2
        ≤ toRat (1 / (1 + p / q) * p / q) * (toRat q + toRat p) * (1 + 1 / 2 ^ 53) ^ 3 := by
  have nk := div_near p q hk
  have ns := add_near 1 (p / q) hs
  have nC := div_near 1 (1 + p / q) hC
  have nt := mul_near (1 / (1 + p / q)) p ht
  have ng := div_near (1 / (1 + p / q) * p) q hg
  rw [toRat_one] at ns nC
  have k0 := isNormal_toRat_ne_zero _ hk
  have s0 := isNormal_toRat_ne_zero _ hs
  have C0 := isNormal_toRat_ne_zero _ hC
  have t0 := isNormal_toRat_ne_zero _ ht
  have g0 := isNormal_toRat_ne_zero _ hg
  change Near (toRat (p / q)) _ at nk
  change Near (toRat (1 + p / q)) _ at ns
  change Near (toRat (1 / (1 + p / q))) _ at nC
  change Near (toRat (1 / (1 + p / q) * p)) _ at nt
  change Near (toRat (1 / (1 + p / q) * p / q)) _ at ng
  change toRat (p / q) ≠ 0 at k0
  generalize toRat (p / q) = k at nk ns k0
  generalize toRat (1 + p / q) = s at ns nC s0
  generalize toRat (1 / (1 + p / q)) = C at nC nt C0
  generalize toRat (1 / (1 + p / q) * p) = t at nt ng t0
  generalize toRat (1 / (1 + p / q) * p / q) = g at ng g0 ⊢
  generalize toRat p = P at hp nk nt ⊢
  generalize toRat q = Q at hq nk ng ⊢
  have kpos : 0 < k := (nk.pos_iff k0).mpr (div_pos hp hq)
  have spos : 0 < s := (ns.pos_iff s0).mpr (by linarith)
  have Cpos : 0 < C := (nC.pos_iff C0).mpr (by positivity)
  have tpos : 0 < t := (nt.pos_iff t0).mpr (by positivity)
  have gpos : 0 < g := (ng.pos_iff g0).mpr (by positivity)
  obtain ⟨k1, k2⟩ := nk.bounds kpos
  obtain ⟨s1, s2⟩ := ns.bounds spos
  obtain ⟨C1, C2⟩ := nC.bounds Cpos
  obtain ⟨t1, t2⟩ := nt.bounds tpos
  obtain ⟨g1, g2⟩ := ng.bounds gpos
  refine ⟨gpos, gain_chain (1 - 1 / 2 ^ 53) (1 + 1 / 2 ^ 53) P Q k s C t g (by norm_num)
    (by norm_num) (by norm_num) (by norm_num) hp hq kpos spos Cpos tpos gpos ?_ ?_ s1 s2
    ?_ ?_ t1 t2 ?_ ?_⟩
  · rw [le_div_iff₀ hq] at k1; linarith
  · rw [div_le_iff₀ hq] at k2; linarith
  · rw [le_div_iff₀ spos] at C1; linarith
  · rw [div_le_iff₀ spos] at C2; linarith
  · rw [le_div_iff₀ hq] at g1; linarith
  · rw [div_le_iff₀ hq] at g2; linarith


/-- From `|Z|` between `(1 - e) * |T|` and `(1 + e) * |T|` and equal signs to
`|Z - T| ≤ e * |T|`. -/
theorem abs_sub_le_of_abs_bounds (Z T e : ℚ) (hsign : 0 < Z ↔ 0 < T) (hZ : Z ≠ 0)
    (hT : T ≠ 0) (h1 : (1 - e) * |T| ≤ |Z|) (h2 : |Z| ≤ (1 + e) * |T|) :
    |Z - T| ≤ e * |T| := by
  rcases lt_or_gt_of_ne hZ with hz | hz
  · have ht : T < 0 := by
      rcases lt_or_gt_of_ne hT with h | h
      · exact h
      · exact absurd (hsign.mpr h) (not_lt.mpr hz.le)
    rw [abs_of_neg hz, abs_of_neg ht] at h1 h2
    rw [abs_of_neg ht, abs_le]
    constructor <;> linarith
  · have ht : 0 < T := hsign.mp hz
    rw [abs_of_pos hz, abs_of_pos ht] at h1 h2
    rw [abs_of_pos ht, abs_le]
    constructor <;> linarith

/-- The product of the gain with the third factor, against the simplified form
`A * X / (L + A)`: the rational facts behind the comparison. -/
theorem harmonic_product_chain (lo hi A L P Q g X Z : ℚ) (hlo : 0 < lo) (hhi : 0 < hi)
    (hA : 0 < A) (hL : 0 < L) (hP : 0 < P) (hQ : 0 < Q) (hg : 0 < g)
    (a1 : P * lo ≤ A) (a2 : A ≤ P * hi) (l1 : Q * lo ≤ L) (l2 : L ≤ Q * hi)
    (g1 : g * (Q + P) * lo ^ 3 ≤ P * hi ^ 2) (g2 : P * lo ^ 2 ≤ g * (Q + P) * hi ^ 3)
    (z1 : |Z| * lo ≤ g * |X|) (z2 : g * |X| ≤ |Z| * hi) :
    |Z| * (L + A) * lo ^ 5 ≤ A * |X| * hi ^ 3 ∧ A * |X| * lo ^ 3 ≤ |Z| * (L + A) * hi ^ 5 := by
  have hX : 0 ≤ |X| := abs_nonneg X
  have hZ : 0 ≤ |Z| := abs_nonneg Z
  constructor
  · calc |Z| * (L + A) * lo ^ 5 ≤ |Z| * ((Q + P) * hi) * lo ^ 5 := by
          apply mul_le_mul_of_nonneg_right _ (by positivity)
          apply mul_le_mul_of_nonneg_left _ hZ
          linarith
      _ = (|Z| * lo) * ((Q + P) * lo ^ 3 * (lo * hi)) := by ring
      _ ≤ (g * |X|) * ((Q + P) * lo ^ 3 * (lo * hi)) :=
          mul_le_mul_of_nonneg_right z1 (by positivity)
      _ = (g * (Q + P) * lo ^ 3) * (|X| * (lo * hi)) := by ring
      _ ≤ (P * hi ^ 2) * (|X| * (lo * hi)) :=
          mul_le_mul_of_nonneg_right g1 (by positivity)
      _ = (P * lo) * (|X| * hi ^ 3) := by ring
      _ ≤ A * (|X| * hi ^ 3) := mul_le_mul_of_nonneg_right a1 (by positivity)
      _ = A * |X| * hi ^ 3 := by ring
  · calc A * |X| * lo ^ 3 ≤ (P * hi) * |X| * lo ^ 3 := by
          apply mul_le_mul_of_nonneg_right _ (by positivity)
          exact mul_le_mul_of_nonneg_right a2 hX
      _ = (P * lo ^ 2) * (|X| * (hi * lo)) := by ring
      _ ≤ (g * (Q + P) * hi ^ 3) * (|X| * (hi * lo)) :=
          mul_le_mul_of_nonneg_right g2 (by positivity)
      _ = (g * |X|) * ((Q + P) * lo * hi ^ 4) := by ring
      _ ≤ (|Z| * hi) * ((Q + P) * lo * hi ^ 4) :=
          mul_le_mul_of_nonneg_right z2 (by positivity)
      _ = |Z| * ((Q + P) * lo) * hi ^ 5 := by ring
      _ ≤ |Z| * (L + A) * hi ^ 5 := by
          apply mul_le_mul_of_nonneg_right _ (by positivity)
          apply mul_le_mul_of_nonneg_left _ hZ
          linarith

end Binary64

namespace HarmonicInflowModel

open Binary64 in
/-- The facts about the gain that C16 and C17 share: under their hypotheses the operands
`a0*s` and `16*lmd_0` are positive and near the exact products, and the gain is positive
and near `p/(q + p)`. -/
theorem harmonicGain_facts (a0 s lmd_0 : Binary64) (hl : Binary64.gt lmd_0 0 = true)
    (has : Binary64.gt (a0 * s) 0 = true)
    (hn : ∀ v ∈ harmonicGainSteps a0 s lmd_0, Binary64.isNormal v = true) :
    0 < toRat a0 * toRat s ∧ 0 < 16 * toRat lmd_0
    ∧ 0 < toRat (a0 * s) ∧ 0 < toRat (16 * lmd_0)
    ∧ Near (toRat (a0 * s)) (toRat a0 * toRat s)
    ∧ Near (toRat (16 * lmd_0)) (16 * toRat lmd_0)
    ∧ Near (toRat (a0 * s / (16 * lmd_0))) (toRat (a0 * s) / toRat (16 * lmd_0))
    ∧ 0 < toRat (1 / (1 + a0 * s / (16 * lmd_0)) * (a0 * s) / (16 * lmd_0))
    ∧ toRat (1 / (1 + a0 * s / (16 * lmd_0)) * (a0 * s) / (16 * lmd_0))
          * (toRat (16 * lmd_0) + toRat (a0 * s)) * (1 - 1 / 2 ^ 53) ^ 3
        ≤ toRat (a0 * s) * (1 + 1 / 2 ^ 53) ^ 2
    ∧ toRat (a0 * s) * (1 - 1 / 2 ^ 53) ^ 2
        ≤ toRat (1 / (1 + a0 * s / (16 * lmd_0)) * (a0 * s) / (16 * lmd_0))
          * (toRat (16 * lmd_0) + toRat (a0 * s)) * (1 + 1 / 2 ^ 53) ^ 3 := by
  simp only [harmonicGainSteps, List.forall_mem_cons, List.not_mem_nil, false_imp_iff,
    implies_true, and_true] at hn
  obtain ⟨hp, hq, hk, hs, hC, ht, hg⟩ := hn
  have hpp : 0 < toRat (a0 * s) := toRat_pos_of_gt_zero _ has (isNormal_not_isInf _ hp)
  have hlfin : isInf lmd_0 = false := (mul_normal_finite 16 lmd_0 hq).2
  have hlp : 0 < toRat lmd_0 := toRat_pos_of_gt_zero _ hl hlfin
  have np : Near (toRat (a0 * s)) (toRat a0 * toRat s) := mul_near a0 s hp
  have nq : Near (toRat (16 * lmd_0)) (16 * toRat lmd_0) := by
    have := mul_near 16 lmd_0 hq
    rwa [toRat_sixteen] at this
  have hqp : 0 < toRat (16 * lmd_0) :=
    (nq.pos_iff (isNormal_toRat_ne_zero _ hq)).mpr (by positivity)
  have hA : 0 < toRat a0 * toRat s := (np.pos_iff (isNormal_toRat_ne_zero _ hp)).mp hpp
  obtain ⟨g0, g1, g2⟩ := harmonic_gain_near (a0 * s) (16 * lmd_0) hpp hqp hk hs hC ht hg
  exact ⟨hA, by positivity, hpp, hqp, np, nq, div_near _ _ hk, g0, g1, g2⟩

end HarmonicInflowModel

namespace HarmonicInflowModel
open Binary64

/-- A normal product `g * X` with a gain `0 < g ≤ c`: `|g * X| ≤ c / (1 - 2^-53) * |X|`. -/
theorem mul_abs_le (g X : Binary64) (c : ℚ) (hg0 : 0 < toRat g) (hgc : toRat g ≤ c)
    (hN : isNormal (g * X) = true) :
    toRat X ≠ 0 ∧ |toRat (g * X)| * (1 - 1 / 2 ^ 53) ≤ c * |toRat X| := by
  have h : |toRat (g * X)| * (1 - 1 / 2 ^ 53) ≤ |toRat g * toRat X|
      ∧ |toRat g * toRat X| ≤ |toRat (g * X)| * (1 + 1 / 2 ^ 53) :=
    (mul_near g X hN).abs_bounds
  rw [abs_mul, abs_of_pos hg0] at h
  have hz : 0 < |toRat (g * X)| := abs_pos.mpr (isNormal_toRat_ne_zero _ hN)
  have hX : 0 < |toRat X| := by
    by_contra hc
    have h0 : |toRat X| = 0 := le_antisymm (not_lt.mp hc) (abs_nonneg _)
    rw [h0, mul_zero] at h
    have : (0:ℚ) < |toRat (g * X)| * (1 - 1 / 2 ^ 53) := by
      apply mul_pos hz; norm_num
    linarith [h.1]
  refine ⟨abs_pos.mp hX, h.1.trans ?_⟩
  exact mul_le_mul_of_nonneg_right hgc hX.le

/-- A normal product `g * X` with positive gain `g` near `A / (L + A)` is within
`2^-49` (relative) of `A * X / (L + A)`. -/
theorem harmonic_product_near (a0 s lmd_0 X : Binary64) (hl : Binary64.gt lmd_0 0 = true)
    (has : Binary64.gt (a0 * s) 0 = true)
    (hn : ∀ v ∈ harmonicGainSteps a0 s lmd_0, Binary64.isNormal v = true)
    (hN : isNormal (1 / (1 + a0 * s / (16 * lmd_0)) * (a0 * s) / (16 * lmd_0) * X) = true) :
    |toRat (1 / (1 + a0 * s / (16 * lmd_0)) * (a0 * s) / (16 * lmd_0) * X)
        - toRat a0 * toRat s * toRat X / (16 * toRat lmd_0 + toRat a0 * toRat s)|
      ≤ 1 / 2 ^ 49 * |toRat a0 * toRat s * toRat X / (16 * toRat lmd_0 + toRat a0 * toRat s)| := by
  obtain ⟨hA, hL, hP, hQ, np, nq, -, g0, g1, g2⟩ := harmonicGain_facts a0 s lmd_0 hl has hn
  have nz : Near (toRat (1 / (1 + a0 * s / (16 * lmd_0)) * (a0 * s) / (16 * lmd_0) * X))
      (toRat (1 / (1 + a0 * s / (16 * lmd_0)) * (a0 * s) / (16 * lmd_0)) * toRat X) :=
    mul_near _ X hN
  have hZ0 := isNormal_toRat_ne_zero _ hN
  generalize toRat (1 / (1 + a0 * s / (16 * lmd_0)) * (a0 * s) / (16 * lmd_0) * X) = Z
    at nz hZ0 ⊢
  generalize toRat (1 / (1 + a0 * s / (16 * lmd_0)) * (a0 * s) / (16 * lmd_0)) = g
    at g0 g1 g2 nz
  obtain ⟨a1, a2⟩ := np.bounds hP
  obtain ⟨l1, l2⟩ := nq.bounds hQ
  generalize toRat (a0 * s) = P at hP g1 g2 a1 a2
  generalize toRat (16 * lmd_0) = Q at hQ g1 g2 l1 l2
  generalize toRat a0 * toRat s = A at hA a1 a2 ⊢
  generalize 16 * toRat lmd_0 = L at hL l1 l2 ⊢
  generalize toRat X = x at nz ⊢
  have zb := nz.abs_bounds
  rw [abs_mul, abs_of_pos g0] at zb
  obtain ⟨c1, c2⟩ := harmonic_product_chain (1 - 1 / 2 ^ 53) (1 + 1 / 2 ^ 53) A L P Q g x Z
    (by norm_num) (by norm_num) hA hL hP hQ g0 a1 a2 l1 l2 g1 g2 zb.1 zb.2
  have hD : 0 < L + A := by linarith
  have hZabs : 0 < |Z| := abs_pos.mpr hZ0
  have hx0 : x ≠ 0 := by
    intro h0
    rw [h0, abs_zero, mul_zero] at zb
    have : (0:ℚ) < |Z| * (1 - 1 / 2 ^ 53) := mul_pos hZabs (by norm_num)
    linarith [zb.1]
  have hT : A * x / (L + A) ≠ 0 := div_ne_zero (mul_ne_zero hA.ne' hx0) hD.ne'
  have hTabs : |A * x / (L + A)| = A * |x| / (L + A) := by
    rw [abs_div, abs_mul, abs_of_pos hA, abs_of_pos hD]
  have hsign : 0 < Z ↔ 0 < A * x / (L + A) := by
    rw [nz.pos_iff hZ0]
    constructor
    · intro h
      have hx : 0 < x := by
        by_contra hc
        have : g * x ≤ 0 := mul_nonpos_of_nonneg_of_nonpos g0.le (not_lt.mp hc)
        linarith
      positivity
    · intro h
      have hx : 0 < x := by
        by_contra hc
        have : A * x / (L + A) ≤ 0 :=
          div_nonpos_of_nonpos_of_nonneg (mul_nonpos_of_nonneg_of_nonpos hA.le (not_lt.mp hc))
            hD.le
        linarith
      positivity
  apply abs_sub_le_of_abs_bounds Z _ _ hsign hZ0 hT
  · rw [hTabs, mul_div_assoc', div_le_iff₀ hD]
    have e1 : (1 - 1 / 2 ^ 49 : ℚ) * (1 + 1 / 2 ^ 53) ^ 5 ≤ (1 - 1 / 2 ^ 53) ^ 3 := by norm_num
    have h1 : (1 - 1 / 2 ^ 49) * (A * |x|) * (1 + 1 / 2 ^ 53) ^ 5
        ≤ |Z| * (L + A) * (1 + 1 / 2 ^ 53) ^ 5 := by
      calc (1 - 1 / 2 ^ 49) * (A * |x|) * (1 + 1 / 2 ^ 53) ^ 5
          = (A * |x|) * ((1 - 1 / 2 ^ 49) * (1 + 1 / 2 ^ 53) ^ 5) := by ring
        _ ≤ (A * |x|) * (1 - 1 / 2 ^ 53) ^ 3 :=
            mul_le_mul_of_nonneg_left e1 (by positivity)
        _ ≤ |Z| * (L + A) * (1 + 1 / 2 ^ 53) ^ 5 := c2
    exact le_of_mul_le_mul_right h1 (by norm_num)
  · rw [hTabs, mul_div_assoc', le_div_iff₀ hD]
    have e1 : (1 + 1 / 2 ^ 53 : ℚ) ^ 3 ≤ (1 + 1 / 2 ^ 49) * (1 - 1 / 2 ^ 53) ^ 5 := by norm_num
    have h1 : |Z| * (L + A) * (1 - 1 / 2 ^ 53) ^ 5
        ≤ (1 + 1 / 2 ^ 49) * (A * |x|) * (1 - 1 / 2 ^ 53) ^ 5 := by
      calc |Z| * (L + A) * (1 - 1 / 2 ^ 53) ^ 5 ≤ A * |x| * (1 + 1 / 2 ^ 53) ^ 3 := c1
        _ ≤ A * |x| * ((1 + 1 / 2 ^ 49) * (1 - 1 / 2 ^ 53) ^ 5) :=
            mul_le_mul_of_nonneg_left e1 (by positivity)
        _ = (1 + 1 / 2 ^ 49) * (A * |x|) * (1 - 1 / 2 ^ 53) ^ 5 := by ring
    exact le_of_mul_le_mul_right h1 (by norm_num)

end HarmonicInflowModel

/-! ## Values that rounding leaves unchanged, and monotonicity of rounding -/

namespace Binary64

theorem bitLenTop_spec (n : ℕ) : ∀ (fuel j : ℕ), n < 2 ^ 2 ^ (j + fuel) →
    n < 2 ^ 2 ^ (bitLenTop n fuel j)
  | 0, j, h => by simpa [bitLenTop] using h
  | fuel + 1, j, h => by
    simp only [bitLenTop]
    split_ifs with hc
    · apply bitLenTop_spec n fuel (j + 1)
      rw [show j + 1 + fuel = j + (fuel + 1) by ring]
      exact h
    · exact not_le.mp hc

theorem bitLenGo_spec (n : ℕ) : ∀ (k lo : ℕ), 2 ^ lo ≤ n → n < 2 ^ (lo + 2 ^ k) →
    2 ^ (bitLenGo n k lo) ≤ n ∧ n < 2 ^ (bitLenGo n k lo + 1)
  | 0, lo, h1, h2 => by
    simp only [bitLenGo]
    exact ⟨h1, by simpa using h2⟩
  | k + 1, lo, h1, h2 => by
    simp only [bitLenGo]
    split_ifs with hc
    · apply bitLenGo_spec n k (lo + 2 ^ k) hc
      rw [show lo + 2 ^ k + 2 ^ k = lo + 2 ^ (k + 1) by ring]
      exact h2
    · exact bitLenGo_spec n k lo h1 (not_le.mp hc)

/-- The number of binary digits: `2^(bitLen n - 1) ≤ n < 2^(bitLen n)` for `n ≠ 0`. -/
theorem bitLen_spec (n : ℕ) (hn : n ≠ 0) :
    0 < bitLen n ∧ 2 ^ (bitLen n - 1) ≤ n ∧ n < 2 ^ (bitLen n) := by
  have htop : n < 2 ^ 2 ^ (bitLenTop n n 0) := by
    apply bitLenTop_spec n n 0
    rw [zero_add]
    calc n < 2 ^ n := Nat.lt_two_pow n
      _ ≤ 2 ^ 2 ^ n := Nat.pow_le_pow_right (by norm_num) (Nat.lt_two_pow n).le
  have hgo := bitLenGo_spec n (bitLenTop n n 0) 0 (by simpa using Nat.pos_of_ne_zero hn)
    (by simpa using htop)
  simp only [bitLen, hn, if_false]
  exact ⟨Nat.succ_pos _, by simpa using hgo.1, hgo.2⟩


theorem roundNE_eq (neg : Bool) (n d : ℕ) (hn : n ≠ 0) (hd : d ≠ 0) :
    roundNE neg n d =
      (if roundQ (n * 2 ^ (-roundExp n d).toNat) (d * 2 ^ (roundExp n d).toNat) = 0
        then fin neg 0 0
      else if roundQ (n * 2 ^ (-roundExp n d).toNat) (d * 2 ^ (roundExp n d).toNat) = 2 ^ 53
        then (if 971 < roundExp n d + 1 then inf neg else fin neg (2 ^ 52) (roundExp n d + 1))
      else if 971 < roundExp n d then inf neg
      else fin neg (roundQ (n * 2 ^ (-roundExp n d).toNat) (d * 2 ^ (roundExp n d).toNat))
        (roundExp n d)) := by
  unfold roundNE roundExp roundQ
  simp only [hn, hd, or_self, if_false]

theorem roundQ_exact (K den : ℕ) (hden : 0 < den) : roundQ (K * den) den = K := by
  unfold roundQ
  have h1 : K * den % den = 0 := Nat.mul_mod_left K den
  have h2 : K * den / den = K := Nat.mul_div_cancel K hden
  rw [h1, h2]
  have : ¬ (den < 2 * 0 ∨ 2 * 0 = den ∧ K % 2 = 1) := by
    rintro (h | ⟨h, -⟩) <;> omega
  simp only [this, if_false]

theorem scaled_ratio (n d : ℕ) (hd : 0 < d) (E : ℤ) :
    ((n * 2 ^ (-E).toNat : ℕ) : ℚ) / ((d * 2 ^ E.toNat : ℕ) : ℚ) = (n : ℚ) / d / (2:ℚ) ^ E := by
  rw [← zpow_toNat_sub E]
  have : (d : ℚ) ≠ 0 := by exact_mod_cast hd.ne'
  push_cast
  field_simp

theorem roundExp_spec (n d : ℕ) (hn : 0 < n) (hd : 0 < d) :
    -1074 ≤ roundExp n d ∧ (n : ℚ) / d < 2 ^ 53 * (2:ℚ) ^ (roundExp n d)
    ∧ (-1074 < roundExp n d → 2 ^ 52 * (2:ℚ) ^ (roundExp n d) ≤ (n : ℚ) / d) := by
  obtain ⟨-, hn1, hn2⟩ := bitLen_spec n hn.ne'
  obtain ⟨hdpos, hd1, hd2⟩ := bitLen_spec d hd.ne'
  have hdq : (0:ℚ) < d := by exact_mod_cast hd
  have hnq : (0:ℚ) < n := by exact_mod_cast hn
  have hn2q : (n:ℚ) < (2:ℚ) ^ (bitLen n : ℤ) := by rw [zpow_natCast]; exact_mod_cast hn2
  have hd1q : (2:ℚ) ^ ((bitLen d : ℤ) - 1) ≤ d := by
    have : ((bitLen d : ℤ) - 1) = ((bitLen d - 1 : ℕ) : ℤ) := by omega
    rw [this, zpow_natCast]; exact_mod_cast hd1
  have hd2q : (d:ℚ) < (2:ℚ) ^ (bitLen d : ℤ) := by rw [zpow_natCast]; exact_mod_cast hd2
  have hn1q : (2:ℚ) ^ ((bitLen n : ℤ) - 1) ≤ n := by
    have hnpos := (bitLen_spec n hn.ne').1
    have : ((bitLen n : ℤ) - 1) = ((bitLen n - 1 : ℕ) : ℤ) := by omega
    rw [this, zpow_natCast]; exact_mod_cast hn1
  -- bounds of n / d against e1
  have hup : (n:ℚ) / d < 2 ^ 53 * (2:ℚ) ^ ((bitLen n : ℤ) - (bitLen d : ℤ) - 52) := by
    rw [div_lt_iff₀ hdq]
    have e : (2:ℚ) ^ 53 * (2:ℚ) ^ ((bitLen n : ℤ) - (bitLen d : ℤ) - 52)
        * (2:ℚ) ^ ((bitLen d : ℤ) - 1) = (2:ℚ) ^ (bitLen n : ℤ) := by
      rw [show (2:ℚ) ^ 53 = (2:ℚ) ^ (53 : ℤ) by norm_cast, ← zpow_add₀ (by norm_num),
        ← zpow_add₀ (by norm_num)]
      congr 1; ring
    calc (n:ℚ) < (2:ℚ) ^ (bitLen n : ℤ) := hn2q
      _ = 2 ^ 53 * (2:ℚ) ^ ((bitLen n : ℤ) - (bitLen d : ℤ) - 52)
            * (2:ℚ) ^ ((bitLen d : ℤ) - 1) := e.symm
      _ ≤ 2 ^ 53 * (2:ℚ) ^ ((bitLen n : ℤ) - (bitLen d : ℤ) - 52) * d :=
          mul_le_mul_of_nonneg_left hd1q (by positivity)
  have hlow : 2 ^ 51 * (2:ℚ) ^ ((bitLen n : ℤ) - (bitLen d : ℤ) - 52) < (n:ℚ) / d := by
    rw [lt_div_iff₀ hdq]
    have e : (2:ℚ) ^ 51 * (2:ℚ) ^ ((bitLen n : ℤ) - (bitLen d : ℤ) - 52)
        * (2:ℚ) ^ (bitLen d : ℤ) = (2:ℚ) ^ ((bitLen n : ℤ) - 1) := by
      rw [show (2:ℚ) ^ 51 = (2:ℚ) ^ (51 : ℤ) by norm_cast, ← zpow_add₀ (by norm_num),
        ← zpow_add₀ (by norm_num)]
      congr 1; ring
    calc 2 ^ 51 * (2:ℚ) ^ ((bitLen n : ℤ) - (bitLen d : ℤ) - 52) * d
        < 2 ^ 51 * (2:ℚ) ^ ((bitLen n : ℤ) - (bitLen d : ℤ) - 52) * (2:ℚ) ^ (bitLen d : ℤ) :=
          mul_lt_mul_of_pos_left hd2q (by positivity)
      _ = (2:ℚ) ^ ((bitLen n : ℤ) - 1) := e
      _ ≤ n := hn1q
  generalize hE1 : (bitLen n : ℤ) - (bitLen d : ℤ) - 52 = e1 at hup hlow
  have htest : (n * 2 ^ (-e1).toNat < d * 2 ^ e1.toNat * 2 ^ 52)
      ↔ (n:ℚ) / d < 2 ^ 52 * (2:ℚ) ^ e1 := by
    have hden : (0:ℚ) < ((d * 2 ^ e1.toNat : ℕ) : ℚ) := by positivity
    have h1 := scaled_ratio n d hd e1
    have h2e : (0:ℚ) < (2:ℚ) ^ e1 := by positivity
    constructor
    · intro h
      have hq : ((n * 2 ^ (-e1).toNat : ℕ) : ℚ) < ((d * 2 ^ e1.toNat : ℕ) : ℚ) * 2 ^ 52 := by
        exact_mod_cast h
      have : ((n * 2 ^ (-e1).toNat : ℕ) : ℚ) / ((d * 2 ^ e1.toNat : ℕ) : ℚ) < 2 ^ 52 := by
        rw [div_lt_iff₀ hden]; linarith
      rw [h1, div_lt_iff₀ h2e] at this
      exact this
    · intro h
      have : ((n * 2 ^ (-e1).toNat : ℕ) : ℚ) / ((d * 2 ^ e1.toNat : ℕ) : ℚ) < 2 ^ 52 := by
        rw [h1, div_lt_iff₀ h2e]; exact h
      rw [div_lt_iff₀ hden] at this
      have hq : ((n * 2 ^ (-e1).toNat : ℕ) : ℚ) < ((d * 2 ^ e1.toNat * 2 ^ 52 : ℕ) : ℚ) := by
        push_cast at this ⊢; linarith
      exact_mod_cast hq
  unfold roundExp
  rw [hE1]
  have hzp : ∀ a b : ℤ, a ≤ b → (2:ℚ) ^ a ≤ (2:ℚ) ^ b := fun a b h =>
    zpow_le_zpow_right₀ (by norm_num) h
  have hm1 : (2:ℚ) ^ (e1 - 1) * 2 = (2:ℚ) ^ e1 := by
    rw [← zpow_add_one₀ (by norm_num)]; congr 1; ring
  split_ifs with hT
  · have hT' := htest.mp hT
    refine ⟨le_max_right _ _, ?_, ?_⟩
    · calc (n:ℚ) / d < 2 ^ 52 * (2:ℚ) ^ e1 := hT'
        _ = 2 ^ 53 * (2:ℚ) ^ (e1 - 1) := by rw [← hm1]; ring
        _ ≤ 2 ^ 53 * (2:ℚ) ^ (max (e1 - 1) (-1074)) :=
            mul_le_mul_of_nonneg_left (hzp _ _ (le_max_left _ _)) (by positivity)
    · intro hgt
      have hmax : max (e1 - 1) (-1074) = e1 - 1 := by
        rcases max_choice (e1 - 1) (-1074) with h | h
        · exact h
        · rw [h] at hgt; exact absurd hgt (lt_irrefl _)
      rw [hmax]
      calc 2 ^ 52 * (2:ℚ) ^ (e1 - 1) = 2 ^ 51 * (2:ℚ) ^ e1 := by rw [← hm1]; ring
        _ ≤ (n:ℚ) / d := hlow.le
  · have hT' : 2 ^ 52 * (2:ℚ) ^ e1 ≤ (n:ℚ) / d := not_lt.mp (fun h => hT (htest.mpr h))
    refine ⟨le_max_right _ _, ?_, ?_⟩
    · calc (n:ℚ) / d < 2 ^ 53 * (2:ℚ) ^ e1 := hup
        _ ≤ 2 ^ 53 * (2:ℚ) ^ (max e1 (-1074)) :=
            mul_le_mul_of_nonneg_left (hzp _ _ (le_max_left _ _)) (by positivity)
    · intro hgt
      have hmax : max e1 (-1074) = e1 := by
        rcases max_choice e1 (-1074) with h | h
        · exact h
        · rw [h] at hgt; exact absurd hgt (lt_irrefl _)
      rw [hmax]
      exact hT'


theorem zpow_lt_of (a b : ℤ) (h : (2:ℚ) ^ a < (2:ℚ) ^ b) : a < b := by
  by_contra hc
  have : (2:ℚ) ^ b ≤ (2:ℚ) ^ a := zpow_le_zpow_right₀ (by norm_num) (not_lt.mp hc)
  linarith

/-- The exponent chosen for a value `n / d ≤ M * 2^F` with `M < 2^53` and `-1074 ≤ F` is
at most `F`. -/
theorem roundExp_le (n d : ℕ) (hn : 0 < n) (hd : 0 < d) (M : ℕ) (F : ℤ) (hM : M < 2 ^ 53)
    (hF : -1074 ≤ F) (hv : (n : ℚ) / d ≤ (M : ℚ) * (2:ℚ) ^ F) : roundExp n d ≤ F := by
  obtain ⟨h1, -, h3⟩ := roundExp_spec n d hn hd
  rcases eq_or_lt_of_le h1 with h | h
  · rw [← h]; exact hF
  · have h4 := h3 h
    have hMq : (M:ℚ) < 2 ^ 53 := by exact_mod_cast hM
    have hF2 : (0:ℚ) < (2:ℚ) ^ F := by positivity
    have h5 : 2 ^ 52 * (2:ℚ) ^ (roundExp n d) < 2 ^ 53 * (2:ℚ) ^ F := by
      calc 2 ^ 52 * (2:ℚ) ^ (roundExp n d) ≤ (n:ℚ) / d := h4
        _ ≤ (M : ℚ) * (2:ℚ) ^ F := hv
        _ < 2 ^ 53 * (2:ℚ) ^ F := mul_lt_mul_of_pos_right hMq hF2
    have h6 : (2:ℚ) ^ (roundExp n d) < (2:ℚ) ^ (F + 1) := by
      rw [zpow_add_one₀ (by norm_num)]
      linarith
    have := zpow_lt_of _ _ h6
    omega

/-- The exponent chosen for `n / d ≥ 2^52 * 2^F` with `-1074 ≤ F` is at least `F`. -/
theorem roundExp_ge (n d : ℕ) (hn : 0 < n) (hd : 0 < d) (F : ℤ)
    (hv : 2 ^ 52 * (2:ℚ) ^ F ≤ (n : ℚ) / d) : F ≤ roundExp n d := by
  obtain ⟨-, h2, -⟩ := roundExp_spec n d hn hd
  have h6 : (2:ℚ) ^ F < (2:ℚ) ^ (roundExp n d + 1) := by
    rw [zpow_add_one₀ (by norm_num)]
    linarith
  have := zpow_lt_of _ _ h6
  omega

theorem scaled_eq (n d : ℕ) (hd : 0 < d) (E : ℤ) (K : ℕ)
    (h : (n : ℚ) / d = (K : ℚ) * (2:ℚ) ^ E) :
    n * 2 ^ (-E).toNat = K * (d * 2 ^ E.toNat) := by
  have h1 := scaled_ratio n d hd E
  have hden : (0:ℚ) < ((d * 2 ^ E.toNat : ℕ) : ℚ) := by positivity
  rw [h, mul_div_assoc, div_self (by positivity), mul_one, div_eq_iff hden.ne'] at h1
  exact_mod_cast h1

/-- Rounding a value that is a canonical non-zero binary64 number returns it. -/
theorem roundNE_exact (neg : Bool) (n d : ℕ) (hn : 0 < n) (hd : 0 < d) (M : ℕ) (F : ℤ)
    (hv : (n : ℚ) / d = (M : ℚ) * (2:ℚ) ^ F)
    (hc : (2 ^ 52 ≤ M ∧ M < 2 ^ 53 ∧ -1074 ≤ F ∧ F ≤ 971) ∨ (M < 2 ^ 52 ∧ F = -1074)) :
    roundNE neg n d = fin neg M F := by
  have hM53 : M < 2 ^ 53 := by rcases hc with h | h <;> omega
  have hF : -1074 ≤ F := by rcases hc with h | h <;> omega
  have hF2 : F ≤ 971 := by rcases hc with h | h <;> omega
  have hMpos : 0 < M := by
    rcases Nat.eq_zero_or_pos M with h0 | h0
    · subst h0
      have hnq : (0:ℚ) < (n:ℚ) / d := by positivity
      rw [hv] at hnq
      simp at hnq
    · exact h0
  have hEle : roundExp n d ≤ F := roundExp_le n d hn hd M F hM53 hF hv.le
  have hEge : F ≤ roundExp n d := by
    rcases hc with h | h
    · apply roundExp_ge n d hn hd F
      rw [hv]
      have : (2:ℚ) ^ 52 ≤ (M:ℚ) := by exact_mod_cast h.1
      exact mul_le_mul_of_nonneg_right this (by positivity)
    · rw [h.2]; exact (roundExp_spec n d hn hd).1
  have hE : roundExp n d = F := le_antisymm hEle hEge
  rw [roundNE_eq neg n d hn.ne' hd.ne', hE, scaled_eq n d hd F M hv,
    roundQ_exact M _ (by positivity)]
  have h0 : M ≠ 0 := hMpos.ne'
  have h1 : M ≠ 2 ^ 53 := by omega
  have h2 : ¬ (971 < F) := by omega
  simp only [h0, h1, h2, if_false]

theorem roundScaled_ratio (m : ℕ) (e : ℤ) :
    ((m * 2 ^ e.toNat : ℕ) : ℚ) / ((2 ^ (-e).toNat : ℕ) : ℚ) = (m : ℚ) * (2:ℚ) ^ e := by
  rw [← zpow_toNat_sub e]
  push_cast
  ring

theorem roundScaled_exact (neg : Bool) (m : ℕ) (e : ℤ) (hm : 0 < m) (M : ℕ) (F : ℤ)
    (hv : (m : ℚ) * (2:ℚ) ^ e = (M : ℚ) * (2:ℚ) ^ F)
    (hc : (2 ^ 52 ≤ M ∧ M < 2 ^ 53 ∧ -1074 ≤ F ∧ F ≤ 971) ∨ (M < 2 ^ 52 ∧ F = -1074)) :
    roundScaled neg m e = fin neg M F := by
  unfold roundScaled
  apply roundNE_exact neg _ _ (by positivity) (by positivity) M F _ hc
  rw [roundScaled_ratio, hv]

theorem abs_toRat_fin (n : Bool) (m : ℕ) (e : ℤ) :
    |toRat (fin n m e)| = (m : ℚ) * (2:ℚ) ^ e := by
  have hpos : (0:ℚ) ≤ (m : ℚ) * (2:ℚ) ^ e := by positivity
  simp only [toRat]
  rw [mul_assoc, abs_mul, sgn_abs, one_mul, abs_of_nonneg hpos]

/-- The exact sum of two finite values, as the integer that `add` rounds. -/
theorem toRat_add_fin (n1 : Bool) (m1 : ℕ) (e1 : ℤ) (n2 : Bool) (m2 : ℕ) (e2 : ℤ) :
    toRat (fin n1 m1 e1) + toRat (fin n2 m2 e2)
      = ((signedInt n1 m1 (e1 - min e1 e2).toNat
          + signedInt n2 m2 (e2 - min e1 e2).toNat : ℤ) : ℚ) * (2:ℚ) ^ (min e1 e2) := by
  push_cast
  rw [signedInt_cast, signedInt_cast]
  simp only [toRat]
  have ha := pow_toNat_mul_zpow e1 (min e1 e2) (min_le_left _ _)
  have hb := pow_toNat_mul_zpow e2 (min e1 e2) (min_le_right _ _)
  rw [← ha, ← hb]
  ring

theorem signedInt_natAbs (n : Bool) (m k : ℕ) : (signedInt n m k).natAbs = m * 2 ^ k := by
  unfold signedInt
  cases n
  · rw [if_neg (by simp)]
    exact Int.natAbs_ofNat _
  · rw [if_pos rfl, Int.natAbs_neg]
    exact Int.natAbs_ofNat _

/-- Adding a zero to a canonical non-zero value returns the value. -/
theorem add_zero_exact (n : Bool) (m : ℕ) (e : ℤ) (z : Binary64) (hz : isZero z = true)
    (hm : 0 < m)
    (hc : (2 ^ 52 ≤ m ∧ m < 2 ^ 53 ∧ -1074 ≤ e ∧ e ≤ 971) ∨ (m < 2 ^ 52 ∧ e = -1074)) :
    add (fin n m e) z = fin n m e := by
  cases z with
  | nan => simp [isZero] at hz
  | inf s => simp [isZero] at hz
  | fin s m0 e0 =>
    have hm0 : m0 = 0 := by simpa [isZero] using hz
    subst hm0
    have hsum := toRat_add_fin n m e s 0 e0
    simp only [add]
    rw [signedInt_zero, add_zero] at hsum ⊢
    have hk : 0 < m * 2 ^ (e - min e e0).toNat := by positivity
    have hne : signedInt n m (e - min e e0).toNat ≠ 0 := by
      cases n <;> simp [signedInt] <;> omega
    simp only [hne, if_false]
    have hneg : decide (signedInt n m (e - min e e0).toNat < 0) = n := by
      cases n <;> simp [signedInt] <;> omega
    rw [hneg, signedInt_natAbs]
    apply roundScaled_exact n _ _ hk m e _ hc
    push_cast
    rw [mul_assoc, pow_toNat_mul_zpow e (min e e0) (min_le_left _ _)]


theorem lit_relax : (0.6 : Binary64) = fin false 5404319552844595 (-53) := by decide!

/-- When `x == y` holds and `y` is finite, both are finite and `x - y` is a zero. -/
theorem sub_zero_of_eq_finite (x y : Binary64) (h : eq x y = true) (hy : isInf y = false) :
    isZero (sub x y) = true ∧ ∃ n m e, x = fin n m e := by
  cases y with
  | nan => cases x <;> simp [eq, le, isnan] at h
  | inf n2 => simp [isInf] at hy
  | fin n2 m2 e2 =>
    cases x with
    | nan => simp [eq, le, isnan] at h
    | inf n1 => cases n1 <;> simp [eq, le, isnan, gt] at h
    | fin n1 m1 e1 =>
      refine ⟨?_, n1, m1, e1, rfl⟩
      have := sub_zeroOrNan_of_eq _ _ h
      rcases this with h1 | h1
      · exact h1
      · simp only [sub, neg, add] at h1
        split_ifs at h1
        · simp [isnan] at h1
        · exfalso
          revert h1
          unfold roundScaled roundNE
          simp only []
          split_ifs <;> simp [isnan]

/-- A finite product has finite factors. -/
theorem mul_fin_factors (x y : Binary64) (n : Bool) (m : ℕ) (e : ℤ) (h : mul x y = fin n m e) :
    (∃ n1 m1 e1, x = fin n1 m1 e1) ∧ (∃ n2 m2 e2, y = fin n2 m2 e2) := by
  cases x with
  | nan => simp [mul] at h
  | inf n1 =>
    cases y with
    | nan => simp [mul] at h
    | inf n2 => simp [mul] at h
    | fin n2 m2 e2 =>
      simp only [mul] at h
      split_ifs at h
  | fin n1 m1 e1 =>
    cases y with
    | nan => simp [mul] at h
    | inf n2 =>
      simp only [mul] at h
      split_ifs at h
    | fin n2 m2 e2 => exact ⟨⟨_, _, _, rfl⟩, ⟨_, _, _, rfl⟩⟩

/-- A finite square root has a finite argument. -/
theorem sqrt_fin_arg (x : Binary64) (n : Bool) (m : ℕ) (e : ℤ) (h : sqrt x = fin n m e) :
    ∃ n1 m1 e1, x = fin n1 m1 e1 := by
  cases x with
  | nan => simp [sqrt] at h
  | inf n1 =>
    simp only [sqrt] at h
    split_ifs at h
  | fin n1 m1 e1 => exact ⟨_, _, _, rfl⟩

theorem mul_zero_fin (x : Binary64) (n : Bool) (m : ℕ) (e : ℤ) (hx : isZero x = true) :
    isZero (mul x (fin n m e)) = true := by
  cases x <;> simp_all [mul, isZero, roundScaled_zero]

theorem neg_isZero (x : Binary64) (hx : isZero x = true) : isZero (neg x) = true := by
  cases x <;> simp_all [neg, isZero]

/-- A zero divided by a value that is neither zero nor NaN is a zero. -/
theorem div_zero_num (x y : Binary64) (hx : isZero x = true) (hy0 : isZero y = false)
    (hyn : isnan y = false) : isZero (div x y) = true := by
  cases x with
  | nan => simp [isZero] at hx
  | inf n => simp [isZero] at hx
  | fin n1 m1 e1 =>
    have hm1 : m1 = 0 := by simpa [isZero] using hx
    subst hm1
    cases y with
    | nan => simp [isnan] at hyn
    | inf n2 => simp [div, isZero]
    | fin n2 m2 e2 =>
      have hm2 : m2 ≠ 0 := by simpa [isZero] using hy0
      simp [div, hm2, roundNE_zero, isZero]

theorem eq_self_fin (n : Bool) (m : ℕ) (e : ℤ) : eq (fin n m e) (fin n m e) = true := by
  simp [eq, le, isnan, gt]

theorem eq_zero_zero (n1 n2 : Bool) (e1 e2 : ℤ) : eq (fin n1 0 e1) (fin n2 0 e2) = true := by
  simp [eq, le, isnan, gt, signedInt_zero]

end Binary64

/-! ## Rounding error of the square root and of `x^1.5` -/

namespace Binary64

theorem isqrtLoop_spec (n : ℕ) : ∀ (i r : ℕ), r * r ≤ n → n < (r + 2 ^ i) * (r + 2 ^ i) →
    isqrtLoop n i r * isqrtLoop n i r ≤ n
      ∧ n < (isqrtLoop n i r + 1) * (isqrtLoop n i r + 1)
  | 0, r, h1, h2 => by
    simp only [isqrtLoop]
    exact ⟨h1, by simpa using h2⟩
  | i + 1, r, h1, h2 => by
    simp only [isqrtLoop]
    split_ifs with hc
    · apply isqrtLoop_spec n i (r + 2 ^ i) hc
      rw [show r + 2 ^ i + 2 ^ i = r + 2 ^ (i + 1) by ring]
      exact h2
    · exact isqrtLoop_spec n i r h1 (not_le.mp hc)

/-- The integer square root: `isqrt n ^ 2 ≤ n < (isqrt n + 1) ^ 2`. -/
theorem isqrt_spec (n : ℕ) : isqrt n * isqrt n ≤ n ∧ n < (isqrt n + 1) * (isqrt n + 1) := by
  unfold isqrt
  apply isqrtLoop_spec n _ 0 (by simp)
  rw [zero_add, ← pow_two, ← pow_mul]
  rcases Nat.eq_zero_or_pos n with h0 | h0
  · subst h0; positivity
  · obtain ⟨-, -, h⟩ := bitLen_spec n h0.ne'
    calc n < 2 ^ bitLen n := h
      _ ≤ 2 ^ ((bitLen n / 2 + 1) * 2) := Nat.pow_le_pow_right (by norm_num) (by omega)


/-- The doubled integer square root with its sticky bit, against `4 * N`, for
`N ≥ 2^128`: equal up to a relative `2^-64`. -/
theorem isqrt_sticky_bounds (N : ℕ) (hN : 2 ^ 128 ≤ N) :
    (((2 * isqrt N + (if isqrt N * isqrt N = N then 0 else 1) : ℕ) : ℚ)) ^ 2
        ≤ 4 * (N : ℚ) * (1 + 1 / 2 ^ 64)
    ∧ 4 * (N : ℚ) * (1 - 1 / 2 ^ 64)
        ≤ (((2 * isqrt N + (if isqrt N * isqrt N = N then 0 else 1) : ℕ) : ℚ)) ^ 2 := by
  obtain ⟨h1, h2⟩ := isqrt_spec N
  generalize isqrt N = s at h1 h2 ⊢
  have hs : 2 ^ 64 ≤ s := by
    by_contra hc
    have hlt : s + 1 ≤ 2 ^ 64 := by omega
    have : (s + 1) * (s + 1) ≤ 2 ^ 64 * 2 ^ 64 := Nat.mul_le_mul hlt hlt
    have h128 : (2:ℕ) ^ 64 * 2 ^ 64 = 2 ^ 128 := by norm_num
    omega
  have hsq : (2:ℚ) ^ 64 ≤ (s:ℚ) := by exact_mod_cast hs
  have h1q : (s:ℚ) * s ≤ N := by exact_mod_cast h1
  have h2q : (N:ℚ) + 1 ≤ ((s:ℚ) + 1) * (s + 1) := by exact_mod_cast h2
  have hspos : (0:ℚ) < s := by linarith [show (0:ℚ) < 2 ^ 64 by positivity]
  have hNs : (s:ℚ) ≤ (N:ℚ) / 2 ^ 64 := by
    rw [le_div_iff₀ (by positivity)]
    calc (s:ℚ) * 2 ^ 64 ≤ s * s := mul_le_mul_of_nonneg_left hsq hspos.le
      _ ≤ N := h1q
  have e1 : 4 * (N : ℚ) * (1 + 1 / 2 ^ 64) = 4 * N + 4 * ((N:ℚ) / 2 ^ 64) := by ring
  have e2 : 4 * (N : ℚ) * (1 - 1 / 2 ^ 64) = 4 * N - 4 * ((N:ℚ) / 2 ^ 64) := by ring
  rw [e1, e2]
  generalize (N:ℚ) / 2 ^ 64 = c at hNs
  clear hsq hs e1 e2 hN
  split_ifs with hsticky
  · have hN' : (N:ℚ) = s * s := by exact_mod_cast hsticky.symm
    push_cast
    constructor <;> nlinarith
  · have hlt : s * s + 1 ≤ N := by omega
    have hltq : (s:ℚ) * s + 1 ≤ N := by exact_mod_cast hlt
    push_cast
    constructor <;> nlinarith

/-- The correctly rounded square root of `m * 2^e`, when it is a normal number: its
square is `m * 2^e` up to two roundings. -/
theorem sqrtRound_near (m : ℕ) (e : ℤ) (hm : 0 < m) (hN : isNormal (sqrtRound m e) = true) :
    0 < toRat (sqrtRound m e)
    ∧ toRat (sqrtRound m e) ^ 2 * (1 - 1 / 2 ^ 53) ^ 2 ≤ (m : ℚ) * (2:ℚ) ^ e * (1 + 1 / 2 ^ 64)
    ∧ (m : ℚ) * (2:ℚ) ^ e * (1 - 1 / 2 ^ 64)
        ≤ toRat (sqrtRound m e) ^ 2 * (1 + 1 / 2 ^ 53) ^ 2 := by
  have hshape : ∃ (m1 : ℕ) (h : ℤ), 0 < m1 ∧ (m1 : ℚ) * (2:ℚ) ^ (2 * h) = (m : ℚ) * (2:ℚ) ^ e
      ∧ sqrtRound m e = roundScaled false
          (2 * isqrt (m1 * 2 ^ 128)
            + (if isqrt (m1 * 2 ^ 128) * isqrt (m1 * 2 ^ 128) = m1 * 2 ^ 128 then 0 else 1))
          (h - 65) := by
    by_cases hpar : e % 2 = 0
    · refine ⟨m, e / 2, hm, ?_, ?_⟩
      · rw [show 2 * (e / 2) = e by omega]
      · simp only [sqrtRound, hpar, if_true]
    · refine ⟨2 * m, (e - 1) / 2, by omega, ?_, ?_⟩
      · rw [show 2 * ((e - 1) / 2) = e - 1 by omega, zpow_sub_one₀ (by norm_num)]
        push_cast
        ring
      · simp only [sqrtRound, hpar, if_false]
  obtain ⟨m1, h, hm1, hV, hshape⟩ := hshape
  rw [hshape] at hN ⊢
  have hNge : 2 ^ 128 ≤ m1 * 2 ^ 128 := Nat.le_mul_of_pos_left _ hm1
  obtain ⟨b1, b2⟩ := isqrt_sticky_bounds (m1 * 2 ^ 128) hNge
  have hnear := toRat_roundScaled false _ _ hN
  have hz0 := isNormal_toRat_ne_zero _ hN
  generalize (2 * isqrt (m1 * 2 ^ 128)
      + (if isqrt (m1 * 2 ^ 128) * isqrt (m1 * 2 ^ 128) = m1 * 2 ^ 128 then 0 else 1)) = w
    at b1 b2 hnear hz0 hN ⊢
  simp only [Bool.false_eq_true, if_false, one_mul] at hnear
  have hnear' : Near (toRat (roundScaled false w (h - 65))) ((w : ℚ) * (2:ℚ) ^ (h - 65)) := hnear
  generalize toRat (roundScaled false w (h - 65)) = z at hnear' hz0 ⊢
  have hwpos : (0:ℚ) < (w:ℚ) := by
    have h4 : (0:ℚ) < 4 * ((m1 * 2 ^ 128 : ℕ) : ℚ) * (1 - 1 / 2 ^ 64) := by
      have : (0:ℚ) < ((m1 * 2 ^ 128 : ℕ) : ℚ) := by exact_mod_cast (by positivity : 0 < m1 * 2 ^ 128)
      apply mul_pos (by linarith) (by norm_num)
    have h5 : (0:ℚ) < (w:ℚ) ^ 2 := lt_of_lt_of_le h4 b2
    have h6 : (0:ℚ) ≤ (w:ℚ) := by positivity
    rcases h6.eq_or_lt with h7 | h7
    · rw [← h7] at h5; simp at h5
    · exact h7
  have hy : (0:ℚ) < (w : ℚ) * (2:ℚ) ^ (h - 65) := by positivity
  have hz : 0 < z := (hnear'.pos_iff hz0).mpr hy
  obtain ⟨c1, c2⟩ := hnear'.bounds hz
  have hc : (2:ℚ) ^ (h - 65) * (2:ℚ) ^ (h - 65) * (4 * 2 ^ 128) = (2:ℚ) ^ (2 * h) := by
    rw [show (4:ℚ) * 2 ^ 128 = (2:ℚ) ^ (130:ℤ) by norm_num, ← zpow_add₀ (by norm_num),
      ← zpow_add₀ (by norm_num)]
    congr 1; ring
  have hVV : (m : ℚ) * (2:ℚ) ^ e
      = 4 * ((m1 * 2 ^ 128 : ℕ) : ℚ) * ((2:ℚ) ^ (h - 65) * (2:ℚ) ^ (h - 65)) := by
    rw [← hV, ← hc]; push_cast; ring
  have hcpos : (0:ℚ) < (2:ℚ) ^ (h - 65) * (2:ℚ) ^ (h - 65) := by positivity
  have hysq : ((w : ℚ) * (2:ℚ) ^ (h - 65)) ^ 2
      = (w:ℚ) ^ 2 * ((2:ℚ) ^ (h - 65) * (2:ℚ) ^ (h - 65)) := by ring
  refine ⟨hz, ?_, ?_⟩
  · calc z ^ 2 * (1 - 1 / 2 ^ 53) ^ 2 = (z * (1 - 1 / 2 ^ 53)) ^ 2 := by ring
      _ ≤ ((w : ℚ) * (2:ℚ) ^ (h - 65)) ^ 2 :=
          pow_le_pow_left₀ (mul_nonneg hz.le (by norm_num)) c1 2
      _ = (w:ℚ) ^ 2 * ((2:ℚ) ^ (h - 65) * (2:ℚ) ^ (h - 65)) := hysq
      _ ≤ 4 * ((m1 * 2 ^ 128 : ℕ) : ℚ) * (1 + 1 / 2 ^ 64)
            * ((2:ℚ) ^ (h - 65) * (2:ℚ) ^ (h - 65)) :=
          mul_le_mul_of_nonneg_right b1 hcpos.le
      _ = (m : ℚ) * (2:ℚ) ^ e * (1 + 1 / 2 ^ 64) := by rw [hVV]; ring
  · calc (m : ℚ) * (2:ℚ) ^ e * (1 - 1 / 2 ^ 64)
        = 4 * ((m1 * 2 ^ 128 : ℕ) : ℚ) * (1 - 1 / 2 ^ 64)
            * ((2:ℚ) ^ (h - 65) * (2:ℚ) ^ (h - 65)) := by rw [hVV]; ring
      _ ≤ (w:ℚ) ^ 2 * ((2:ℚ) ^ (h - 65) * (2:ℚ) ^ (h - 65)) :=
          mul_le_mul_of_nonneg_right b2 hcpos.le
      _ = ((w : ℚ) * (2:ℚ) ^ (h - 65)) ^ 2 := hysq.symm
      _ ≤ (z * (1 + 1 / 2 ^ 53)) ^ 2 := pow_le_pow_left₀ hy.le c2 2
      _ = z ^ 2 * (1 + 1 / 2 ^ 53) ^ 2 := by ring


theorem sqrt_near (x : Binary64) (hN : isNormal (sqrt x) = true) :
    0 < toRat x ∧ 0 < toRat (sqrt x)
    ∧ toRat (sqrt x) ^ 2 * (1 - 1 / 2 ^ 53) ^ 2 ≤ toRat x * (1 + 1 / 2 ^ 64)
    ∧ toRat x * (1 - 1 / 2 ^ 64) ≤ toRat (sqrt x) ^ 2 * (1 + 1 / 2 ^ 53) ^ 2 := by
  cases x with
  | nan => simp [sqrt, isNormal] at hN
  | inf n =>
    simp only [sqrt] at hN
    split_ifs at hN <;> simp [isNormal] at hN
  | fin n m e =>
    simp only [sqrt] at hN ⊢
    by_cases hm : m = 0
    · simp [hm, isNormal] at hN
    · simp only [hm, if_false] at hN ⊢
      cases n with
      | true => simp [isNormal] at hN
      | false =>
        simp only [Bool.false_eq_true, if_false] at hN ⊢
        have hmpos : 0 < m := Nat.pos_of_ne_zero hm
        obtain ⟨h1, h2, h3⟩ := sqrtRound_near m e hmpos hN
        have hv : toRat (fin false m e) = (m : ℚ) * (2:ℚ) ^ e := by simp [toRat]
        rw [hv]
        exact ⟨by positivity, h1, h2, h3⟩

theorem pow_1_5_near (x : Binary64) (hN : isNormal (pow_1_5 x) = true) :
    0 < toRat x ∧ 0 < toRat (pow_1_5 x)
    ∧ toRat (pow_1_5 x) ^ 2 * (1 - 1 / 2 ^ 53) ^ 2 ≤ toRat x ^ 3 * (1 + 1 / 2 ^ 64)
    ∧ toRat x ^ 3 * (1 - 1 / 2 ^ 64) ≤ toRat (pow_1_5 x) ^ 2 * (1 + 1 / 2 ^ 53) ^ 2 := by
  cases x with
  | nan => simp [pow_1_5, isNormal] at hN
  | inf n => simp [pow_1_5, isNormal] at hN
  | fin n m e =>
    simp only [pow_1_5] at hN ⊢
    by_cases hm : m = 0
    · simp [hm, isNormal] at hN
    · simp only [hm, if_false] at hN ⊢
      cases n with
      | true => simp [isNormal] at hN
      | false =>
        simp only [Bool.false_eq_true, if_false] at hN ⊢
        have hmpos : 0 < m := Nat.pos_of_ne_zero hm
        obtain ⟨h1, h2, h3⟩ := sqrtRound_near (m * m * m) (3 * e) (by positivity) hN
        have hv : toRat (fin false m e) ^ 3 = ((m * m * m : ℕ) : ℚ) * (2:ℚ) ^ (3 * e) := by
          simp only [toRat]
          rw [show 3 * e = e + e + e by ring, zpow_add₀ (by norm_num), zpow_add₀ (by norm_num)]
          push_cast
          ring
        have hx : 0 < toRat (fin false m e) := by
          simp only [toRat]
          have : (0:ℚ) < (m:ℚ) := by exact_mod_cast hmpos
          simp
          positivity
        rw [hv]
        exact ⟨hx, h1, h2, h3⟩

theorem Near.neg {z v : ℚ} (h : Near z v) : Near (-z) (-v) := by
  unfold Near at h ⊢
  rw [abs_neg, show -z - -v = -(z - v) by ring, abs_neg]
  exact h

/-- Sign transfer: the rounded value has the sign of the exact value, here relative to
a reference `c`. -/
theorem Near.sign_mul {z v c : ℚ} (h : Near z v) (hz : z ≠ 0) (hv : 0 < v * c) : 0 < z * c := by
  rcases lt_trichotomy c 0 with hc | hc | hc
  · have hvn : 0 < -v := by nlinarith
    have hzn : 0 < -z := (h.neg.pos_iff (neg_ne_zero.mpr hz)).mpr hvn
    nlinarith
  · rw [hc, mul_zero] at hv; exact absurd hv (lt_irrefl _)
  · have hvp : 0 < v := by
      by_contra hcon
      have : v * c ≤ 0 := mul_nonpos_of_nonpos_of_nonneg (not_lt.mp hcon) hc.le
      linarith
    have hzp : 0 < z := (h.pos_iff hz).mpr hvp
    exact mul_pos hzp hc

end Binary64

/-! ## One execution of the loop body at zero thrust -/

namespace Binary64

theorem le_of_sq_le_sq_nonneg (a b : ℚ) (ha : 0 ≤ a) (hb : 0 ≤ b) (h : a ^ 2 ≤ b ^ 2) : a ≤ b := by
  by_contra hc
  have hlt : b < a := not_le.mp hc
  have : b ^ 2 < a ^ 2 := by nlinarith
  linarith

/-- From `S^2 ≈ Lam` and `P^2 ≈ Lam^3` to `S * Lam ≈ P`, both ways. -/
theorem sqrt_pow_chain (lo hi el eh S Lam P : ℚ) (hlo : 0 < lo) (hhi : 0 < hi) (hel : 0 < el)
    (hle : el ≤ eh) (hS : 0 < S) (hL : 0 < Lam) (hP : 0 < P)
    (s1 : S ^ 2 * lo ^ 2 ≤ Lam * eh) (s2 : Lam * el ≤ S ^ 2 * hi ^ 2)
    (p1 : P ^ 2 * lo ^ 2 ≤ Lam ^ 3 * eh) (p2 : Lam ^ 3 * el ≤ P ^ 2 * hi ^ 2) :
    S * Lam * lo * el ≤ P * hi * eh ∧ P * lo * el ≤ S * Lam * hi * eh := by
  have heh : 0 < eh := lt_of_lt_of_le hel hle
  constructor
  · apply le_of_sq_le_sq_nonneg _ _ (by positivity) (by positivity)
    calc (S * Lam * lo * el) ^ 2 = (S ^ 2 * lo ^ 2) * (Lam ^ 2 * el ^ 2) := by ring
      _ ≤ (Lam * eh) * (Lam ^ 2 * el ^ 2) := mul_le_mul_of_nonneg_right s1 (by positivity)
      _ = (Lam ^ 3 * el) * (eh * el) := by ring
      _ ≤ (P ^ 2 * hi ^ 2) * (eh * el) := mul_le_mul_of_nonneg_right p2 (by positivity)
      _ ≤ (P ^ 2 * hi ^ 2) * (eh * eh) :=
          mul_le_mul_of_nonneg_left (mul_le_mul_of_nonneg_left hle heh.le) (by positivity)
      _ = (P * hi * eh) ^ 2 := by ring
  · apply le_of_sq_le_sq_nonneg _ _ (by positivity) (by positivity)
    calc (P * lo * el) ^ 2 = (P ^ 2 * lo ^ 2) * (el * el) := by ring
      _ ≤ (Lam ^ 3 * eh) * (el * el) := mul_le_mul_of_nonneg_right p1 (by positivity)
      _ = (Lam * el) * (Lam ^ 2 * (eh * el)) := by ring
      _ ≤ (S ^ 2 * hi ^ 2) * (Lam ^ 2 * (eh * el)) :=
          mul_le_mul_of_nonneg_right s2 (by positivity)
      _ ≤ (S ^ 2 * hi ^ 2) * (Lam ^ 2 * (eh * eh)) := by
          apply mul_le_mul_of_nonneg_left _ (by positivity)
          apply mul_le_mul_of_nonneg_left _ (by positivity)
          exact mul_le_mul_of_nonneg_left hle heh.le
      _ = (S * Lam * hi * eh) ^ 2 := by ring

/-- Upper bound of the zero-thrust step `T = |f*h|` against the guess `l = |lmd_0|`. -/
theorem zero_thrust_step_upper (lo hi el eh f l x4 x5 x6 x7 S Lam P x9 x12 x13 D hA T : ℚ)
    (hlo : 0 < lo) (hhi : 0 < hi) (hel : 0 < el) (hle : el ≤ eh)
    (hf : 0 ≤ f) (hl : 0 ≤ l) (hS : 0 < S) (hL : 0 < Lam) (hP : 0 < P) (h12 : 0 ≤ x12)
    (hD : 0 < D) (hT : 0 ≤ T) (h9 : 0 ≤ x9) (h13 : 0 ≤ x13)
    (a4 : x4 * lo ≤ 2 * l) (a5 : x5 * lo ≤ x4 * S) (a6 : x6 * lo ≤ x5)
    (a7 : x7 * lo ≤ x6 * Lam) (ah : hA * lo * D ≤ x7) (at_ : T * lo ≤ f * hA)
    (b9 : 2 * P ≤ x9 * hi) (b13 : x9 + x12 ≤ x13 * hi) (bD : x13 ≤ D * hi)
    (sp : S * Lam * lo * el ≤ P * hi * eh) :
    T * lo ^ 7 * el ≤ f * l * hi ^ 4 * eh := by
  have hloD : 0 ≤ lo * D := by positivity
  have u1 : T * lo ^ 2 * D ≤ f * x7 :=
    calc T * lo ^ 2 * D = (T * lo) * (lo * D) := by ring
      _ ≤ (f * hA) * (lo * D) := mul_le_mul_of_nonneg_right at_ hloD
      _ = f * (hA * lo * D) := by ring
      _ ≤ f * x7 := mul_le_mul_of_nonneg_left ah hf
  have u2 : T * lo ^ 3 * D ≤ f * (x6 * Lam) :=
    calc T * lo ^ 3 * D = (T * lo ^ 2 * D) * lo := by ring
      _ ≤ (f * x7) * lo := mul_le_mul_of_nonneg_right u1 hlo.le
      _ = f * (x7 * lo) := by ring
      _ ≤ f * (x6 * Lam) := mul_le_mul_of_nonneg_left a7 hf
  have u3 : T * lo ^ 4 * D ≤ f * (x5 * Lam) :=
    calc T * lo ^ 4 * D = (T * lo ^ 3 * D) * lo := by ring
      _ ≤ (f * (x6 * Lam)) * lo := mul_le_mul_of_nonneg_right u2 hlo.le
      _ = f * Lam * (x6 * lo) := by ring
      _ ≤ f * Lam * x5 := mul_le_mul_of_nonneg_left a6 (by positivity)
      _ = f * (x5 * Lam) := by ring
  have u4 : T * lo ^ 5 * D ≤ f * (x4 * S * Lam) :=
    calc T * lo ^ 5 * D = (T * lo ^ 4 * D) * lo := by ring
      _ ≤ (f * (x5 * Lam)) * lo := mul_le_mul_of_nonneg_right u3 hlo.le
      _ = f * Lam * (x5 * lo) := by ring
      _ ≤ f * Lam * (x4 * S) := mul_le_mul_of_nonneg_left a5 (by positivity)
      _ = f * (x4 * S * Lam) := by ring
  have u5 : T * lo ^ 6 * D ≤ 2 * f * l * S * Lam :=
    calc T * lo ^ 6 * D = (T * lo ^ 5 * D) * lo := by ring
      _ ≤ (f * (x4 * S * Lam)) * lo := mul_le_mul_of_nonneg_right u4 hlo.le
      _ = f * S * Lam * (x4 * lo) := by ring
      _ ≤ f * S * Lam * (2 * l) := mul_le_mul_of_nonneg_left a4 (by positivity)
      _ = 2 * f * l * S * Lam := by ring
  have u6 : 2 * P ≤ D * hi ^ 3 :=
    calc 2 * P ≤ x9 * hi := b9
      _ ≤ (x9 + x12) * hi := mul_le_mul_of_nonneg_right (by linarith) hhi.le
      _ ≤ (x13 * hi) * hi := mul_le_mul_of_nonneg_right b13 hhi.le
      _ = x13 * hi ^ 2 := by ring
      _ ≤ (D * hi) * hi ^ 2 := mul_le_mul_of_nonneg_right bD (by positivity)
      _ = D * hi ^ 3 := by ring
  have u7 : (T * lo ^ 7 * el) * (2 * P) ≤ (f * l * hi ^ 4 * eh) * (2 * P) :=
    calc (T * lo ^ 7 * el) * (2 * P) ≤ (T * lo ^ 7 * el) * (D * hi ^ 3) :=
          mul_le_mul_of_nonneg_left u6 (by positivity)
      _ = (T * lo ^ 6 * D) * (lo * el * hi ^ 3) := by ring
      _ ≤ (2 * f * l * S * Lam) * (lo * el * hi ^ 3) :=
          mul_le_mul_of_nonneg_right u5 (by positivity)
      _ = (2 * f * l * hi ^ 3) * (S * Lam * lo * el) := by ring
      _ ≤ (2 * f * l * hi ^ 3) * (P * hi * eh) :=
          mul_le_mul_of_nonneg_left sp (by positivity)
      _ = (f * l * hi ^ 4 * eh) * (2 * P) := by ring
  exact le_of_mul_le_mul_right u7 (by positivity)

/-- Lower bound of the zero-thrust step `T = |f*h|` against the guess `l = |lmd_0|`. -/
theorem zero_thrust_step_lower (lo hi el eh f l x4 x5 x6 x7 S Lam P x9 x11 x12 x13 D hA T : ℚ)
    (hlo : 0 < lo) (hlo1 : lo ≤ 1) (hhi : 0 < hi) (hel : 0 < el) (hel1 : el ≤ 1) (heh : 0 < eh)
    (hf : 0 ≤ f) (hl : 0 ≤ l) (hS : 0 < S) (hL : 0 < Lam) (hP : 0 < P) (h11 : 0 ≤ x11)
    (hD : 0 < D) (hT : 0 ≤ T)
    (c4 : 2 * l ≤ x4 * hi) (c5 : x4 * S ≤ x5 * hi) (c6 : x5 ≤ x6 * hi)
    (c7 : x6 * Lam ≤ x7 * hi) (ch : x7 ≤ hA * hi * D) (ct : f * hA ≤ T * hi)
    (d9 : x9 * lo ≤ 2 * P) (d12 : x12 * lo ≤ x11 * Lam) (d13 : x13 * lo ≤ x9 + x12)
    (dD : D * lo ≤ x13)
    (ps : P * lo * el ≤ S * Lam * hi * eh) :
    2 * f * l * S * lo ^ 4 * el ≤ T * hi ^ 6 * (2 * S * hi * eh + x11) := by
  have l1 : f * x7 ≤ T * hi ^ 2 * D :=
    calc f * x7 ≤ f * (hA * hi * D) := mul_le_mul_of_nonneg_left ch hf
      _ = (f * hA) * (hi * D) := by ring
      _ ≤ (T * hi) * (hi * D) := mul_le_mul_of_nonneg_right ct (by positivity)
      _ = T * hi ^ 2 * D := by ring
  have l2 : f * (x6 * Lam) ≤ T * hi ^ 3 * D :=
    calc f * (x6 * Lam) ≤ f * (x7 * hi) := mul_le_mul_of_nonneg_left c7 hf
      _ = (f * x7) * hi := by ring
      _ ≤ (T * hi ^ 2 * D) * hi := mul_le_mul_of_nonneg_right l1 hhi.le
      _ = T * hi ^ 3 * D := by ring
  have l3 : f * (x5 * Lam) ≤ T * hi ^ 4 * D :=
    calc f * (x5 * Lam) = f * Lam * x5 := by ring
      _ ≤ f * Lam * (x6 * hi) := mul_le_mul_of_nonneg_left c6 (by positivity)
      _ = (f * (x6 * Lam)) * hi := by ring
      _ ≤ (T * hi ^ 3 * D) * hi := mul_le_mul_of_nonneg_right l2 hhi.le
      _ = T * hi ^ 4 * D := by ring
  have l4 : f * (x4 * S * Lam) ≤ T * hi ^ 5 * D :=
    calc f * (x4 * S * Lam) = f * Lam * (x4 * S) := by ring
      _ ≤ f * Lam * (x5 * hi) := mul_le_mul_of_nonneg_left c5 (by positivity)
      _ = (f * (x5 * Lam)) * hi := by ring
      _ ≤ (T * hi ^ 4 * D) * hi := mul_le_mul_of_nonneg_right l3 hhi.le
      _ = T * hi ^ 5 * D := by ring
  have l5 : 2 * f * l * S * Lam ≤ T * hi ^ 6 * D :=
    calc 2 * f * l * S * Lam = f * S * Lam * (2 * l) := by ring
      _ ≤ f * S * Lam * (x4 * hi) := mul_le_mul_of_nonneg_left c4 (by positivity)
      _ = (f * (x4 * S * Lam)) * hi := by ring
      _ ≤ (T * hi ^ 5 * D) * hi := mul_le_mul_of_nonneg_right l4 hhi.le
      _ = T * hi ^ 6 * D := by ring
  have l6 : D * lo ^ 3 ≤ 2 * P + x11 * Lam :=
    calc D * lo ^ 3 = (D * lo) * lo ^ 2 := by ring
      _ ≤ x13 * lo ^ 2 := mul_le_mul_of_nonneg_right dD (by positivity)
      _ = (x13 * lo) * lo := by ring
      _ ≤ (x9 + x12) * lo := mul_le_mul_of_nonneg_right d13 hlo.le
      _ = x9 * lo + x12 * lo := by ring
      _ ≤ 2 * P + x11 * Lam := add_le_add d9 d12
  have l7 : (2 * f * l * S * lo ^ 4 * el) * Lam
      ≤ (T * hi ^ 6 * (2 * S * hi * eh + x11)) * Lam :=
    calc (2 * f * l * S * lo ^ 4 * el) * Lam = (2 * f * l * S * Lam) * (lo ^ 3 * (lo * el)) := by
          ring
      _ ≤ (T * hi ^ 6 * D) * (lo ^ 3 * (lo * el)) :=
          mul_le_mul_of_nonneg_right l5 (by positivity)
      _ = (T * hi ^ 6 * (lo * el)) * (D * lo ^ 3) := by ring
      _ ≤ (T * hi ^ 6 * (lo * el)) * (2 * P + x11 * Lam) :=
          mul_le_mul_of_nonneg_left l6 (by positivity)
      _ = T * hi ^ 6 * (2 * (P * lo * el) + x11 * Lam * (lo * el)) := by ring
      _ ≤ T * hi ^ 6 * (2 * (S * Lam * hi * eh) + x11 * Lam * 1) := by
          apply mul_le_mul_of_nonneg_left _ (by positivity)
          apply add_le_add
          · linarith
          · apply mul_le_mul_of_nonneg_left _ (by positivity)
            calc lo * el ≤ 1 * 1 := mul_le_mul hlo1 hel1 hel.le (by norm_num)
              _ = 1 := by norm_num
      _ = (T * hi ^ 6 * (2 * S * hi * eh + x11)) * Lam := by ring
  exact le_of_mul_le_mul_right l7 hL


theorem lit_two : (2 : Binary64) = fin false 4503599627370496 (-51) := by decide!
theorem lit_four : (4.0 : Binary64) = fin false 4503599627370496 (-50) := by decide!

theorem toRat_two : toRat (2 : Binary64) = 2 := by
  rw [lit_two]; simp only [toRat]; norm_num

theorem toRat_four : toRat (4.0 : Binary64) = 4 := by
  rw [lit_four]; simp only [toRat]; norm_num

theorem toRat_relax : toRat (0.6 : Binary64) = 5404319552844595 / 2 ^ 53 := by
  rw [lit_relax]; simp only [toRat]; norm_num

theorem toRat_zero_mul (y : Binary64) : toRat ((0 : Binary64) * y) = 0 := by
  rw [lit_zero]
  show toRat (mul (fin false 0 0) y) = 0
  cases y with
  | nan => simp [mul, toRat]
  | inf n => simp [mul, toRat]
  | fin n m e => simp [mul, roundScaled_zero, toRat]

theorem Near.ne_zero {z v : ℚ} (h : Near z v) (hz : z ≠ 0) : v ≠ 0 := by
  intro hv
  unfold Near at h
  rw [hv, sub_zero] at h
  have hzabs : 0 < |z| := abs_pos.mpr hz
  have : |z| / 2 ^ 53 < |z| := by
    rw [div_lt_iff₀ (by positivity)]
    nlinarith
  linarith


/-! ### The error lemmas in the notation of the source -/

theorem near_mul (x y : Binary64) (hN : isNormal (x * y) = true) :
    Near (toRat (x * y)) (toRat x * toRat y) := mul_near x y hN

theorem near_div (x y : Binary64) (hN : isNormal (x / y) = true) :
    Near (toRat (x / y)) (toRat x / toRat y) := div_near x y hN

theorem near_add (x y : Binary64) (hN : isNormal (x + y) = true) :
    Near (toRat (x + y)) (toRat x + toRat y) := add_near x y hN

theorem near_sub (x y : Binary64) (hN : isNormal (x - y) = true) :
    Near (toRat (x - y)) (toRat x - toRat y) := sub_near x y hN

theorem near_pow_2 (x : Binary64) (hN : isNormal (DoubleMath.pow_2 x) = true) :
    Near (toRat (DoubleMath.pow_2 x)) (toRat x ^ 2) := pow_2_near x hN

theorem near_sqrt (x : Binary64) (hN : isNormal (DoubleMath.sqrt x) = true) :
    0 < toRat x ∧ 0 < toRat (DoubleMath.sqrt x)
    ∧ toRat (DoubleMath.sqrt x) ^ 2 * (1 - 1 / 2 ^ 53) ^ 2 ≤ toRat x * (1 + 1 / 2 ^ 64)
    ∧ toRat x * (1 - 1 / 2 ^ 64) ≤ toRat (DoubleMath.sqrt x) ^ 2 * (1 + 1 / 2 ^ 53) ^ 2 :=
  sqrt_near x hN

theorem near_pow_1_5 (x : Binary64) (hN : isNormal (DoubleMath.pow_1_5 x) = true) :
    0 < toRat x ∧ 0 < toRat (DoubleMath.pow_1_5 x)
    ∧ toRat (DoubleMath.pow_1_5 x) ^ 2 * (1 - 1 / 2 ^ 53) ^ 2 ≤ toRat x ^ 3 * (1 + 1 / 2 ^ 64)
    ∧ toRat x ^ 3 * (1 - 1 / 2 ^ 64) ≤ toRat (DoubleMath.pow_1_5 x) ^ 2 * (1 + 1 / 2 ^ 53) ^ 2 :=
  pow_1_5_near x hN

theorem toRat_neg' (x : Binary64) : toRat (-x) = - toRat x := toRat_neg x

end Binary64

namespace HarmonicInflowModel
open Binary64

theorem dampedUpdate_eq_add {α : Type} [DoubleMath α] (f a0 s C_T mu mu_z lmdPrev : α) :
    dampedUpdate f a0 s C_T mu mu_z lmdPrev
      = lmdPrev + updateIncrement f a0 s C_T mu mu_z lmdPrev := rfl

set_option maxHeartbeats 1000000 in
/-- The rounding-error analysis of one loop body execution with `C_T = 0` and `mu_z = 0`,
when every intermediate result is a normal number. -/
theorem zero_thrust_facts (a0 s mu lmd_0 : Binary64) (has : Binary64.gt (a0 * s) 0 = true)
    (hn : ∀ v ∈ dampedUpdateSteps 0.6 a0 s 0 mu 0 lmd_0, Binary64.isNormal v = true) :
    toRat lmd_0 ≠ 0
    ∧ toRat (updateIncrement 0.6 a0 s 0 mu 0 lmd_0) * toRat lmd_0 < 0
    ∧ |toRat (updateIncrement 0.6 a0 s 0 mu 0 lmd_0)| * (1 - 1 / 2 ^ 53) ^ 7 * (1 - 1 / 2 ^ 64)
        ≤ 5404319552844595 / 2 ^ 53 * |toRat lmd_0| * (1 + 1 / 2 ^ 53) ^ 4 * (1 + 1 / 2 ^ 64)
    ∧ 2 * (5404319552844595 / 2 ^ 53) * |toRat lmd_0|
          * toRat (DoubleMath.sqrt (updateLambda mu 0 lmd_0)) * (1 - 1 / 2 ^ 53) ^ 4
          * (1 - 1 / 2 ^ 64)
        ≤ |toRat (updateIncrement 0.6 a0 s 0 mu 0 lmd_0)| * (1 + 1 / 2 ^ 53) ^ 6
          * (2 * toRat (DoubleMath.sqrt (updateLambda mu 0 lmd_0)) * (1 + 1 / 2 ^ 53)
              * (1 + 1 / 2 ^ 64) + toRat (a0 * s / 4.0))
    ∧ 0 < toRat (DoubleMath.sqrt (updateLambda mu 0 lmd_0))
    ∧ toRat (DoubleMath.pow_2 mu) * (1 - 1 / 2 ^ 64)
        ≤ toRat (DoubleMath.sqrt (updateLambda mu 0 lmd_0)) ^ 2 * (1 + 1 / 2 ^ 53) ^ 3
    ∧ 0 < toRat (a0 * s / 4.0)
    ∧ Near (toRat (dampedUpdate 0.6 a0 s 0 mu 0 lmd_0))
        (toRat lmd_0 + toRat (updateIncrement 0.6 a0 s 0 mu 0 lmd_0)) := by
  simp only [dampedUpdateSteps, List.forall_mem_cons, List.not_mem_nil, false_imp_iff,
    implies_true, and_true] at hn
  obtain ⟨h1, h2, h3, hL, hS, h4, h5, h6, h7, hP, h9, h10, h11, h12, h13, hD, hh, ht, hr⟩ := hn
  simp only [updateIncrement, updateLambda, dampedUpdate]
  have n1 := near_pow_2 mu h1
  have n2 := near_sub lmd_0 0 h2
  have n3 := near_pow_2 (lmd_0 - 0) h3
  have nL := near_add _ _ hL
  obtain ⟨-, Spos, s1, s2⟩ := near_sqrt _ hS
  have n4 := near_mul 2 lmd_0 h4
  have n5 := near_mul _ _ h5
  have n6 := near_sub _ 0 h6
  have n7 := near_mul _ _ h7
  obtain ⟨-, Ppos, p1, p2⟩ := near_pow_1_5 _ hP
  have n9 := near_mul 2 _ h9
  have n10 := near_mul a0 s h10
  have n11 := near_div (a0 * s) 4.0 h11
  have n12 := near_mul _ _ h12
  have n13 := near_add _ _ h13
  have nD := near_sub _ _ hD
  have nh := near_div _ _ hh
  have nt := near_mul 0.6 _ ht
  have nr := near_add lmd_0 _ hr
  rw [toRat_two] at n4 n9
  rw [toRat_zero, sub_zero] at n2 n6
  rw [toRat_four] at n11
  rw [toRat_relax] at nt
  rw [toRat_zero_mul, sub_zero] at nD
  rw [toRat_neg'] at nh
  have z1 := isNormal_toRat_ne_zero _ h1
  have z2 := isNormal_toRat_ne_zero _ h2
  have z3 := isNormal_toRat_ne_zero _ h3
  have zL := isNormal_toRat_ne_zero _ hL
  have z4 := isNormal_toRat_ne_zero _ h4
  have z5 := isNormal_toRat_ne_zero _ h5
  have z6 := isNormal_toRat_ne_zero _ h6
  have z7 := isNormal_toRat_ne_zero _ h7
  have z9 := isNormal_toRat_ne_zero _ h9
  have z11 := isNormal_toRat_ne_zero _ h11
  have z12 := isNormal_toRat_ne_zero _ h12
  have z13 := isNormal_toRat_ne_zero _ h13
  have zD := isNormal_toRat_ne_zero _ hD
  have zh := isNormal_toRat_ne_zero _ hh
  have zt := isNormal_toRat_ne_zero _ ht
  have p10 : 0 < toRat (a0 * s) := toRat_pos_of_gt_zero _ has (isNormal_not_isInf _ h10)
  clear h1 h2 h3 hL hS h4 h5 h6 h7 hP h9 h10 h11 h12 h13 hD hh ht hr has n10
  generalize toRat (lmd_0 + 0.6 * (-((2 * lmd_0 * DoubleMath.sqrt
    (DoubleMath.pow_2 mu + DoubleMath.pow_2 (lmd_0 - 0)) - 0)
      * (DoubleMath.pow_2 mu + DoubleMath.pow_2 (lmd_0 - 0)))
      / (2 * DoubleMath.pow_1_5 (DoubleMath.pow_2 mu + DoubleMath.pow_2 (lmd_0 - 0))
        + a0 * s / 4.0 * (DoubleMath.pow_2 mu + DoubleMath.pow_2 (lmd_0 - 0))
        - 0 * (0 - lmd_0)))) = R at *
  generalize toRat (0.6 * (-((2 * lmd_0 * DoubleMath.sqrt
    (DoubleMath.pow_2 mu + DoubleMath.pow_2 (lmd_0 - 0)) - 0)
      * (DoubleMath.pow_2 mu + DoubleMath.pow_2 (lmd_0 - 0)))
      / (2 * DoubleMath.pow_1_5 (DoubleMath.pow_2 mu + DoubleMath.pow_2 (lmd_0 - 0))
        + a0 * s / 4.0 * (DoubleMath.pow_2 mu + DoubleMath.pow_2 (lmd_0 - 0))
        - 0 * (0 - lmd_0)))) = T at *
  generalize toRat (-((2 * lmd_0 * DoubleMath.sqrt
    (DoubleMath.pow_2 mu + DoubleMath.pow_2 (lmd_0 - 0)) - 0)
      * (DoubleMath.pow_2 mu + DoubleMath.pow_2 (lmd_0 - 0)))
      / (2 * DoubleMath.pow_1_5 (DoubleMath.pow_2 mu + DoubleMath.pow_2 (lmd_0 - 0))
        + a0 * s / 4.0 * (DoubleMath.pow_2 mu + DoubleMath.pow_2 (lmd_0 - 0))
        - 0 * (0 - lmd_0))) = H at *
  generalize toRat (2 * DoubleMath.pow_1_5 (DoubleMath.pow_2 mu + DoubleMath.pow_2 (lmd_0 - 0))
        + a0 * s / 4.0 * (DoubleMath.pow_2 mu + DoubleMath.pow_2 (lmd_0 - 0))
        - 0 * (0 - lmd_0)) = D at *
  generalize toRat (2 * DoubleMath.pow_1_5 (DoubleMath.pow_2 mu + DoubleMath.pow_2 (lmd_0 - 0))
        + a0 * s / 4.0 * (DoubleMath.pow_2 mu + DoubleMath.pow_2 (lmd_0 - 0))) = X13 at *
  generalize toRat (a0 * s / 4.0 * (DoubleMath.pow_2 mu + DoubleMath.pow_2 (lmd_0 - 0))) = X12
    at *
  generalize toRat (a0 * s / 4.0) = X11 at *
  generalize toRat (a0 * s) = X10 at *
  generalize toRat (2 * DoubleMath.pow_1_5 (DoubleMath.pow_2 mu + DoubleMath.pow_2 (lmd_0 - 0)))
    = X9 at *
  generalize toRat (DoubleMath.pow_1_5 (DoubleMath.pow_2 mu + DoubleMath.pow_2 (lmd_0 - 0))) = P
    at *
  generalize toRat ((2 * lmd_0 * DoubleMath.sqrt
    (DoubleMath.pow_2 mu + DoubleMath.pow_2 (lmd_0 - 0)) - 0)
      * (DoubleMath.pow_2 mu + DoubleMath.pow_2 (lmd_0 - 0))) = X7 at *
  generalize toRat (2 * lmd_0 * DoubleMath.sqrt
    (DoubleMath.pow_2 mu + DoubleMath.pow_2 (lmd_0 - 0)) - 0) = X6 at *
  generalize toRat (2 * lmd_0 * DoubleMath.sqrt
    (DoubleMath.pow_2 mu + DoubleMath.pow_2 (lmd_0 - 0))) = X5 at *
  generalize toRat (2 * lmd_0) = X4 at *
  generalize toRat (DoubleMath.sqrt (DoubleMath.pow_2 mu + DoubleMath.pow_2 (lmd_0 - 0))) = S
    at *
  generalize toRat (DoubleMath.pow_2 mu + DoubleMath.pow_2 (lmd_0 - 0)) = Lam at *
  generalize toRat (DoubleMath.pow_2 (lmd_0 - 0)) = X3 at *
  generalize toRat (lmd_0 - 0) = W at *
  generalize toRat (DoubleMath.pow_2 mu) = X1 at *
  generalize toRat lmd_0 = l at *
  generalize toRat mu = m at *
  -- signs and positivity
  have hl0 : l ≠ 0 := n2.ne_zero z2
  have hll : 0 < l * l := mul_self_pos.mpr hl0
  have hlabs : 0 < |l| := abs_pos.mpr hl0
  have X1pos : 0 < X1 := (n1.pos_iff z1).mpr
    (lt_of_le_of_ne (sq_nonneg m) (Ne.symm (n1.ne_zero z1)))
  have X3pos : 0 < X3 := (n3.pos_iff z3).mpr
    (lt_of_le_of_ne (sq_nonneg W) (Ne.symm (n3.ne_zero z3)))
  have Lpos : 0 < Lam := (nL.pos_iff zL).mpr (by linarith)
  have X9pos : 0 < X9 := (n9.pos_iff z9).mpr (by linarith)
  have X11pos : 0 < X11 := (n11.pos_iff z11).mpr (by positivity)
  have X12pos : 0 < X12 := (n12.pos_iff z12).mpr (by positivity)
  have X13pos : 0 < X13 := (n13.pos_iff z13).mpr (by linarith)
  have Dpos : 0 < D := (nD.pos_iff zD).mpr X13pos
  have s4 : 0 < X4 * l := n4.sign_mul z4 (by nlinarith)
  have s5 : 0 < X5 * l := n5.sign_mul z5 (by nlinarith)
  have s6 : 0 < X6 * l := n6.sign_mul z6 s5
  have s7 : 0 < X7 * l := n7.sign_mul z7 (by nlinarith)
  have sh : 0 < H * (-l) := nh.sign_mul zh (by
    have : -X7 / D * -l = X7 * l / D := by ring
    rw [this]; positivity)
  have st : 0 < T * (-l) := nt.sign_mul zt (by
    have : 5404319552844595 / 2 ^ 53 * H * -l = 5404319552844595 / 2 ^ 53 * (H * -l) := by ring
    rw [this]; positivity)
  -- magnitudes
  have a4 := n4.abs_bounds
  have a5 := n5.abs_bounds
  have a6 := n6.abs_bounds
  have a7 := n7.abs_bounds
  have ah := nh.abs_bounds
  have at_ := nt.abs_bounds
  rw [abs_mul, abs_of_pos (show (0:ℚ) < 2 by norm_num)] at a4
  rw [abs_mul, abs_of_pos Spos] at a5
  rw [abs_mul, abs_of_pos Lpos] at a7
  rw [abs_div, abs_neg, abs_of_pos Dpos] at ah
  rw [abs_mul, abs_of_pos (show (0:ℚ) < 5404319552844595 / 2 ^ 53 by norm_num)] at at_
  have ah1 : |H| * (1 - 1 / 2 ^ 53) * D ≤ |X7| := by
    have := ah.1
    rw [le_div_iff₀ Dpos] at this
    exact this
  have ah2 : |X7| ≤ |H| * (1 + 1 / 2 ^ 53) * D := by
    have := ah.2
    rw [div_le_iff₀ Dpos] at this
    exact this
  obtain ⟨b9a, b9b⟩ := n9.bounds X9pos
  obtain ⟨b11a, b11b⟩ := n11.bounds X11pos
  obtain ⟨b12a, b12b⟩ := n12.bounds X12pos
  obtain ⟨b13a, b13b⟩ := n13.bounds X13pos
  obtain ⟨bDa, bDb⟩ := nD.bounds Dpos
  obtain ⟨bLa, bLb⟩ := nL.bounds Lpos
  obtain ⟨sp, ps⟩ := sqrt_pow_chain (1 - 1 / 2 ^ 53) (1 + 1 / 2 ^ 53) (1 - 1 / 2 ^ 64)
    (1 + 1 / 2 ^ 64) S Lam P (by norm_num) (by norm_num) (by norm_num) (by norm_num)
    Spos Lpos Ppos s1 s2 p1 p2
  refine ⟨hl0, by linarith, ?_, ?_, Spos, ?_, X11pos, nr⟩
  · exact zero_thrust_step_upper (1 - 1 / 2 ^ 53) (1 + 1 / 2 ^ 53) (1 - 1 / 2 ^ 64)
      (1 + 1 / 2 ^ 64) (5404319552844595 / 2 ^ 53) |l| |X4| |X5| |X6| |X7| S Lam P X9 X12 X13
      D |H| |T| (by norm_num) (by norm_num) (by norm_num) (by norm_num) (by norm_num)
      (abs_nonneg l) Spos Lpos Ppos X12pos.le Dpos (abs_nonneg T) X9pos.le X13pos.le
      a4.1 a5.1 a6.1 a7.1 ah1 at_.1 b9b b13b bDb sp
  · exact zero_thrust_step_lower (1 - 1 / 2 ^ 53) (1 + 1 / 2 ^ 53) (1 - 1 / 2 ^ 64)
      (1 + 1 / 2 ^ 64) (5404319552844595 / 2 ^ 53) |l| |X4| |X5| |X6| |X7| S Lam P X9 X11
      X12 X13 D |H| |T| (by norm_num) (by norm_num) (by norm_num) (by norm_num) (by norm_num)
      (by norm_num) (by norm_num) (abs_nonneg l) Spos Lpos Ppos X11pos.le Dpos (abs_nonneg T)
      a4.2 a5.2 a6.2 a7.2 ah2 at_.2 b9a b12a b13a bDa ps
  · calc X1 * (1 - 1 / 2 ^ 64) ≤ (X1 + X3) * (1 - 1 / 2 ^ 64) :=
          mul_le_mul_of_nonneg_right (by linarith) (by norm_num)
      _ ≤ (Lam * (1 + 1 / 2 ^ 53)) * (1 - 1 / 2 ^ 64) :=
          mul_le_mul_of_nonneg_right bLb (by norm_num)
      _ = (Lam * (1 - 1 / 2 ^ 64)) * (1 + 1 / 2 ^ 53) := by ring
      _ ≤ (S ^ 2 * (1 + 1 / 2 ^ 53) ^ 2) * (1 + 1 / 2 ^ 53) :=
          mul_le_mul_of_nonneg_right s2 (by norm_num)
      _ = S ^ 2 * (1 + 1 / 2 ^ 53) ^ 3 := by ring

end HarmonicInflowModel

namespace Binary64

/-- For `T` of sign opposite to `l` and of smaller magnitude, `|l + T| = |l| - |T|`. -/
theorem abs_add_opposite (l T : ℚ) (hs : T * l < 0) (hle : |T| ≤ |l|) :
    |l + T| = |l| - |T| := by
  rcases lt_trichotomy l 0 with hl | hl | hl
  · have hT : 0 < T := by
      by_contra hc
      have : 0 ≤ T * l := mul_nonneg_of_nonpos_of_nonpos (not_lt.mp hc) hl.le
      linarith
    rw [abs_of_neg hl, abs_of_pos hT] at hle ⊢
    rw [abs_of_nonpos (by linarith)]
    ring
  · rw [hl, mul_zero] at hs; exact absurd hs (lt_irrefl _)
  · have hT : T < 0 := by
      by_contra hc
      have : 0 ≤ T * l := mul_nonneg (not_lt.mp hc) hl.le
      linarith
    rw [abs_of_pos hl, abs_of_neg hT] at hle ⊢
    rw [abs_of_nonneg (by linarith)]
    ring

end Binary64

/-! ## The stopping test and the momentum residual -/

namespace Binary64

theorem toRat_pow_2_nonneg (x : Binary64) : 0 ≤ toRat (pow_2 x) := by
  cases x with
  | nan => simp [pow_2, toRat]
  | inf n => simp [pow_2, toRat]
  | fin n m e =>
    simp only [pow_2, roundScaled, roundNE]
    split_ifs <;> simp [toRat] <;> positivity


theorem toRat_fin_pos (m : ℕ) (e : ℤ) (hm : 0 < m) : 0 < toRat (fin false m e) := by
  have h1 : toRat (fin false m e) = (m : ℚ) * (2:ℚ) ^ e := by simp [toRat]
  have h2 : (0:ℚ) < (m:ℚ) := by exact_mod_cast hm
  rw [h1]
  positivity

end Binary64

/-! ## The two groupings of the harmonic product -/

namespace Binary64

/-- Rounding-error bookkeeping for the two groupings of the harmonic product. -/
theorem grouping_chain (lo hi Z Z' g g' t q k1 k2 c P L x : ℚ) (hlo : 0 < lo) (hhi : 0 < hi)
    (hZ : 0 ≤ Z) (hq : 0 ≤ q) (hc : 0 ≤ c) (hL : 0 < L) (hx : 0 ≤ x)
    (t1 : t * lo ≤ c * P) (t2 : c * P ≤ t * hi)
    (q1 : q * lo ≤ 16 * L) (q2 : 16 * L ≤ q * hi)
    (g1 : g * lo * q ≤ t) (g2 : t ≤ g * hi * q)
    (z1 : Z * lo ≤ g * x) (z2 : g * x ≤ Z * hi)
    (a1 : k1 * lo * 16 ≤ P) (a2 : P ≤ k1 * hi * 16)
    (b1 : k2 * lo * L ≤ k1) (b2 : k1 ≤ k2 * hi * L)
    (c1 : g' * lo ≤ c * k2) (c2 : c * k2 ≤ g' * hi)
    (d1 : Z' * lo ≤ g' * x) (d2 : g' * x ≤ Z' * hi) :
    Z * lo ^ 3 ≤ Z' * hi ^ 5 ∧ Z' * lo ^ 5 ≤ Z * hi ^ 3 := by
  have h16 : (0:ℚ) < 16 * L := by positivity
  constructor
  · apply le_of_mul_le_mul_right _ h16
    calc Z * lo ^ 3 * (16 * L) = Z * lo ^ 3 * (16 * L) := rfl
      _ ≤ Z * lo ^ 3 * (q * hi) := mul_le_mul_of_nonneg_left q2 (by positivity)
      _ = (Z * lo) * (lo ^ 2 * q * hi) := by ring
      _ ≤ (g * x) * (lo ^ 2 * q * hi) := mul_le_mul_of_nonneg_right z1 (by positivity)
      _ = (g * lo * q) * (x * lo * hi) := by ring
      _ ≤ t * (x * lo * hi) := mul_le_mul_of_nonneg_right g1 (by positivity)
      _ = (t * lo) * (x * hi) := by ring
      _ ≤ (c * P) * (x * hi) := mul_le_mul_of_nonneg_right t1 (by positivity)
      _ = P * (c * x * hi) := by ring
      _ ≤ (k1 * hi * 16) * (c * x * hi) := mul_le_mul_of_nonneg_right a2 (by positivity)
      _ = k1 * (hi ^ 2 * 16 * c * x) := by ring
      _ ≤ (k2 * hi * L) * (hi ^ 2 * 16 * c * x) :=
          mul_le_mul_of_nonneg_right b2 (by positivity)
      _ = (c * k2) * (hi ^ 3 * 16 * L * x) := by ring
      _ ≤ (g' * hi) * (hi ^ 3 * 16 * L * x) :=
          mul_le_mul_of_nonneg_right c2 (by positivity)
      _ = (g' * x) * (hi ^ 4 * 16 * L) := by ring
      _ ≤ (Z' * hi) * (hi ^ 4 * 16 * L) := mul_le_mul_of_nonneg_right d2 (by positivity)
      _ = Z' * hi ^ 5 * (16 * L) := by ring
  · apply le_of_mul_le_mul_right _ h16
    calc Z' * lo ^ 5 * (16 * L) = (Z' * lo) * (lo ^ 4 * 16 * L) := by ring
      _ ≤ (g' * x) * (lo ^ 4 * 16 * L) := mul_le_mul_of_nonneg_right d1 (by positivity)
      _ = (g' * lo) * (lo ^ 3 * 16 * L * x) := by ring
      _ ≤ (c * k2) * (lo ^ 3 * 16 * L * x) :=
          mul_le_mul_of_nonneg_right c1 (by positivity)
      _ = (k2 * lo * L) * (lo ^ 2 * 16 * c * x) := by ring
      _ ≤ k1 * (lo ^ 2 * 16 * c * x) := mul_le_mul_of_nonneg_right b1 (by positivity)
      _ = (k1 * lo * 16) * (lo * c * x) := by ring
      _ ≤ P * (lo * c * x) := mul_le_mul_of_nonneg_right a1 (by positivity)
      _ = (c * P) * (lo * x) := by ring
      _ ≤ (t * hi) * (lo * x) := mul_le_mul_of_nonneg_right t2 (by positivity)
      _ = t * (hi * lo * x) := by ring
      _ ≤ (g * hi * q) * (hi * lo * x) := mul_le_mul_of_nonneg_right g2 (by positivity)
      _ = (g * x) * (hi ^ 2 * (q * lo)) := by ring
      _ ≤ (Z * hi) * (hi ^ 2 * (q * lo)) := mul_le_mul_of_nonneg_right z2 (by positivity)
      _ = (Z * hi ^ 3) * (q * lo) := by ring
      _ ≤ (Z * hi ^ 3) * (16 * L) := mul_le_mul_of_nonneg_left q1 (by positivity)
      _ = Z * hi ^ 3 * (16 * L) := by ring


/-- The two groupings of the harmonic product, `C*p/q*X` with `q = 16*l` (the source) and
`C*(p/16/l)*X` (the specification), agree to a relative `2^-49` when every intermediate
result of both is a normal number. -/
theorem grouping_near (C p l X : Binary64)
    (hc : ∀ v ∈ [C * p, 16 * l, C * p / (16 * l), C * p / (16 * l) * X], isNormal v = true)
    (hs : ∀ v ∈ [p / 16, p / 16 / l, C * (p / 16 / l), C * (p / 16 / l) * X],
      isNormal v = true) :
    |toRat (C * p / (16 * l) * X) - toRat (C * (p / 16 / l) * X)|
      ≤ 1 / 2 ^ 49 * |toRat (C * (p / 16 / l) * X)| := by
  simp only [List.forall_mem_cons, List.not_mem_nil, false_imp_iff, implies_true, and_true]
    at hc hs
  obtain ⟨ht, hq, hg, hZ⟩ := hc
  obtain ⟨hk1, hk2, hg', hZ'⟩ := hs
  have nt := near_mul C p ht
  have nq := near_mul 16 l hq
  have ng := near_div (C * p) (16 * l) hg
  have nZ := near_mul (C * p / (16 * l)) X hZ
  have nk1 := near_div p 16 hk1
  have nk2 := near_div (p / 16) l hk2
  have ng' := near_mul C (p / 16 / l) hg'
  have nZ' := near_mul (C * (p / 16 / l)) X hZ'
  rw [toRat_sixteen] at nq nk1
  have zt := isNormal_toRat_ne_zero _ ht
  have zq := isNormal_toRat_ne_zero _ hq
  have zg := isNormal_toRat_ne_zero _ hg
  have zZ := isNormal_toRat_ne_zero _ hZ
  have zk1 := isNormal_toRat_ne_zero _ hk1
  have zk2 := isNormal_toRat_ne_zero _ hk2
  have zg' := isNormal_toRat_ne_zero _ hg'
  have zZ' := isNormal_toRat_ne_zero _ hZ'
  clear ht hq hg hZ hk1 hk2 hg' hZ'
  generalize toRat (C * p / (16 * l) * X) = Z at *
  generalize toRat (C * (p / 16 / l) * X) = Z' at *
  generalize toRat (C * p / (16 * l)) = g at *
  generalize toRat (C * (p / 16 / l)) = g' at *
  generalize toRat (C * p) = t at *
  generalize toRat (16 * l) = q at *
  generalize toRat (p / 16 / l) = k2 at *
  generalize toRat (p / 16) = k1 at *
  generalize toRat C = c at *
  generalize toRat p = P at *
  generalize toRat l = L at *
  generalize toRat X = x at *
  -- non-zero inputs
  have hcP : c * P ≠ 0 := nt.ne_zero zt
  have hc0 : c ≠ 0 := left_ne_zero_of_mul hcP
  have hP0 : P ≠ 0 := right_ne_zero_of_mul hcP
  have hL0 : L ≠ 0 := by
    have := nq.ne_zero zq
    exact right_ne_zero_of_mul this
  have hx0 : x ≠ 0 := right_ne_zero_of_mul (nZ.ne_zero zZ)
  have hcc : 0 < c * c := mul_self_pos.mpr hc0
  have hPP : 0 < P * P := mul_self_pos.mpr hP0
  have hLL : 0 < L * L := mul_self_pos.mpr hL0
  have hxx : 0 < x * x := mul_self_pos.mpr hx0
  have hqq : 0 < q * q := mul_self_pos.mpr zq
  -- signs, against the reference c * P * L (gain) and c * P * L * x (product)
  have st : 0 < t * (c * P) := nt.sign_mul zt (mul_self_pos.mpr hcP)
  have sq : 0 < q * L := nq.sign_mul zq (by nlinarith)
  have sg : 0 < g * (c * P * L) := ng.sign_mul zg (by
    have : t / q * (c * P * L) = (t * (c * P)) * (q * L) / (q * q) := by
      field_simp; ring
    rw [this]; positivity)
  have sZ : 0 < Z * (c * P * L * x) := nZ.sign_mul zZ (by
    have : g * x * (c * P * L * x) = (g * (c * P * L)) * (x * x) := by ring
    rw [this]; positivity)
  have sk1 : 0 < k1 * P := nk1.sign_mul zk1 (by
    have : P / 16 * P = P * P / 16 := by ring
    rw [this]; positivity)
  have sk2 : 0 < k2 * (P * L) := nk2.sign_mul zk2 (by
    have : k1 / L * (P * L) = k1 * P := by field_simp; ring
    rw [this]; exact sk1)
  have sg' : 0 < g' * (c * P * L) := ng'.sign_mul zg' (by
    have : c * k2 * (c * P * L) = (c * c) * (k2 * (P * L)) := by ring
    rw [this]; positivity)
  have sZ' : 0 < Z' * (c * P * L * x) := nZ'.sign_mul zZ' (by
    have : g' * x * (c * P * L * x) = (g' * (c * P * L)) * (x * x) := by ring
    rw [this]; positivity)
  have hsign : 0 < Z ↔ 0 < Z' := by
    constructor
    · intro hz
      by_contra hn
      have hz' : Z' < 0 := lt_of_le_of_ne (not_lt.mp hn) zZ'
      nlinarith
    · intro hz
      by_contra hn
      have hz' : Z < 0 := lt_of_le_of_ne (not_lt.mp hn) zZ
      nlinarith
  -- magnitudes
  have at_ := nt.abs_bounds
  have aq := nq.abs_bounds
  have ag := ng.abs_bounds
  have aZ := nZ.abs_bounds
  have ak1 := nk1.abs_bounds
  have ak2 := nk2.abs_bounds
  have ag' := ng'.abs_bounds
  have aZ' := nZ'.abs_bounds
  rw [abs_mul] at at_ aZ ag' aZ'
  rw [abs_mul, abs_of_pos (show (0:ℚ) < 16 by norm_num)] at aq
  rw [abs_div] at ag ak2
  rw [abs_div, abs_of_pos (show (0:ℚ) < 16 by norm_num)] at ak1
  have hqabs : 0 < |q| := abs_pos.mpr zq
  have hLabs : 0 < |L| := abs_pos.mpr hL0
  rw [le_div_iff₀ hqabs, div_le_iff₀ hqabs] at ag
  rw [le_div_iff₀ hLabs, div_le_iff₀ hLabs] at ak2
  rw [le_div_iff₀ (show (0:ℚ) < 16 by norm_num), div_le_iff₀ (show (0:ℚ) < 16 by norm_num)]
    at ak1
  have hch := grouping_chain (1 - 1 / 2 ^ 53) (1 + 1 / 2 ^ 53) |Z| |Z'| |g| |g'| |t| |q|
    |k1| |k2| |c| |P| |L| |x| (by norm_num) (by norm_num) (abs_nonneg _) (abs_nonneg _)
    (abs_nonneg _) hLabs (abs_nonneg _) at_.1 at_.2 aq.1 aq.2 ag.1 ag.2 aZ.1 aZ.2
    ak1.1 ak1.2 ak2.1 ak2.2 ag'.1 ag'.2 aZ'.1 aZ'.2
  apply abs_sub_le_of_abs_bounds Z Z' (1 / 2 ^ 49) hsign zZ zZ'
  · have h0 : (0:ℚ) ≤ |Z'| := abs_nonneg _
    have h1 := hch.2
    have hn : (1 - 1 / 2 ^ 49 : ℚ) * (1 + 1 / 2 ^ 53) ^ 3 ≤ (1 - 1 / 2 ^ 53) ^ 5 := by
      norm_num
    have h3 : (0:ℚ) < (1 + 1 / 2 ^ 53) ^ 3 := by positivity
    apply le_of_mul_le_mul_right _ h3
    calc (1 - 1 / 2 ^ 49) * |Z'| * (1 + 1 / 2 ^ 53) ^ 3
        = |Z'| * ((1 - 1 / 2 ^ 49) * (1 + 1 / 2 ^ 53) ^ 3) := by ring
      _ ≤ |Z'| * (1 - 1 / 2 ^ 53) ^ 5 := mul_le_mul_of_nonneg_left hn h0
      _ ≤ |Z| * (1 + 1 / 2 ^ 53) ^ 3 := h1
  · have h0 : (0:ℚ) ≤ |Z'| := abs_nonneg _
    have h1 := hch.1
    have hn : (1 + 1 / 2 ^ 53 : ℚ) ^ 5 ≤ (1 + 1 / 2 ^ 49) * (1 - 1 / 2 ^ 53) ^ 3 := by
      norm_num
    have h3 : (0:ℚ) < (1 - 1 / 2 ^ 53) ^ 3 := by norm_num
    apply le_of_mul_le_mul_right _ h3
    calc |Z| * (1 - 1 / 2 ^ 53) ^ 3 ≤ |Z'| * (1 + 1 / 2 ^ 53) ^ 5 := h1
      _ ≤ |Z'| * ((1 + 1 / 2 ^ 49) * (1 - 1 / 2 ^ 53) ^ 3) :=
          mul_le_mul_of_nonneg_left hn h0
      _ = (1 + 1 / 2 ^ 49) * |Z'| * (1 - 1 / 2 ^ 53) ^ 3 := by ring

end Binary64

/-! ## The zero-thrust step for every rotor and advance ratio -/

namespace HarmonicInflowModel
open Binary64

/-- The numerical step of the zero-thrust bound: from the two-sided estimate of the step
`T` and `m^2 ≲ S^2` to `(1.2 - 2^-48) * m * l ≤ T * (2 * m + A)`. -/
theorem zero_thrust_step_general (l S T m M A : ℚ) (hl : 0 ≤ l) (hS : 0 < S) (hT : 0 ≤ T)
    (hm : 0 ≤ m) (hA : 0 < A)
    (hM : m ^ 2 ≤ M * (1 + 1 / 2 ^ 53))
    (hS2 : M * (1 - 1 / 2 ^ 64) ≤ S ^ 2 * (1 + 1 / 2 ^ 53) ^ 3)
    (h : 2 * (5404319552844595 / 2 ^ 53) * l * S * (1 - 1 / 2 ^ 53) ^ 4 * (1 - 1 / 2 ^ 64)
      ≤ T * (1 + 1 / 2 ^ 53) ^ 6 * (2 * S * (1 + 1 / 2 ^ 53) * (1 + 1 / 2 ^ 64) + A)) :
    (12 / 10 - 1 / 2 ^ 48) * m * l ≤ T * (2 * m + A) := by
  -- m' = m * (1 - 2^-51) is below S
  have hmS : m * (1 - 1 / 2 ^ 51) ≤ S := by
    apply le_of_sq_le_sq_nonneg _ _ (mul_nonneg hm (by norm_num)) hS.le
    have hk : ((1 + 1 / 2 ^ 53 : ℚ) ^ 4 * (1 - 1 / 2 ^ 51) ^ 2) ≤ 1 - 1 / 2 ^ 64 := by norm_num
    have h1 : (m * (1 - 1 / 2 ^ 51)) ^ 2 * (1 - 1 / 2 ^ 64) ≤ S ^ 2 * (1 - 1 / 2 ^ 64) := by
      calc (m * (1 - 1 / 2 ^ 51)) ^ 2 * (1 - 1 / 2 ^ 64)
          = m ^ 2 * ((1 - 1 / 2 ^ 51) ^ 2 * (1 - 1 / 2 ^ 64)) := by ring
        _ ≤ (M * (1 + 1 / 2 ^ 53)) * ((1 - 1 / 2 ^ 51) ^ 2 * (1 - 1 / 2 ^ 64)) :=
            mul_le_mul_of_nonneg_right hM (by norm_num)
        _ = (M * (1 - 1 / 2 ^ 64)) * ((1 + 1 / 2 ^ 53) * (1 - 1 / 2 ^ 51) ^ 2) := by ring
        _ ≤ (S ^ 2 * (1 + 1 / 2 ^ 53) ^ 3) * ((1 + 1 / 2 ^ 53) * (1 - 1 / 2 ^ 51) ^ 2) :=
            mul_le_mul_of_nonneg_right hS2 (by norm_num)
        _ = S ^ 2 * ((1 + 1 / 2 ^ 53) ^ 4 * (1 - 1 / 2 ^ 51) ^ 2) := by ring
        _ ≤ S ^ 2 * (1 - 1 / 2 ^ 64) := mul_le_mul_of_nonneg_left hk (by positivity)
    exact le_of_mul_le_mul_right h1 (by norm_num)
  generalize hm' : m * (1 - 1 / 2 ^ 51) = m' at hmS
  have hm'0 : 0 ≤ m' := by rw [← hm']; exact mul_nonneg hm (by norm_num)
  have hm'm : m' * ((1 + 1 / 2 ^ 53) * (1 + 1 / 2 ^ 64)) ≤ m := by
    rw [← hm']
    calc m * (1 - 1 / 2 ^ 51) * ((1 + 1 / 2 ^ 53) * (1 + 1 / 2 ^ 64))
        = m * ((1 - 1 / 2 ^ 51) * ((1 + 1 / 2 ^ 53) * (1 + 1 / 2 ^ 64))) := by ring
      _ ≤ m * 1 := mul_le_mul_of_nonneg_left (by norm_num) hm
      _ = m := mul_one m
  have hBS : (0:ℚ) < 2 * S * (1 + 1 / 2 ^ 53) * (1 + 1 / 2 ^ 64) + A := by positivity
  have hc : (0:ℚ) ≤ 2 * (5404319552844595 / 2 ^ 53) * ((1 - 1 / 2 ^ 53) ^ 4 * (1 - 1 / 2 ^ 64)) := by
    norm_num
  generalize hcdef : (2 * (5404319552844595 / 2 ^ 53) * ((1 - 1 / 2 ^ 53) ^ 4 * (1 - 1 / 2 ^ 64)) : ℚ)
    = c at hc
  have h' : c * (l * S) ≤ T * (1 + 1 / 2 ^ 53) ^ 6
      * (2 * S * (1 + 1 / 2 ^ 53) * (1 + 1 / 2 ^ 64) + A) := by
    rw [← hcdef]
    calc 2 * (5404319552844595 / 2 ^ 53) * ((1 - 1 / 2 ^ 53) ^ 4 * (1 - 1 / 2 ^ 64)) * (l * S)
        = 2 * (5404319552844595 / 2 ^ 53) * l * S * (1 - 1 / 2 ^ 53) ^ 4 * (1 - 1 / 2 ^ 64) := by
          ring
      _ ≤ _ := h
  -- cross-multiplied monotonicity of S / (2 S c + A)
  have hmono : c * (l * m') * (2 * S * (1 + 1 / 2 ^ 53) * (1 + 1 / 2 ^ 64) + A)
      ≤ c * (l * S) * (2 * m' * (1 + 1 / 2 ^ 53) * (1 + 1 / 2 ^ 64) + A) := by
    have hd : c * (l * S) * (2 * m' * (1 + 1 / 2 ^ 53) * (1 + 1 / 2 ^ 64) + A)
        - c * (l * m') * (2 * S * (1 + 1 / 2 ^ 53) * (1 + 1 / 2 ^ 64) + A)
        = c * l * A * (S - m') := by ring
    have : 0 ≤ c * l * A * (S - m') :=
      mul_nonneg (mul_nonneg (mul_nonneg hc hl) hA.le) (by linarith)
    linarith
  have hBm : (0:ℚ) ≤ 2 * m' * (1 + 1 / 2 ^ 53) * (1 + 1 / 2 ^ 64) + A := by positivity
  have hstep : c * (l * m') ≤ T * (1 + 1 / 2 ^ 53) ^ 6
      * (2 * m' * (1 + 1 / 2 ^ 53) * (1 + 1 / 2 ^ 64) + A) := by
    apply le_of_mul_le_mul_right _ hBS
    calc c * (l * m') * (2 * S * (1 + 1 / 2 ^ 53) * (1 + 1 / 2 ^ 64) + A)
        ≤ c * (l * S) * (2 * m' * (1 + 1 / 2 ^ 53) * (1 + 1 / 2 ^ 64) + A) := hmono
      _ ≤ (T * (1 + 1 / 2 ^ 53) ^ 6
            * (2 * S * (1 + 1 / 2 ^ 53) * (1 + 1 / 2 ^ 64) + A))
          * (2 * m' * (1 + 1 / 2 ^ 53) * (1 + 1 / 2 ^ 64) + A) :=
          mul_le_mul_of_nonneg_right h' hBm
      _ = T * (1 + 1 / 2 ^ 53) ^ 6
            * (2 * m' * (1 + 1 / 2 ^ 53) * (1 + 1 / 2 ^ 64) + A)
          * (2 * S * (1 + 1 / 2 ^ 53) * (1 + 1 / 2 ^ 64) + A) := by ring
  have hstep2 : c * (l * m') ≤ T * (1 + 1 / 2 ^ 53) ^ 6 * (2 * m + A) := by
    refine hstep.trans (mul_le_mul_of_nonneg_left ?_ (by positivity))
    have : 2 * m' * (1 + 1 / 2 ^ 53) * (1 + 1 / 2 ^ 64)
        = 2 * (m' * ((1 + 1 / 2 ^ 53) * (1 + 1 / 2 ^ 64))) := by ring
    rw [this]
    linarith
  have hnum : (12 / 10 - 1 / 2 ^ 48 : ℚ) * (1 + 1 / 2 ^ 53) ^ 6
      ≤ 2 * (5404319552844595 / 2 ^ 53) * ((1 - 1 / 2 ^ 53) ^ 4 * (1 - 1 / 2 ^ 64))
        * (1 - 1 / 2 ^ 51) := by norm_num
  rw [hcdef] at hnum
  have hfin : (12 / 10 - 1 / 2 ^ 48) * m * l * (1 + 1 / 2 ^ 53) ^ 6
      ≤ T * (2 * m + A) * (1 + 1 / 2 ^ 53) ^ 6 := by
    calc (12 / 10 - 1 / 2 ^ 48) * m * l * (1 + 1 / 2 ^ 53) ^ 6
        = ((12 / 10 - 1 / 2 ^ 48) * (1 + 1 / 2 ^ 53) ^ 6) * (m * l) := by ring
      _ ≤ (c * (1 - 1 / 2 ^ 51)) * (m * l) :=
          mul_le_mul_of_nonneg_right hnum (mul_nonneg hm hl)
      _ = c * (l * (m * (1 - 1 / 2 ^ 51))) := by ring
      _ = c * (l * m') := by rw [hm']
      _ ≤ T * (1 + 1 / 2 ^ 53) ^ 6 * (2 * m + A) := hstep2
      _ = T * (2 * m + A) * (1 + 1 / 2 ^ 53) ^ 6 := by ring
  exact le_of_mul_le_mul_right hfin (by positivity)

end HarmonicInflowModel

/-! ## Counting rounding factors, and one execution of the loop body in hover -/

namespace Binary64

theorem Within.refl (x : ℚ) : Within 0 x x := by
  simp [Within]

theorem Within.cast {a b : ℕ} {z v : ℚ} (h : Within a z v) (e : a = b) : Within b z v :=
  e ▸ h

theorem Within.nonneg {k : ℕ} {z v : ℚ} (h : Within k z v) (hv : 0 ≤ v) : 0 ≤ z :=
  le_trans (mul_nonneg hv (pow_nonneg (by norm_num) k)) h.1

theorem Within.pos {k : ℕ} {z v : ℚ} (h : Within k z v) (hv : 0 < v) : 0 < z :=
  lt_of_lt_of_le (mul_pos hv (pow_pos (by norm_num) k)) h.1

theorem Within.mono {a b : ℕ} {z v : ℚ} (h : Within a z v) (hab : a ≤ b) (hv : 0 ≤ v) :
    Within b z v := by
  constructor
  · refine le_trans (mul_le_mul_of_nonneg_left ?_ hv) h.1
    exact pow_le_pow_of_le_one (by norm_num) (by norm_num) hab
  · refine le_trans h.2 (mul_le_mul_of_nonneg_left ?_ hv)
    exact pow_le_pow_right₀ (by norm_num) hab

theorem Within.of_near {z v : ℚ} (h : Near z v) : Within 2 |z| |v| := by
  obtain ⟨h1, h2⟩ := h.abs_bounds
  have hz : 0 ≤ |z| := abs_nonneg z
  have hv : 0 ≤ |v| := abs_nonneg v
  constructor
  · calc |v| * (1 - 1 / 2 ^ 53) ^ 2 ≤ (|z| * (1 + 1 / 2 ^ 53)) * (1 - 1 / 2 ^ 53) ^ 2 :=
          mul_le_mul_of_nonneg_right h2 (by norm_num)
      _ = |z| * ((1 + 1 / 2 ^ 53) * (1 - 1 / 2 ^ 53) ^ 2) := by ring
      _ ≤ |z| * 1 := mul_le_mul_of_nonneg_left (by norm_num) hz
      _ = |z| := mul_one _
  · calc |z| = |z| * 1 := (mul_one _).symm
      _ ≤ |z| * ((1 - 1 / 2 ^ 53) * (1 + 1 / 2 ^ 53) ^ 2) :=
          mul_le_mul_of_nonneg_left (by norm_num) hz
      _ = (|z| * (1 - 1 / 2 ^ 53)) * (1 + 1 / 2 ^ 53) ^ 2 := by ring
      _ ≤ |v| * (1 + 1 / 2 ^ 53) ^ 2 := mul_le_mul_of_nonneg_right h1 (by norm_num)

theorem Within.trans {a b : ℕ} {z v w : ℚ} (h1 : Within a z v) (h2 : Within b v w) :
    Within (a + b) z w := by
  constructor
  · calc w * (1 - 1 / 2 ^ 53) ^ (a + b) = (w * (1 - 1 / 2 ^ 53) ^ b) * (1 - 1 / 2 ^ 53) ^ a := by
          rw [pow_add]; ring
      _ ≤ v * (1 - 1 / 2 ^ 53) ^ a :=
          mul_le_mul_of_nonneg_right h2.1 (pow_nonneg (by norm_num) a)
      _ ≤ z := h1.1
  · calc z ≤ v * (1 + 1 / 2 ^ 53) ^ a := h1.2
      _ ≤ (w * (1 + 1 / 2 ^ 53) ^ b) * (1 + 1 / 2 ^ 53) ^ a :=
          mul_le_mul_of_nonneg_right h2.2 (pow_nonneg (by norm_num) a)
      _ = w * (1 + 1 / 2 ^ 53) ^ (a + b) := by rw [pow_add]; ring

theorem Within.mul {a b : ℕ} {x x0 y y0 : ℚ} (hx : Within a x x0) (hy : Within b y y0)
    (hx0 : 0 ≤ x0) (hy0 : 0 ≤ y0) : Within (a + b) (x * y) (x0 * y0) := by
  have hxn := hx.nonneg hx0
  have hyn := hy.nonneg hy0
  constructor
  · calc x0 * y0 * (1 - 1 / 2 ^ 53) ^ (a + b)
        = (x0 * (1 - 1 / 2 ^ 53) ^ a) * (y0 * (1 - 1 / 2 ^ 53) ^ b) := by rw [pow_add]; ring
      _ ≤ x * y := mul_le_mul hx.1 hy.1
          (mul_nonneg hy0 (pow_nonneg (by norm_num) b)) hxn
  · calc x * y ≤ (x0 * (1 + 1 / 2 ^ 53) ^ a) * (y0 * (1 + 1 / 2 ^ 53) ^ b) :=
          mul_le_mul hx.2 hy.2 hyn (mul_nonneg hx0 (pow_nonneg (by norm_num) a))
      _ = x0 * y0 * (1 + 1 / 2 ^ 53) ^ (a + b) := by rw [pow_add]; ring

theorem Within.add {a : ℕ} {x x0 y y0 : ℚ} (hx : Within a x x0) (hy : Within a y y0) :
    Within a (x + y) (x0 + y0) := by
  constructor
  · rw [add_mul]; exact add_le_add hx.1 hy.1
  · rw [add_mul]; exact add_le_add hx.2 hy.2

theorem Within.div {a b : ℕ} {x x0 y y0 : ℚ} (hx : Within a x x0) (hy : Within b y y0)
    (hx0 : 0 ≤ x0) (hy0 : 0 < y0) : Within (a + 2 * b) (x / y) (x0 / y0) := by
  have hxn := hx.nonneg hx0
  have hyp := hy.pos hy0
  have hlb : (0:ℚ) < (1 - 1 / 2 ^ 53) ^ b := pow_pos (by norm_num) b
  have hhb : (0:ℚ) < (1 + 1 / 2 ^ 53) ^ b := pow_pos (by norm_num) b
  have hla : (0:ℚ) ≤ (1 - 1 / 2 ^ 53) ^ a := pow_nonneg (by norm_num) a
  have hha : (0:ℚ) ≤ (1 + 1 / 2 ^ 53) ^ a := pow_nonneg (by norm_num) a
  have e1 : ((1 - 1 / 2 ^ 53 : ℚ) ^ 2) ^ b * (1 + 1 / 2 ^ 53) ^ b ≤ 1 := by
    rw [← mul_pow]
    exact pow_le_one₀ (by norm_num) (by norm_num)
  have e2 : (1:ℚ) ≤ ((1 + 1 / 2 ^ 53 : ℚ) ^ 2) ^ b * (1 - 1 / 2 ^ 53) ^ b := by
    rw [← mul_pow]
    exact one_le_pow₀ (by norm_num)
  constructor
  · rw [le_div_iff₀ hyp]
    calc x0 / y0 * (1 - 1 / 2 ^ 53) ^ (a + 2 * b) * y
        ≤ x0 / y0 * (1 - 1 / 2 ^ 53) ^ (a + 2 * b) * (y0 * (1 + 1 / 2 ^ 53) ^ b) :=
          mul_le_mul_of_nonneg_left hy.2
            (mul_nonneg (div_nonneg hx0 hy0.le) (pow_nonneg (by norm_num) _))
      _ = (x0 * (1 - 1 / 2 ^ 53) ^ a)
            * (((1 - 1 / 2 ^ 53) ^ 2) ^ b * (1 + 1 / 2 ^ 53) ^ b) := by
          rw [pow_add, pow_mul]; field_simp; ring
      _ ≤ (x0 * (1 - 1 / 2 ^ 53) ^ a) * 1 :=
          mul_le_mul_of_nonneg_left e1 (mul_nonneg hx0 hla)
      _ = x0 * (1 - 1 / 2 ^ 53) ^ a := mul_one _
      _ ≤ x := hx.1
  · rw [div_le_iff₀ hyp]
    calc x ≤ x0 * (1 + 1 / 2 ^ 53) ^ a := hx.2
      _ = (x0 * (1 + 1 / 2 ^ 53) ^ a) * 1 := (mul_one _).symm
      _ ≤ (x0 * (1 + 1 / 2 ^ 53) ^ a)
            * (((1 + 1 / 2 ^ 53) ^ 2) ^ b * (1 - 1 / 2 ^ 53) ^ b) :=
          mul_le_mul_of_nonneg_left e2 (mul_nonneg hx0 hha)
      _ = x0 / y0 * (1 + 1 / 2 ^ 53) ^ (a + 2 * b) * (y0 * (1 - 1 / 2 ^ 53) ^ b) := by
          rw [pow_add, pow_mul]; field_simp; ring
      _ ≤ x0 / y0 * (1 + 1 / 2 ^ 53) ^ (a + 2 * b) * y :=
          mul_le_mul_of_nonneg_left hy.1
            (mul_nonneg (div_nonneg hx0 hy0.le) (pow_nonneg (by norm_num) _))

/-- A correctly rounded square root (or `x^1.5`, through its square) inherits half of the
rounding factors of its argument, plus two. -/
theorem Within.sqrt {k : ℕ} {S X y : ℚ} (hS : 0 ≤ S) (hy : 0 ≤ y)
    (h1 : S ^ 2 * (1 - 1 / 2 ^ 53) ^ 2 ≤ X * (1 + 1 / 2 ^ 64))
    (h2 : X * (1 - 1 / 2 ^ 64) ≤ S ^ 2 * (1 + 1 / 2 ^ 53) ^ 2)
    (hX : Within (2 * k) X (y ^ 2)) : Within (k + 2) S y := by
  have hy2 : 0 ≤ y ^ 2 := by positivity
  have key : ∀ c d : ℚ, (y * c ^ (k + 2)) ^ 2 * d = (y ^ 2 * c ^ (2 * k)) * ((c ^ 2) ^ 2 * d) := by
    intro c d
    rw [pow_mul, pow_add]; ring
  constructor
  · apply le_of_sq_le_sq_nonneg _ _ (mul_nonneg hy (pow_nonneg (by norm_num) _)) hS
    have hc : ((1 - 1 / 2 ^ 53 : ℚ) ^ 2) ^ 2 * (1 + 1 / 2 ^ 53) ^ 2 ≤ 1 - 1 / 2 ^ 64 := by
      norm_num
    have h3 : (y * (1 - 1 / 2 ^ 53) ^ (k + 2)) ^ 2 * (1 + 1 / 2 ^ 53) ^ 2
        ≤ S ^ 2 * (1 + 1 / 2 ^ 53) ^ 2 := by
      calc (y * (1 - 1 / 2 ^ 53) ^ (k + 2)) ^ 2 * (1 + 1 / 2 ^ 53) ^ 2
          = (y ^ 2 * (1 - 1 / 2 ^ 53) ^ (2 * k))
            * (((1 - 1 / 2 ^ 53) ^ 2) ^ 2 * (1 + 1 / 2 ^ 53) ^ 2) := key _ _
        _ ≤ (y ^ 2 * (1 - 1 / 2 ^ 53) ^ (2 * k)) * (1 - 1 / 2 ^ 64) :=
            mul_le_mul_of_nonneg_left hc
              (mul_nonneg hy2 (pow_nonneg (by norm_num) _))
        _ ≤ X * (1 - 1 / 2 ^ 64) := mul_le_mul_of_nonneg_right hX.1 (by norm_num)
        _ ≤ S ^ 2 * (1 + 1 / 2 ^ 53) ^ 2 := h2
    exact le_of_mul_le_mul_right h3 (by norm_num)
  · apply le_of_sq_le_sq_nonneg _ _ hS (mul_nonneg hy (pow_nonneg (by norm_num) _))
    have hc : (1 + 1 / 2 ^ 64 : ℚ) ≤ ((1 + 1 / 2 ^ 53) ^ 2) ^ 2 * (1 - 1 / 2 ^ 53) ^ 2 := by
      norm_num
    have h3 : S ^ 2 * (1 - 1 / 2 ^ 53) ^ 2
        ≤ (y * (1 + 1 / 2 ^ 53) ^ (k + 2)) ^ 2 * (1 - 1 / 2 ^ 53) ^ 2 := by
      calc S ^ 2 * (1 - 1 / 2 ^ 53) ^ 2 ≤ X * (1 + 1 / 2 ^ 64) := h1
        _ ≤ (y ^ 2 * (1 + 1 / 2 ^ 53) ^ (2 * k)) * (1 + 1 / 2 ^ 64) :=
            mul_le_mul_of_nonneg_right hX.2 (by norm_num)
        _ ≤ (y ^ 2 * (1 + 1 / 2 ^ 53) ^ (2 * k))
            * (((1 + 1 / 2 ^ 53) ^ 2) ^ 2 * (1 - 1 / 2 ^ 53) ^ 2) :=
            mul_le_mul_of_nonneg_left hc
              (mul_nonneg hy2 (pow_nonneg (by norm_num) _))
        _ = (y * (1 + 1 / 2 ^ 53) ^ (k + 2)) ^ 2 * (1 - 1 / 2 ^ 53) ^ 2 := (key _ _).symm
    exact le_of_mul_le_mul_right h3 (by norm_num)


theorem Within.of_near_pos {z v : ℚ} (h : Near z v) (hz : z ≠ 0) (hv : 0 < v) :
    0 < z ∧ Within 2 z v := by
  have hzp : 0 < z := (h.pos_iff hz).mpr hv
  have hw := Within.of_near h
  rw [abs_of_pos hzp, abs_of_pos hv] at hw
  exact ⟨hzp, hw⟩

theorem toRat_pow_2_zero : toRat (DoubleMath.pow_2 (0 : Binary64)) = 0 := by
  have : (DoubleMath.pow_2 (0 : Binary64)) = fin false 0 0 := by decide!
  rw [this]; simp [toRat]

/-- The rounding-factor bookkeeping of the hover update, from the residual `i6` and
`Lambda = L` to the update `t`: `|t|` is `0.6 * |i6| * l^2 / (2*l^3 + A*l^2 + C*l)` up to 54
rounding factors, and `t` has the sign opposite to `i6`. -/
theorem hover_chain (t h den i12 i13 n i11 i9 P i7 i6 L A C l : ℚ)
    (zt : t ≠ 0) (zh : h ≠ 0) (nt : Near t (5404319552844595 / 2 ^ 53 * h))
    (zD : den ≠ 0) (z12 : i12 ≠ 0) (z13 : i13 ≠ 0) (nD : Near den (i12 - i13))
    (zn : n ≠ 0) (z11 : i11 ≠ 0) (z9 : i9 ≠ 0) (n12 : Near i12 (i9 + i11))
    (Ppos : 0 < P) (n9 : Near i9 (2 * P)) (z7 : i7 ≠ 0) (nh : Near h (-i7 / den))
    (z6 : i6 ≠ 0) (Lpos : 0 < L)
    (q1 : P ^ 2 * (1 - 1 / 2 ^ 53) ^ 2 ≤ L ^ 3 * (1 + 1 / 2 ^ 64))
    (q2 : L ^ 3 * (1 - 1 / 2 ^ 64) ≤ P ^ 2 * (1 + 1 / 2 ^ 53) ^ 2)
    (n7 : Near i7 (i6 * L)) (hA : 0 < A) (n11 : Near i11 (A * L)) (hC : 0 < C)
    (n13 : Near i13 (C * n)) (hl : 0 < l) (nn : Near n (-l)) (wL : Within 8 L (l ^ 2)) :
    Within 54 |t| (5404319552844595 / 2 ^ 53 * (|i6| * l ^ 2 / (2 * l ^ 3 + A * l ^ 2 + C * l)))
    ∧ t * i6 < 0 := by
  have hl2 : 0 ≤ l ^ 2 := by positivity
  -- Lambda^1.5
  have wL3 : Within (2 * 12) (L ^ 3) ((l ^ 3) ^ 2) := by
    have h3 : Within (8 + 8 + 8) (L * L * L) (l ^ 2 * l ^ 2 * l ^ 2) :=
      Within.mul (Within.mul wL wL hl2 hl2) wL (by positivity) hl2
    have e1 : L ^ 3 = L * L * L := by ring
    have e2 : (l ^ 3) ^ 2 = l ^ 2 * l ^ 2 * l ^ 2 := by ring
    rw [e1, e2]
    exact h3.cast (by norm_num)
  have wP : Within 14 P (l ^ 3) := (Within.sqrt Ppos.le (by positivity) q1 q2 wL3).cast (by norm_num)
  -- the denominator
  obtain ⟨p9, w90⟩ := Within.of_near_pos n9 z9 (by positivity)
  have w9 : Within 16 i9 (2 * l ^ 3) :=
    (w90.trans (Within.mul (Within.refl 2) wP (by norm_num) (by positivity))).cast
      (by norm_num)
  obtain ⟨p11, w110⟩ := Within.of_near_pos n11 z11 (mul_pos hA Lpos)
  have w11 : Within 10 i11 (A * l ^ 2) :=
    (w110.trans (Within.mul (Within.refl A) wL hA.le hl2)).cast (by norm_num)
  obtain ⟨p12, w120⟩ := Within.of_near_pos n12 z12 (add_pos p9 p11)
  have w12 : Within 18 i12 (2 * l ^ 3 + A * l ^ 2) :=
    (w120.trans (Within.add w9 (w11.mono (by norm_num) (by positivity)))).cast (by norm_num)
  have enn : - -l = l := by ring
  obtain ⟨pn, wn⟩ := Within.of_near_pos nn.neg (neg_ne_zero.mpr zn) (by rw [enn]; exact hl)
  rw [enn] at wn
  have n13' : Near (-i13) (C * -n) := by
    have := n13.neg
    rwa [← mul_neg] at this
  obtain ⟨p13, w130⟩ := Within.of_near_pos n13' (neg_ne_zero.mpr z13) (mul_pos hC pn)
  have w13 : Within 4 (-i13) (C * l) :=
    (w130.trans (Within.mul (Within.refl C) wn hC.le hl.le)).cast (by norm_num)
  have nD' : Near den (i12 + -i13) := by rwa [← sub_eq_add_neg]
  obtain ⟨pD, wD0⟩ := Within.of_near_pos nD' zD (add_pos p12 p13)
  have wD : Within 20 den (2 * l ^ 3 + A * l ^ 2 + C * l) :=
    (wD0.trans (Within.add w12 (w13.mono (by norm_num) (by positivity)))).cast (by norm_num)
  -- the numerator, h and the update
  have w70 := Within.of_near n7
  rw [abs_mul, abs_of_pos Lpos] at w70
  have w7 : Within 10 |i7| (|i6| * l ^ 2) :=
    (w70.trans (Within.mul (Within.refl |i6|) wL (abs_nonneg _) hl2)).cast (by norm_num)
  have wh0 := Within.of_near nh
  rw [abs_div, abs_neg, abs_of_pos pD] at wh0
  have wh : Within 52 |h| (|i6| * l ^ 2 / (2 * l ^ 3 + A * l ^ 2 + C * l)) :=
    (wh0.trans (Within.div w7 wD (by positivity) (by positivity))).cast (by norm_num)
  have wt0 := Within.of_near nt
  rw [abs_mul, abs_of_pos (show (0:ℚ) < 5404319552844595 / 2 ^ 53 by norm_num)] at wt0
  have wt : Within 54 |t|
      (5404319552844595 / 2 ^ 53 * (|i6| * l ^ 2 / (2 * l ^ 3 + A * l ^ 2 + C * l))) :=
    (wt0.trans (Within.mul (Within.refl _) wh (by norm_num) (by positivity))).cast
      (by norm_num)
  refine ⟨wt, ?_⟩
  -- signs
  have s7 : 0 < i7 * i6 := n7.sign_mul z7 (by
    have : i6 * L * i6 = (i6 * i6) * L := by ring
    rw [this]; exact mul_pos (mul_self_pos.mpr z6) Lpos)
  have sh : 0 < h * (-i6) := nh.sign_mul zh (by
    have : -i7 / den * -i6 = (i7 * i6) / den := by ring
    rw [this]; exact div_pos s7 pD)
  have st : 0 < t * (-i6) := nt.sign_mul zt (by
    have : 5404319552844595 / 2 ^ 53 * h * -i6 = 5404319552844595 / 2 ^ 53 * (h * -i6) := by
      ring
    rw [this]; exact mul_pos (by norm_num) sh)
  linarith

end Binary64

namespace HarmonicInflowModel
open Binary64

set_option maxHeartbeats 1000000 in
/-- The rounding-error analysis of one loop body execution in hover (`mu = 0`, `mu_z = 0`)
with a positive guess and positive `C_T` and `a0*s/4`, when every intermediate result is a
normal number. -/
theorem hover_facts (a0 s C_T lmd_0 : Binary64) (hl : 0 < toRat lmd_0) (hC : 0 < toRat C_T)
    (hA : 0 < toRat (a0 * s / 4.0))
    (hn : ∀ v ∈ (dampedUpdateSteps 0.6 a0 s C_T 0 0 lmd_0).tail ++ thrustTermSteps C_T 0 lmd_0,
      Binary64.isNormal v = true) :
    Within 10 (toRat (2 * lmd_0 * DoubleMath.sqrt (updateLambda 0 0 lmd_0)))
        (2 * toRat lmd_0 ^ 2)
    ∧ Near (toRat (updateResidual C_T 0 0 lmd_0))
        (toRat (2 * lmd_0 * DoubleMath.sqrt (updateLambda 0 0 lmd_0)) - toRat C_T)
    ∧ toRat (updateResidual C_T 0 0 lmd_0) ≠ 0
    ∧ Within 54 |toRat (updateIncrement 0.6 a0 s C_T 0 0 lmd_0)|
        (5404319552844595 / 2 ^ 53 * (|toRat (updateResidual C_T 0 0 lmd_0)| * toRat lmd_0 ^ 2
          / (2 * toRat lmd_0 ^ 3 + toRat (a0 * s / 4.0) * toRat lmd_0 ^ 2
              + toRat C_T * toRat lmd_0)))
    ∧ toRat (updateIncrement 0.6 a0 s C_T 0 0 lmd_0) * toRat (updateResidual C_T 0 0 lmd_0) < 0
    ∧ Near (toRat (dampedUpdate 0.6 a0 s C_T 0 0 lmd_0))
        (toRat lmd_0 + toRat (updateIncrement 0.6 a0 s C_T 0 0 lmd_0)) := by
  simp only [dampedUpdateSteps, thrustTermSteps, List.tail_cons, List.cons_append,
    List.nil_append, List.forall_mem_cons, List.not_mem_nil, false_imp_iff, implies_true,
    and_true] at hn
  obtain ⟨hb, hc2, hL, hS, h4, h5, h6, h7, hP, h9, -, -, h11, h12, hD, hh, ht, hr, hng,
    h13⟩ := hn
  simp only [updateIncrement, updateLambda, updateResidual, dampedUpdate]
  -- the guess and Lambda
  obtain ⟨bpos, wb⟩ := Within.of_near_pos (near_sub lmd_0 0 hb) (isNormal_toRat_ne_zero _ hb)
    (by rw [toRat_zero, sub_zero]; exact hl)
  rw [toRat_zero, sub_zero] at wb
  obtain ⟨cpos, wc0⟩ := Within.of_near_pos (near_pow_2 _ hc2) (isNormal_toRat_ne_zero _ hc2)
    (by positivity)
  have wbb : Within 4 (toRat (lmd_0 - 0) ^ 2) (toRat lmd_0 ^ 2) := by
    rw [pow_two, pow_two]; exact (Within.mul wb wb hl.le hl.le).cast (by norm_num)
  have wc : Within 6 (toRat (DoubleMath.pow_2 (lmd_0 - 0))) (toRat lmd_0 ^ 2) := (wc0.trans wbb).cast (by norm_num)
  obtain ⟨Lpos, wL0⟩ := Within.of_near_pos (near_add _ _ hL) (isNormal_toRat_ne_zero _ hL)
    (by rw [toRat_pow_2_zero, zero_add]; exact cpos)
  rw [toRat_pow_2_zero, zero_add] at wL0
  have wL : Within 8 (toRat (DoubleMath.pow_2 0 + DoubleMath.pow_2 (lmd_0 - 0)))
      (toRat lmd_0 ^ 2) := (wL0.trans wc).cast (by norm_num)
  -- the square root and the residual
  obtain ⟨-, Spos, s1, s2⟩ := near_sqrt _ hS
  have wS : Within 6 (toRat (DoubleMath.sqrt (DoubleMath.pow_2 0 + DoubleMath.pow_2 (lmd_0 - 0))))
      (toRat lmd_0) :=
    (Within.sqrt Spos.le hl.le s1 s2 (wL.cast (show 8 = 2 * 4 by norm_num))).cast (by norm_num)
  obtain ⟨p4, w4⟩ := Within.of_near_pos (near_mul 2 lmd_0 h4) (isNormal_toRat_ne_zero _ h4)
    (by rw [toRat_two]; positivity)
  rw [toRat_two] at w4
  obtain ⟨p5, w50⟩ := Within.of_near_pos (near_mul _ _ h5) (isNormal_toRat_ne_zero _ h5)
    (mul_pos p4 Spos)
  have w5 : Within 10 (toRat (2 * lmd_0
      * DoubleMath.sqrt (DoubleMath.pow_2 0 + DoubleMath.pow_2 (lmd_0 - 0))))
      (2 * toRat lmd_0 ^ 2) := by
    have := w50.trans (Within.mul w4 wS (by positivity) hl.le)
    have e5 : 2 * toRat lmd_0 * toRat lmd_0 = 2 * toRat lmd_0 ^ 2 := by ring
    rw [e5] at this
    exact this.cast (by norm_num)
  have n6 := near_sub _ C_T h6
  have z6 := isNormal_toRat_ne_zero _ h6
  refine ⟨w5, n6, z6, ?_⟩
  clear w5 n6 w50 p5 w4 p4 wS s1 s2 wL0 wc wbb wc0 wb bpos cpos
  -- Near facts of the remaining operations
  have n7 := near_mul _ _ h7
  have z7 := isNormal_toRat_ne_zero _ h7
  obtain ⟨-, Ppos, q1, q2⟩ := near_pow_1_5 _ hP
  have n9 := near_mul 2 _ h9
  have z9 := isNormal_toRat_ne_zero _ h9
  have n11 := near_mul _ _ h11
  have z11 := isNormal_toRat_ne_zero _ h11
  have n12 := near_add _ _ h12
  have z12 := isNormal_toRat_ne_zero _ h12
  have nn := near_sub 0 lmd_0 hng
  have zn := isNormal_toRat_ne_zero _ hng
  have n13 := near_mul C_T _ h13
  have z13 := isNormal_toRat_ne_zero _ h13
  have nD := near_sub _ _ hD
  have zD := isNormal_toRat_ne_zero _ hD
  have nh := near_div _ _ hh
  have zh := isNormal_toRat_ne_zero _ hh
  have nt := near_mul 0.6 _ ht
  have zt := isNormal_toRat_ne_zero _ ht
  have nr := near_add lmd_0 _ hr
  rw [toRat_two] at n9
  rw [toRat_zero, zero_sub] at nn
  rw [toRat_relax] at nt
  rw [toRat_neg'] at nh
  have key := hover_chain _ _ _ _ _ _ _ _ _ _ _ _ _ _ _ zt zh nt zD z12 z13 nD zn z11 z9 n12
    Ppos n9 z7 nh z6 Lpos q1 q2 n7 hA n11 hC n13 hl nn wL
  exact ⟨key.1, key.2, nr⟩

end HarmonicInflowModel

namespace Binary64

/-- The accumulated rounding error of the hover update: the returned value is within
`l / 2^47` of the update `l - 0.6*l*(2*l^2 - C)/(2*l^2 + A*l + C)` evaluated without
rounding. -/
theorem hover_error (l C A i5 i6 t r : ℚ) (hl : 0 < l) (hC : 0 < C) (hA : 0 < A)
    (w5 : Within 10 i5 (2 * l ^ 2)) (n6 : Near i6 (i5 - C))
    (wt : Within 54 |t|
      (5404319552844595 / 2 ^ 53 * (|i6| * l ^ 2 / (2 * l ^ 3 + A * l ^ 2 + C * l))))
    (st : t * i6 < 0) (nr : Near r (l + t)) :
    |r - (l - 5404319552844595 / 2 ^ 53 * l * (2 * l ^ 2 - C) / (2 * l ^ 2 + A * l + C))|
      ≤ l / 2 ^ 47 := by
  have hDen : 0 < 2 * l ^ 2 + A * l + C := by positivity
  obtain ⟨K, hKdef⟩ : ∃ K, K = 5404319552844595 / 2 ^ 53 * l / (2 * l ^ 2 + A * l + C) := ⟨_, rfl⟩
  have hK : 0 < K := by rw [hKdef]; positivity
  have hKden : K * (2 * l ^ 2) + K * (A * l) + K * C = 5404319552844595 / 2 ^ 53 * l := by
    rw [hKdef]; field_simp; ring
  have eU : 5404319552844595 / 2 ^ 53 * l * (2 * l ^ 2 - C) / (2 * l ^ 2 + A * l + C)
      = K * (2 * l ^ 2 - C) := by
    rw [hKdef]; field_simp
  have ea : 5404319552844595 / 2 ^ 53 * (|i6| * l ^ 2 / (2 * l ^ 3 + A * l ^ 2 + C * l))
      = K * |i6| := by
    rw [hKdef]; field_simp; ring
  rw [eU]
  rw [ea] at wt
  obtain ⟨wta, wtb⟩ := wt
  obtain ⟨w5a, w5b⟩ := w5
  unfold Near at n6 nr
  have hKAl : 0 ≤ K * (A * l) := by positivity
  have hfl : (5404319552844595 / 2 ^ 53 : ℚ) * l ≤ 6 / 10 * l :=
    mul_le_mul_of_nonneg_right (by norm_num) hl.le
  -- names for the products
  obtain ⟨a, hadef⟩ : ∃ a, a = K * |i6| := ⟨_, rfl⟩
  obtain ⟨q, hqdef⟩ : ∃ q, q = K * (2 * l ^ 2) := ⟨_, rfl⟩
  obtain ⟨c, hcdef⟩ : ∃ c, c = K * C := ⟨_, rfl⟩
  have ha0 : 0 ≤ a := by rw [hadef]; positivity
  have hq0 : 0 ≤ q := by rw [hqdef]; positivity
  have hc0 : 0 ≤ c := by rw [hcdef]; positivity
  have hqc : q + c ≤ 6 / 10 * l := by rw [hqdef, hcdef]; linarith only [hKden, hKAl, hfl]
  -- i5 is 2*l^2 up to 11 rounding errors
  have h5 : |i5 - 2 * l ^ 2| ≤ 11 / 2 ^ 53 * (2 * l ^ 2) := by
    have c1 : ((1 + 1 / 2 ^ 53 : ℚ)) ^ 10 ≤ 1 + 11 / 2 ^ 53 := by norm_num
    have c2 : (1 - 11 / 2 ^ 53 : ℚ) ≤ (1 - 1 / 2 ^ 53) ^ 10 := by norm_num
    have hl2 : (0:ℚ) ≤ 2 * l ^ 2 := by positivity
    have u1 := mul_le_mul_of_nonneg_left c1 hl2
    have u2 := mul_le_mul_of_nonneg_left c2 hl2
    rw [abs_le]
    constructor
    · linarith only [u2, w5a]
    · linarith only [u1, w5b]
  clear w5a w5b
  -- the residual
  have h6 : |i6 - (2 * l ^ 2 - C)| ≤ |i6| / 2 ^ 53 + 11 / 2 ^ 53 * (2 * l ^ 2) := by
    have e : i6 - (2 * l ^ 2 - C) = (i6 - (i5 - C)) + (i5 - 2 * l ^ 2) := by ring
    rw [e]
    exact (abs_add _ _).trans (add_le_add n6 h5)
  have hK6 : K * |i6 - (2 * l ^ 2 - C)| ≤ a / 2 ^ 53 + 11 / 2 ^ 53 * q := by
    have := mul_le_mul_of_nonneg_left h6 hK.le
    rw [hadef, hqdef]
    linarith only [this]
  have hR : |2 * l ^ 2 - C| ≤ 2 * l ^ 2 + C := by
    rw [abs_le]
    constructor <;> nlinarith [sq_nonneg l]
  have hKR : K * |2 * l ^ 2 - C| ≤ q + c := by
    have := mul_le_mul_of_nonneg_left hR hK.le
    rw [hqdef, hcdef]
    linarith only [this]
  have habs6 : |i6| ≤ |2 * l ^ 2 - C| + |i6 - (2 * l ^ 2 - C)| := by
    have := abs_add (2 * l ^ 2 - C) (i6 - (2 * l ^ 2 - C))
    have e : 2 * l ^ 2 - C + (i6 - (2 * l ^ 2 - C)) = i6 := by ring
    rw [e] at this
    exact this
  have ha1 : a ≤ q + c + (a / 2 ^ 53 + 11 / 2 ^ 53 * q) := by
    have := mul_le_mul_of_nonneg_left habs6 hK.le
    rw [mul_add] at this
    rw [hadef]
    rw [hadef] at hK6
    linarith only [this, hKR, hK6]
  have ha2 : a ≤ 61 / 100 * l := by linarith only [ha1, hqc, hq0, hc0, ha0, hl]
  -- the update against K * i6
  have c3 : ((1 + 1 / 2 ^ 53 : ℚ)) ^ 54 ≤ 1 + 55 / 2 ^ 53 := by norm_num
  have c4 : (1 - 55 / 2 ^ 53 : ℚ) ≤ (1 - 1 / 2 ^ 53) ^ 54 := by norm_num
  rw [← hadef] at wta wtb
  have t1 : a * (1 - 55 / 2 ^ 53) ≤ |t| := (mul_le_mul_of_nonneg_left c4 ha0).trans wta
  have t2 : |t| ≤ a * (1 + 55 / 2 ^ 53) := wtb.trans (mul_le_mul_of_nonneg_left c3 ha0)
  clear wta wtb c3 c4
  have hE1 : |t + K * i6| ≤ 55 / 2 ^ 53 * a := by
    rcases lt_or_gt_of_ne (show i6 ≠ 0 by
      intro h0; rw [h0, mul_zero] at st; exact lt_irrefl _ st) with h6n | h6p
    · have htp : 0 < t := by
        by_contra hc
        have : 0 ≤ t * i6 := mul_nonneg_of_nonpos_of_nonpos (not_lt.mp hc) h6n.le
        linarith only [this, st]
      rw [abs_of_pos htp] at t1 t2
      rw [abs_of_neg h6n] at hadef
      have e : K * i6 = -a := by rw [hadef]; ring
      rw [e, abs_le]
      constructor
      · linarith only [t1]
      · linarith only [t2]
    · have htn : t < 0 := by
        by_contra hc
        have : 0 ≤ t * i6 := mul_nonneg (not_lt.mp hc) h6p.le
        linarith only [this, st]
      rw [abs_of_neg htn] at t1 t2
      rw [abs_of_pos h6p] at hadef
      have e : K * i6 = a := by rw [hadef]
      rw [e, abs_le]
      constructor
      · linarith only [t2]
      · linarith only [t1]
  -- the update against the exact update
  have hE4 : |t + K * (2 * l ^ 2 - C)| ≤ 56 / 2 ^ 53 * a + 11 / 2 ^ 53 * q := by
    have e : t + K * (2 * l ^ 2 - C) = (t + K * i6) + -(K * (i6 - (2 * l ^ 2 - C))) := by ring
    rw [e]
    have h1 := abs_add (t + K * i6) (-(K * (i6 - (2 * l ^ 2 - C))))
    rw [abs_neg, abs_mul, abs_of_pos hK] at h1
    linarith only [h1, hE1, hK6]
  have hE5 : |t + K * (2 * l ^ 2 - C)| ≤ 41 / 2 ^ 53 * l := by
    linarith only [hE4, ha2, ha1, hqc, hq0, hc0, hl]
  -- the size of the sum and the last rounding
  have htabs : |t| ≤ 62 / 100 * l := by linarith only [t2, ha2, ha0, hl]
  have hsum : |l + t| ≤ 162 / 100 * l := by
    have := abs_add l t
    rw [abs_of_pos hl] at this
    linarith only [this, htabs]
  have hrabs : |r| ≤ 163 / 100 * l := by
    have h1 : |r| ≤ |l + t| + |r - (l + t)| := by
      have := abs_add (l + t) (r - (l + t))
      have e : l + t + (r - (l + t)) = r := by ring
      rw [e] at this
      exact this
    have h2 : |r| * (1 - 1 / 2 ^ 53) ≤ 162 / 100 * l := by linarith only [h1, nr, hsum]
    have h3 : |r| * (1 - 1 / 2 ^ 53) ≤ 163 / 100 * l * (1 - 1 / 2 ^ 53) := by
      have : (162 / 100 : ℚ) * l ≤ 163 / 100 * l * (1 - 1 / 2 ^ 53) := by
        have : (162 / 100 : ℚ) ≤ 163 / 100 * (1 - 1 / 2 ^ 53) := by norm_num
        calc (162 / 100 : ℚ) * l ≤ (163 / 100 * (1 - 1 / 2 ^ 53)) * l :=
              mul_le_mul_of_nonneg_right this hl.le
          _ = 163 / 100 * l * (1 - 1 / 2 ^ 53) := by ring
      linarith only [this, h2]
    exact le_of_mul_le_mul_right h3 (by norm_num)
  have e : r - (l - K * (2 * l ^ 2 - C)) = (r - (l + t)) + (t + K * (2 * l ^ 2 - C)) := by
    ring
  rw [e]
  have hfin := abs_add (r - (l + t)) (t + K * (2 * l ^ 2 - C))
  have hlast : l / 2 ^ 47 = 64 / 2 ^ 53 * l := by ring
  rw [hlast]
  linarith only [hfin, nr, hrabs, hE5, hl]


/-- The hover update without rounding, for the doubles `0.6`, `0.005` and `5.7*0.08/4.0`:
from a guess at or above `1/20` it does not go below `1/20` and covers at least 38% of the
distance to `1/20`. -/
theorem hover_update_above (l : ℚ) (hl : 1 / 20 ≤ l) :
    1 / 20 ≤ l - 5404319552844595 / 2 ^ 53 * l * (2 * l ^ 2 - 5764607523034235 / 2 ^ 60)
        / (2 * l ^ 2 + 8214565720323785 / 2 ^ 56 * l + 5764607523034235 / 2 ^ 60)
    ∧ l - 5404319552844595 / 2 ^ 53 * l * (2 * l ^ 2 - 5764607523034235 / 2 ^ 60)
        / (2 * l ^ 2 + 8214565720323785 / 2 ^ 56 * l + 5764607523034235 / 2 ^ 60)
      ≤ 1 / 20 + 62 / 100 * (l - 1 / 20) + l / 2 ^ 50 := by
  have hl0 : 0 < l := by linarith
  have hDen : (0:ℚ) < 2 * l ^ 2 + 8214565720323785 / 2 ^ 56 * l + 5764607523034235 / 2 ^ 60 := by
    positivity
  have hx : 0 ≤ l - 1 / 20 := by linarith
  have hx2 : 0 ≤ (l - 1 / 20) ^ 2 := by positivity
  have hx3 : 0 ≤ (l - 1 / 20) ^ 3 := by positivity
  constructor
  · rw [le_sub_iff_add_le, ← le_sub_iff_add_le', div_le_iff₀ hDen]
    nlinarith [hx, hx2, hx3]
  · rw [sub_le_iff_le_add, ← sub_le_iff_le_add', le_div_iff₀ hDen]
    nlinarith [hx, hx2, hx3]

/-- The hover update without rounding, from a positive guess at or below `1/20`: it does
not exceed `1/20` by more than `l/2^50` and leaves at most the fraction `1 - 7*l` of the
distance to `1/20`. -/
theorem hover_update_below (l : ℚ) (hl0 : 0 < l) (hl : l ≤ 1 / 20) :
    1 / 20 - (1 - 7 * l) * (1 / 20 - l) - l / 2 ^ 50
      ≤ l - 5404319552844595 / 2 ^ 53 * l * (2 * l ^ 2 - 5764607523034235 / 2 ^ 60)
        / (2 * l ^ 2 + 8214565720323785 / 2 ^ 56 * l + 5764607523034235 / 2 ^ 60)
    ∧ l - 5404319552844595 / 2 ^ 53 * l * (2 * l ^ 2 - 5764607523034235 / 2 ^ 60)
        / (2 * l ^ 2 + 8214565720323785 / 2 ^ 56 * l + 5764607523034235 / 2 ^ 60)
      ≤ 1 / 20 + l / 2 ^ 50 := by
  have hDen : (0:ℚ) < 2 * l ^ 2 + 8214565720323785 / 2 ^ 56 * l + 5764607523034235 / 2 ^ 60 := by
    positivity
  have hx : 0 ≤ 1 / 20 - l := by linarith
  have b0 : 0 ≤ (1 / 20 - l) ^ 3 := by positivity
  have b1 : 0 ≤ l * (1 / 20 - l) ^ 2 := by positivity
  have b2 : 0 ≤ l ^ 2 * (1 / 20 - l) := by positivity
  have b3 : 0 ≤ l ^ 3 := by positivity
  have d1 : 0 ≤ l * (1 / 20 - l) ^ 3 := by positivity
  have d2 : 0 ≤ l ^ 2 * (1 / 20 - l) ^ 2 := by positivity
  have d3 : 0 ≤ l ^ 3 * (1 / 20 - l) := by positivity
  have d4 : 0 ≤ l ^ 4 := by positivity
  constructor
  · rw [le_sub_iff_add_le, ← le_sub_iff_add_le', div_le_iff₀ hDen]
    nlinarith [d1, d2, d3, d4]
  · rw [sub_le_iff_le_add, ← sub_le_iff_le_add', le_div_iff₀ hDen]
    nlinarith [b0, b1, b2, b3]

end Binary64

namespace HarmonicInflowModel
open Binary64

theorem toRat_hover_thrust : toRat (0.005 : Binary64) = 5764607523034235 / 2 ^ 60 := by
  have : (0.005 : Binary64) = Binary64.fin false 5764607523034235 (-60) := by decide!
  rw [this]; simp only [toRat]; norm_num

theorem toRat_scenario_quarter_lift :
    toRat ((5.7 : Binary64) * 0.08 / 4.0) = 8214565720323785 / 2 ^ 56 := by
  have : ((5.7 : Binary64) * 0.08 / 4.0) = Binary64.fin false 8214565720323785 (-56) := by
    decide!
  rw [this]; simp only [toRat]; norm_num

end HarmonicInflowModel

/-! ## The harmonic product for operands of either sign -/

namespace Binary64

/-- Two numbers whose products with a common reference are positive have the same sign. -/
theorem same_sign_of_mul_pos {a b c : ℚ} (ha : 0 < a * c) (hb : 0 < b * c) : 0 < a ↔ 0 < b := by
  rcases lt_trichotomy c 0 with hc | hc | hc
  · constructor
    · intro h; nlinarith
    · intro h; nlinarith
  · rw [hc, mul_zero] at ha; exact absurd ha (lt_irrefl _)
  · constructor
    · intro _
      by_contra hn
      have : b * c ≤ 0 := mul_nonpos_of_nonpos_of_nonneg (not_lt.mp hn) hc.le
      linarith
    · intro _
      by_contra hn
      have : a * c ≤ 0 := mul_nonpos_of_nonpos_of_nonneg (not_lt.mp hn) hc.le
      linarith

/-- The rounding-error analysis of the harmonic product `C_prime*p/q*X` for operands of
either sign: when the exact gain `P/(Q + P)` is at most `2^10` in size, the product is
within a relative `2^-39` of `P*X/(Q + P)`. -/
theorem simplified_chain (P Q p q k s1 C t g X Z : ℚ)
    (np : Near p P) (nq : Near q Q) (nk : Near k (p / q)) (ns : Near s1 (1 + k))
    (nC : Near C (1 / s1)) (nt : Near t (C * p)) (ng : Near g (t / q)) (nZ : Near Z (g * X))
    (zp : p ≠ 0) (zq : q ≠ 0) (zk : k ≠ 0) (zs : s1 ≠ 0) (zC : C ≠ 0) (zt : t ≠ 0)
    (zg : g ≠ 0) (zZ : Z ≠ 0)
    (hpole : |P| ≤ 2 ^ 10 * |Q + P|) :
    |Z - P * X / (Q + P)| ≤ 1 / 2 ^ 39 * |P * X / (Q + P)| := by
  have zP : P ≠ 0 := np.ne_zero zp
  have zQ : Q ≠ 0 := nq.ne_zero zq
  have zX : X ≠ 0 := right_ne_zero_of_mul (nZ.ne_zero zZ)
  have hPabs : 0 < |P| := abs_pos.mpr zP
  have hQabs : 0 < |Q| := abs_pos.mpr zQ
  have hXabs : 0 < |X| := abs_pos.mpr zX
  have zQP : Q + P ≠ 0 := by
    intro h0
    rw [h0, abs_zero, mul_zero] at hpole
    linarith
  have hQPabs : 0 < |Q + P| := abs_pos.mpr zQP
  -- the quotient k against P / Q
  have sp : 0 < p * P := np.sign_mul zp (mul_self_pos.mpr zP)
  have sq : 0 < q * Q := nq.sign_mul zq (mul_self_pos.mpr zQ)
  have sk : 0 < k * (P / Q) := nk.sign_mul zk (by
    have : p / q * (P / Q) = (p * P) / (q * Q) := by field_simp
    rw [this]; exact div_pos sp sq)
  have wp := Within.of_near np
  have wq := Within.of_near nq
  have wk0 := Within.of_near nk
  rw [abs_div] at wk0
  have wk : Within 8 |k| (|P| / |Q|) :=
    (wk0.trans (Within.div wp wq (abs_nonneg P) hQabs)).cast (by norm_num)
  have zPQ : P / Q ≠ 0 := div_ne_zero zP zQ
  have hk : |k - P / Q| ≤ 9 / 2 ^ 53 * |P / Q| := by
    have c1 : ((1 + 1 / 2 ^ 53 : ℚ)) ^ 8 ≤ 1 + 9 / 2 ^ 53 := by norm_num
    have c2 : (1 - 9 / 2 ^ 53 : ℚ) ≤ (1 - 1 / 2 ^ 53) ^ 8 := by norm_num
    have h0 : (0:ℚ) ≤ |P| / |Q| := by positivity
    apply abs_sub_le_of_abs_bounds k (P / Q) _
      (same_sign_of_mul_pos sk (mul_self_pos.mpr zPQ)) zk zPQ
    · rw [abs_div]
      calc (1 - 9 / 2 ^ 53) * (|P| / |Q|) = |P| / |Q| * (1 - 9 / 2 ^ 53) := by ring
        _ ≤ |P| / |Q| * (1 - 1 / 2 ^ 53) ^ 8 := mul_le_mul_of_nonneg_left c2 h0
        _ ≤ |k| := wk.1
    · rw [abs_div]
      calc |k| ≤ |P| / |Q| * (1 + 1 / 2 ^ 53) ^ 8 := wk.2
        _ ≤ |P| / |Q| * (1 + 9 / 2 ^ 53) := mul_le_mul_of_nonneg_left c1 h0
        _ = (1 + 9 / 2 ^ 53) * (|P| / |Q|) := by ring
  clear wk wk0
  -- the sum 1 + k against V = (Q + P) / Q
  obtain ⟨V, hV⟩ : ∃ V, V = (Q + P) / Q := ⟨_, rfl⟩
  have zV : V ≠ 0 := by rw [hV]; exact div_ne_zero zQP zQ
  have hVabs : 0 < |V| := abs_pos.mpr zV
  have eV : |V| * |Q| = |Q + P| := by
    rw [hV, abs_div]; field_simp
  have hPQV : |P / Q| ≤ 2 ^ 10 * |V| := by
    rw [abs_div, div_le_iff₀ hQabs]
    calc |P| ≤ 2 ^ 10 * |Q + P| := hpole
      _ = 2 ^ 10 * |V| * |Q| := by rw [← eV]; ring
  have e1 : (1 + k) - V = k - P / Q := by
    rw [hV]; field_simp; ring
  have h1V : |(1 + k) - V| ≤ 9 / 2 ^ 43 * |V| := by
    rw [e1]
    calc |k - P / Q| ≤ 9 / 2 ^ 53 * |P / Q| := hk
      _ ≤ 9 / 2 ^ 53 * (2 ^ 10 * |V|) := mul_le_mul_of_nonneg_left hPQV (by norm_num)
      _ = 9 / 2 ^ 43 * |V| := by ring
  have b1 : (1 - 9 / 2 ^ 43) * |V| ≤ |1 + k| := by
    have := abs_sub_abs_le_abs_sub V (1 + k)
    rw [abs_sub_comm V (1 + k)] at this
    linarith only [this, h1V]
  have b2 : |1 + k| ≤ (1 + 9 / 2 ^ 43) * |V| := by
    have := abs_sub_abs_le_abs_sub (1 + k) V
    linarith only [this, h1V]
  have s1k : 0 < (1 + k) * V := by
    have e : (1 + k) * V = V * V + ((1 + k) - V) * V := by ring
    have h2 : -(((1 + k) - V) * V) ≤ |((1 + k) - V) * V| := neg_le_abs _
    rw [abs_mul] at h2
    have h3 : |(1 + k) - V| * |V| ≤ 9 / 2 ^ 43 * |V| * |V| :=
      mul_le_mul_of_nonneg_right h1V hVabs.le
    have h4 : V * V = |V| * |V| := (abs_mul_abs_self V).symm
    have h5 : 0 < |V| * |V| := mul_pos hVabs hVabs
    rw [e, h4]
    nlinarith only [h2, h3, h5]
  -- the rounded sum and the gain
  have ss : 0 < s1 * V := ns.sign_mul zs s1k
  have ws := Within.of_near ns
  have hsabs : 0 < |s1| := abs_pos.mpr zs
  have wC := Within.of_near nC
  rw [abs_div, abs_one] at wC
  have wt0 := Within.of_near nt
  rw [abs_mul] at wt0
  have wt : Within 6 |t| (1 / |s1| * |P|) :=
    (wt0.trans (Within.mul wC wp (by positivity) (abs_nonneg P))).cast (by norm_num)
  have wg0 := Within.of_near ng
  rw [abs_div] at wg0
  have wg : Within 12 |g| (1 / |s1| * |P| / |Q|) :=
    (wg0.trans (Within.div wt wq (by positivity) hQabs)).cast (by norm_num)
  have wZ0 := Within.of_near nZ
  rw [abs_mul] at wZ0
  have wZ : Within 14 |Z| (1 / |s1| * |P| / |Q| * |X|) :=
    (wZ0.trans (Within.mul wg (Within.refl |X|) (by positivity) (abs_nonneg X))).cast
      (by norm_num)
  -- sizes
  obtain ⟨B, hB⟩ : ∃ B, B = |P * X / (Q + P)| := ⟨_, rfl⟩
  have hB0 : 0 ≤ B := by rw [hB]; exact abs_nonneg _
  have eBV : B * |V| = |P| * |X| / |Q| := by
    rw [hB, abs_div, abs_mul, ← eV]; field_simp; ring
  have eM : 1 / |s1| * |P| / |Q| * |X| * |s1| = B * |V| := by
    rw [eBV]; field_simp; ring
  have hs_lo : (1 - 9 / 2 ^ 43) * (1 - 1 / 2 ^ 53) ^ 2 * |V| ≤ |s1| := by
    calc (1 - 9 / 2 ^ 43) * (1 - 1 / 2 ^ 53) ^ 2 * |V|
        = ((1 - 9 / 2 ^ 43) * |V|) * (1 - 1 / 2 ^ 53) ^ 2 := by ring
      _ ≤ |1 + k| * (1 - 1 / 2 ^ 53) ^ 2 := mul_le_mul_of_nonneg_right b1 (by norm_num)
      _ ≤ |s1| := ws.1
  have hs_hi : |s1| ≤ (1 + 9 / 2 ^ 43) * (1 + 1 / 2 ^ 53) ^ 2 * |V| := by
    calc |s1| ≤ |1 + k| * (1 + 1 / 2 ^ 53) ^ 2 := ws.2
      _ ≤ ((1 + 9 / 2 ^ 43) * |V|) * (1 + 1 / 2 ^ 53) ^ 2 :=
          mul_le_mul_of_nonneg_right b2 (by norm_num)
      _ = (1 + 9 / 2 ^ 43) * (1 + 1 / 2 ^ 53) ^ 2 * |V| := by ring
  have hZ0 : 0 ≤ |Z| := abs_nonneg Z
  have up : |Z| ≤ (1 + 1 / 2 ^ 39) * B := by
    have h1 : |Z| * |s1| ≤ B * |V| * (1 + 1 / 2 ^ 53) ^ 14 := by
      have := mul_le_mul_of_nonneg_right wZ.2 hsabs.le
      calc |Z| * |s1| ≤ 1 / |s1| * |P| / |Q| * |X| * (1 + 1 / 2 ^ 53) ^ 14 * |s1| := this
        _ = (1 / |s1| * |P| / |Q| * |X| * |s1|) * (1 + 1 / 2 ^ 53) ^ 14 := by ring
        _ = B * |V| * (1 + 1 / 2 ^ 53) ^ 14 := by rw [eM]
    have cn : ((1 + 1 / 2 ^ 53 : ℚ)) ^ 14
        ≤ (1 + 1 / 2 ^ 39) * ((1 - 9 / 2 ^ 43) * (1 - 1 / 2 ^ 53) ^ 2) := by norm_num
    have h2 : |Z| * ((1 - 9 / 2 ^ 43) * (1 - 1 / 2 ^ 53) ^ 2 * |V|)
        ≤ (1 + 1 / 2 ^ 39) * B * ((1 - 9 / 2 ^ 43) * (1 - 1 / 2 ^ 53) ^ 2 * |V|) := by
      calc |Z| * ((1 - 9 / 2 ^ 43) * (1 - 1 / 2 ^ 53) ^ 2 * |V|)
          ≤ |Z| * |s1| := mul_le_mul_of_nonneg_left hs_lo hZ0
        _ ≤ B * |V| * (1 + 1 / 2 ^ 53) ^ 14 := h1
        _ = (B * |V|) * (1 + 1 / 2 ^ 53) ^ 14 := by ring
        _ ≤ (B * |V|) * ((1 + 1 / 2 ^ 39) * ((1 - 9 / 2 ^ 43) * (1 - 1 / 2 ^ 53) ^ 2)) :=
            mul_le_mul_of_nonneg_left cn (mul_nonneg hB0 hVabs.le)
        _ = (1 + 1 / 2 ^ 39) * B * ((1 - 9 / 2 ^ 43) * (1 - 1 / 2 ^ 53) ^ 2 * |V|) := by ring
    exact le_of_mul_le_mul_right h2 (mul_pos (by norm_num) hVabs)
  have low : (1 - 1 / 2 ^ 39) * B ≤ |Z| := by
    have h1 : B * |V| * (1 - 1 / 2 ^ 53) ^ 14 ≤ |Z| * |s1| := by
      have := mul_le_mul_of_nonneg_right wZ.1 hsabs.le
      calc B * |V| * (1 - 1 / 2 ^ 53) ^ 14
          = (1 / |s1| * |P| / |Q| * |X| * |s1|) * (1 - 1 / 2 ^ 53) ^ 14 := by rw [eM]
        _ = 1 / |s1| * |P| / |Q| * |X| * (1 - 1 / 2 ^ 53) ^ 14 * |s1| := by ring
        _ ≤ |Z| * |s1| := this
    have cn : ((1 - 1 / 2 ^ 39 : ℚ)) * ((1 + 9 / 2 ^ 43) * (1 + 1 / 2 ^ 53) ^ 2)
        ≤ (1 - 1 / 2 ^ 53) ^ 14 := by norm_num
    have h2 : (1 - 1 / 2 ^ 39) * B * ((1 + 9 / 2 ^ 43) * (1 + 1 / 2 ^ 53) ^ 2 * |V|)
        ≤ |Z| * ((1 + 9 / 2 ^ 43) * (1 + 1 / 2 ^ 53) ^ 2 * |V|) := by
      calc (1 - 1 / 2 ^ 39) * B * ((1 + 9 / 2 ^ 43) * (1 + 1 / 2 ^ 53) ^ 2 * |V|)
          = (B * |V|) * ((1 - 1 / 2 ^ 39) * ((1 + 9 / 2 ^ 43) * (1 + 1 / 2 ^ 53) ^ 2)) := by
            ring
        _ ≤ (B * |V|) * (1 - 1 / 2 ^ 53) ^ 14 :=
            mul_le_mul_of_nonneg_left cn (mul_nonneg hB0 hVabs.le)
        _ = B * |V| * (1 - 1 / 2 ^ 53) ^ 14 := by ring
        _ ≤ |Z| * |s1| := h1
        _ ≤ |Z| * ((1 + 9 / 2 ^ 43) * (1 + 1 / 2 ^ 53) ^ 2 * |V|) :=
            mul_le_mul_of_nonneg_left hs_hi hZ0
    exact le_of_mul_le_mul_right h2 (mul_pos (by norm_num) hVabs)
  -- signs, against the reference V * P * Q * X
  have sC : 0 < C * V := nC.sign_mul zC (by
    have : 1 / s1 * V = (s1 * V) / (s1 * s1) := by field_simp; ring
    rw [this]; exact div_pos ss (mul_self_pos.mpr zs))
  have st : 0 < t * (V * P) := nt.sign_mul zt (by
    have : C * p * (V * P) = (C * V) * (p * P) := by ring
    rw [this]; exact mul_pos sC sp)
  have sg : 0 < g * (V * P * Q) := ng.sign_mul zg (by
    have : t / q * (V * P * Q) = (t * (V * P)) * (q * Q) / (q * q) := by field_simp; ring
    rw [this]; exact div_pos (mul_pos st sq) (mul_self_pos.mpr zq))
  have sZ : 0 < Z * (V * P * Q * X) := nZ.sign_mul zZ (by
    have : g * X * (V * P * Q * X) = (g * (V * P * Q)) * (X * X) := by ring
    rw [this]; exact mul_pos sg (mul_self_pos.mpr zX))
  have sT : 0 < P * X / (Q + P) * (V * P * Q * X) := by
    have : P * X / (Q + P) * (V * P * Q * X) = (P * P) * (X * X) := by
      rw [hV]; field_simp; ring
    rw [this]; exact mul_pos (mul_self_pos.mpr zP) (mul_self_pos.mpr zX)
  have zT : P * X / (Q + P) ≠ 0 := div_ne_zero (mul_ne_zero zP zX) zQP
  rw [hB] at up low
  exact abs_sub_le_of_abs_bounds Z (P * X / (Q + P)) (1 / 2 ^ 39)
    (same_sign_of_mul_pos sZ sT) zZ zT low up

end Binary64

namespace HarmonicInflowModel
open Binary64

/-- A normal product `g * X` of the harmonic gain, for operands of either sign: when every
intermediate result of the gain is a normal number and the exact gain `A/(L + A)` is at
most `2^10` in size, the product is within a relative `2^-39` of `A * X / (L + A)`. -/
theorem harmonic_product_near_signed (a0 s lmd_0 X : Binary64)
    (hn : ∀ v ∈ harmonicGainSteps a0 s lmd_0, Binary64.isNormal v = true)
    (hpole : |toRat a0 * toRat s| ≤ 2 ^ 10 * |16 * toRat lmd_0 + toRat a0 * toRat s|)
    (hN : isNormal (1 / (1 + a0 * s / (16 * lmd_0)) * (a0 * s) / (16 * lmd_0) * X) = true) :
    |toRat (1 / (1 + a0 * s / (16 * lmd_0)) * (a0 * s) / (16 * lmd_0) * X)
        - toRat a0 * toRat s * toRat X / (16 * toRat lmd_0 + toRat a0 * toRat s)|
      ≤ 1 / 2 ^ 39 * |toRat a0 * toRat s * toRat X / (16 * toRat lmd_0 + toRat a0 * toRat s)| := by
  simp only [harmonicGainSteps, List.forall_mem_cons, List.not_mem_nil, false_imp_iff,
    implies_true, and_true] at hn
  obtain ⟨hp, hq, hk, hs, hC, ht, hg⟩ := hn
  have np := near_mul a0 s hp
  have nq := near_mul 16 lmd_0 hq
  have nk := near_div _ _ hk
  have ns := near_add 1 _ hs
  have nC := near_div 1 _ hC
  have nt := near_mul _ _ ht
  have ng := near_div _ _ hg
  have nZ := near_mul _ X hN
  rw [toRat_sixteen] at nq
  rw [toRat_one] at ns nC
  exact simplified_chain _ _ _ _ _ _ _ _ _ _ _ np nq nk ns nC nt ng nZ
    (isNormal_toRat_ne_zero _ hp) (isNormal_toRat_ne_zero _ hq) (isNormal_toRat_ne_zero _ hk)
    (isNormal_toRat_ne_zero _ hs) (isNormal_toRat_ne_zero _ hC) (isNormal_toRat_ne_zero _ ht)
    (isNormal_toRat_ne_zero _ hg) (isNormal_toRat_ne_zero _ hN) hpole

/-- The margin to the pole `16*lmd_0 + a0*s = 0` for the scenario rotor at
`lmd_0 = ±7205759403792794 * 2^-57` (the doubles `0.05` and `-0.05`). -/
theorem scenario_pole_margin (l : Binary64) (m : ℕ) (n : Bool)
    (hlit : l = Binary64.fin n m (-57))
    (hm : (m : ℚ) = 7205759403792794) :
    |toRat (scenarioModel 0).rotor.blade.a0 * toRat (scenarioModel 0).rotor.solidity|
      ≤ 2 ^ 10 * |16 * toRat l + toRat (scenarioModel 0).rotor.blade.a0
          * toRat (scenarioModel 0).rotor.solidity| := by
  have h2 : (scenarioModel 0).rotor.blade.a0 = Binary64.fin false 6417629469002957 (-50) := by
    decide!
  have h3 : (scenarioModel 0).rotor.solidity = Binary64.fin false 5764607523034235 (-56) := by
    decide!
  rw [h2, h3, hlit]
  simp only [toRat, hm]
  cases n
  · norm_num [abs_of_pos]
  · norm_num [abs_of_pos, abs_of_neg]

end HarmonicInflowModel

/-! ## The numerical claims on `Binary64` -/

namespace HarmonicInflowModel
open Binary64

/-! ### C4: momentum balance at the end of the loop -/

/-- C5 (amended): hover (`mu = 0`, `mu_z = 0`, `C_T = 0.005`, `a0 = 5.7`, `s = 0.08`).  For
every positive starting guess `lmd_0` for which every intermediate result of the loop body
is a normal number, `computeUniformInflow` returns a value `r` that lies toward the hover
inflow `sqrt(C_T/2) = 0.05` (rounding slack `lmd_0 / 2^46`):
from a guess at or above `0.05`, `0.05 ≤ r ≤ 0.05 + 0.62 * (lmd_0 - 0.05)`;
from a guess at or below `0.05`, `0.05 - (1 - 7*lmd_0) * (0.05 - lmd_0) ≤ r ≤ 0.05`;
and `r` is within 1% of `0.05` for every guess in `[0.0495, 0.0508]`.  How much closer
to `0.05` a call that needs a second pass gets is left open. -/
theorem hover_toward_momentum_inflow (lmd_0 : Binary64) (hpos : 0 < toRat lmd_0)
    (hn : ∀ v ∈ (dampedUpdateSteps (0.6 : Binary64) 5.7 0.08 0.005 0 0 lmd_0).tail
        ++ thrustTermSteps (0.005 : Binary64) 0 lmd_0, Binary64.isNormal v = true) :
    ∃ r, (∀ n, computeUniformInflow (scenarioModel 0) (n + 2) lmd_0 0.005 0 0 = some r)
      ∧ (1 / 20 ≤ toRat lmd_0 →
          1 / 20 - toRat lmd_0 / 2 ^ 46 ≤ toRat r
          ∧ toRat r ≤ 1 / 20 + 62 / 100 * (toRat lmd_0 - 1 / 20) + toRat lmd_0 / 2 ^ 46)
      ∧ (toRat lmd_0 ≤ 1 / 20 →
          1 / 20 - (1 - 7 * toRat lmd_0) * (1 / 20 - toRat lmd_0) - toRat lmd_0 / 2 ^ 46
            ≤ toRat r
          ∧ toRat r ≤ 1 / 20 + toRat lmd_0 / 2 ^ 46)
      ∧ (495 / 10000 ≤ toRat lmd_0 → toRat lmd_0 ≤ 508 / 10000 →
          495 / 10000 ≤ toRat r ∧ toRat r ≤ 505 / 10000) := by
  refine ⟨_, fun n => computeUniformInflow_eq (scenarioModel 0) n lmd_0 0.005 0 0, ?_⟩
  have hself : (scenarioModel 0).rotor.blade.a0 = 5.7 ∧ (scenarioModel 0).rotor.solidity = 0.08 :=
    ⟨rfl, rfl⟩
  rw [hself.1, hself.2]
  obtain ⟨w5, n6, -, wt, st, nr⟩ := hover_facts 5.7 0.08 0.005 lmd_0 hpos
    (by rw [toRat_hover_thrust]; norm_num) (by rw [toRat_scenario_quarter_lift]; norm_num) hn
  have herr := hover_error _ _ _ _ _ _ _ hpos
    (by rw [toRat_hover_thrust]; norm_num) (by rw [toRat_scenario_quarter_lift]; norm_num)
    w5 n6 wt st nr
  rw [toRat_hover_thrust, toRat_scenario_quarter_lift] at herr
  clear w5 n6 wt st nr
  generalize toRat (dampedUpdate (0.6 : Binary64) 5.7 0.08 0.005 0 0 lmd_0) = r at herr ⊢
  generalize toRat lmd_0 = l at hpos herr ⊢
  have e46 : l / 2 ^ 46 = l / 2 ^ 47 + l / 2 ^ 47 := by ring
  have e50 : l / 2 ^ 50 ≤ l / 2 ^ 47 := by
    have h1 : l / 2 ^ 50 = l * (1 / 2 ^ 50) := by ring
    have h2 : l / 2 ^ 47 = l * (1 / 2 ^ 47) := by ring
    rw [h1, h2]
    exact mul_le_mul_of_nonneg_left (by norm_num) hpos.le
  obtain ⟨e1, e2⟩ := abs_le.mp herr
  have hA : 1 / 20 ≤ l →
      1 / 20 - l / 2 ^ 46 ≤ r ∧ r ≤ 1 / 20 + 62 / 100 * (l - 1 / 20) + l / 2 ^ 46 := by
    intro h
    obtain ⟨u1, u2⟩ := hover_update_above l h
    constructor
    · linarith only [u1, e1, e46, hpos]
    · linarith only [u2, e2, e46, e50]
  have hB : l ≤ 1 / 20 →
      1 / 20 - (1 - 7 * l) * (1 / 20 - l) - l / 2 ^ 46 ≤ r ∧ r ≤ 1 / 20 + l / 2 ^ 46 := by
    intro h
    obtain ⟨u1, u2⟩ := hover_update_below l hpos h
    constructor
    · linarith only [u1, e1, e46, e50]
    · linarith only [u2, e2, e46, e50]
  refine ⟨hA, hB, ?_⟩
  intro h1 h2
  have hs : l / 2 ^ 46 ≤ 1 / 1000000 := by
    have h3 : l / 2 ^ 46 = l * (1 / 2 ^ 46) := by ring
    rw [h3]
    calc l * (1 / 2 ^ 46) ≤ (508 / 10000) * (1 / 2 ^ 46) :=
          mul_le_mul_of_nonneg_right h2 (by norm_num)
      _ ≤ 1 / 1000000 := by norm_num
  rcases le_total (1 / 20) l with h | h
  · obtain ⟨a1, a2⟩ := hA h
    constructor
    · linarith only [a1, hs]
    · linarith only [a2, hs, h2]
  · obtain ⟨b1, b2⟩ := hB h
    constructor
    · nlinarith only [b1, hs, h1, h]
    · linarith only [b2, hs]

/-- C5 (amended), at the designated starting guess `0.1`: the returned value (the same
for 2 and for 10000 allowed passes) lies in `[0.05 - 2^-46 * 0.1, 0.081 + 2^-46 * 0.1]`. -/
theorem hover_toward_momentum_inflow_witness :
    ∃ r, computeUniformInflow (scenarioModel 0) 2 0.1 0.005 0 0 = some r
      ∧ computeUniformInflow (scenarioModel 0) 10000 0.1 0.005 0 0 = some r
      ∧ 1 / 20 - toRat (0.1 : Binary64) / 2 ^ 46 ≤ toRat r
      ∧ toRat r ≤ 1 / 20 + 62 / 100 * (toRat (0.1 : Binary64) - 1 / 20)
          + toRat (0.1 : Binary64) / 2 ^ 46 := by
  have e : (0.1 : Binary64) = Binary64.fin false 7205759403792794 (-56) := by decide!
  have hp : 0 < toRat (0.1 : Binary64) := by
    rw [e]; exact toRat_fin_pos _ _ (by norm_num)
  obtain ⟨r, hr, hA, -, -⟩ := hover_toward_momentum_inflow 0.1 hp (by decide!)
  have hge : 1 / 20 ≤ toRat (0.1 : Binary64) := by
    rw [e]; simp only [toRat]; norm_num
  obtain ⟨a1, a2⟩ := hA hge
  exact ⟨r, hr 0, hr 9998, a1, a2⟩

/-! ### C6: zero thrust -/

/-- C6 (amended): zero thrust (`C_T = 0`, `mu_z = 0`), any rotor with `a0*s > 0`, any `mu`
and any starting guess for which every intermediate result of the loop body is a normal
number (so `mu` and the guess are non-zero and nothing overflows or underflows).
`computeUniformInflow` returns a value `r` of the same sign as the guess, moved toward
zero: `|r| * (2*|mu| + A) ≤ (1 + 2^-52) * ((0.8 + 2^-48)*|mu| + A) * |lmd_0|` with `A` the
double `a0*s/4.0`; `r` is within `0.001` of zero when that right-hand side is at most
`0.001 * (2*|mu| + A)`.  How far a call that needs a second pass gets beyond this bound is
left open. -/
theorem zero_thrust_toward_zero (self : HarmonicInflowModel Binary64) (lmd_0 mu : Binary64)
    (has : Binary64.gt (self.rotor.blade.a0 * self.rotor.solidity) 0 = true)
    (hn : ∀ v ∈ dampedUpdateSteps 0.6 self.rotor.blade.a0 self.rotor.solidity 0 mu 0 lmd_0,
      Binary64.isNormal v = true) :
    ∃ r, (∀ n, computeUniformInflow self (n + 2) lmd_0 0 mu 0 = some r)
      ∧ 0 < toRat r * toRat lmd_0
      ∧ |toRat r| * (2 * |toRat mu|
            + toRat (self.rotor.blade.a0 * self.rotor.solidity / 4.0))
          ≤ (1 + 1 / 2 ^ 52) * ((8 / 10 + 1 / 2 ^ 48) * |toRat mu|
              + toRat (self.rotor.blade.a0 * self.rotor.solidity / 4.0)) * |toRat lmd_0|
      ∧ ((1 + 1 / 2 ^ 52) * ((8 / 10 + 1 / 2 ^ 48) * |toRat mu|
              + toRat (self.rotor.blade.a0 * self.rotor.solidity / 4.0)) * |toRat lmd_0|
          ≤ 1 / 1000 * (2 * |toRat mu|
              + toRat (self.rotor.blade.a0 * self.rotor.solidity / 4.0))
        → |toRat r| ≤ 1 / 1000) := by
  refine ⟨_, fun n => computeUniformInflow_eq self n lmd_0 0 mu 0, ?_⟩
  obtain ⟨hl0, hTl, hU, hL, hS, hS2, hA, nr⟩ :=
    zero_thrust_facts self.rotor.blade.a0 self.rotor.solidity mu lmd_0 has hn
  have hNr : isNormal (dampedUpdate 0.6 self.rotor.blade.a0 self.rotor.solidity 0 mu 0 lmd_0)
      = true := hn _ (by simp [dampedUpdateSteps, dampedUpdate])
  have hNm : isNormal (DoubleMath.pow_2 mu : Binary64) = true :=
    hn _ (by simp [dampedUpdateSteps])
  have zR := isNormal_toRat_ne_zero _ hNr
  have hadd := dampedUpdate_eq_add (0.6 : Binary64) self.rotor.blade.a0 self.rotor.solidity 0
    mu 0 lmd_0
  have hM : |toRat mu| ^ 2 ≤ toRat (DoubleMath.pow_2 mu) * (1 + 1 / 2 ^ 53) := by
    have hnn : 0 ≤ toRat (DoubleMath.pow_2 mu : Binary64) := toRat_pow_2_nonneg mu
    have h1 := (near_pow_2 mu hNm).abs_bounds.2
    rw [abs_pow, abs_of_nonneg hnn] at h1
    exact h1
  have hlow := zero_thrust_step_general _ _ _ _ _ _ (abs_nonneg (toRat lmd_0)) hS
    (abs_nonneg _) (abs_nonneg (toRat mu)) hA hM hS2 hL
  have hT : |toRat (updateIncrement 0.6 self.rotor.blade.a0 self.rotor.solidity 0 mu 0 lmd_0)|
      ≤ |toRat lmd_0| := by
    have hnum : (5404319552844595 / 2 ^ 53 : ℚ) * (1 + 1 / 2 ^ 53) ^ 4 * (1 + 1 / 2 ^ 64)
        ≤ 1 * ((1 - 1 / 2 ^ 53) ^ 7 * (1 - 1 / 2 ^ 64)) := by norm_num
    have h1 : |toRat (updateIncrement 0.6 self.rotor.blade.a0 self.rotor.solidity 0 mu 0 lmd_0)|
        * ((1 - 1 / 2 ^ 53) ^ 7 * (1 - 1 / 2 ^ 64))
        ≤ |toRat lmd_0| * ((1 - 1 / 2 ^ 53) ^ 7 * (1 - 1 / 2 ^ 64)) := by
      calc |toRat (updateIncrement 0.6 self.rotor.blade.a0 self.rotor.solidity 0 mu 0 lmd_0)|
            * ((1 - 1 / 2 ^ 53) ^ 7 * (1 - 1 / 2 ^ 64))
          = |toRat (updateIncrement 0.6 self.rotor.blade.a0 self.rotor.solidity 0 mu 0 lmd_0)|
            * (1 - 1 / 2 ^ 53) ^ 7 * (1 - 1 / 2 ^ 64) := by ring
        _ ≤ 5404319552844595 / 2 ^ 53 * |toRat lmd_0| * (1 + 1 / 2 ^ 53) ^ 4
            * (1 + 1 / 2 ^ 64) := hU
        _ = |toRat lmd_0| * (5404319552844595 / 2 ^ 53 * (1 + 1 / 2 ^ 53) ^ 4
            * (1 + 1 / 2 ^ 64)) := by ring
        _ ≤ |toRat lmd_0| * (1 * ((1 - 1 / 2 ^ 53) ^ 7 * (1 - 1 / 2 ^ 64))) :=
            mul_le_mul_of_nonneg_left hnum (abs_nonneg _)
        _ = |toRat lmd_0| * ((1 - 1 / 2 ^ 53) ^ 7 * (1 - 1 / 2 ^ 64)) := by ring
    exact le_of_mul_le_mul_right h1 (by norm_num)
  rw [hadd] at nr zR ⊢
  generalize updateIncrement 0.6 self.rotor.blade.a0 self.rotor.solidity 0 mu 0 lmd_0 = t
    at hTl hT nr zR hlow ⊢
  generalize toRat (self.rotor.blade.a0 * self.rotor.solidity / 4.0) = A at hA hlow ⊢
  have hlabs : 0 < |toRat lmd_0| := abs_pos.mpr hl0
  have hm0 : 0 ≤ |toRat mu| := abs_nonneg _
  have habs := abs_add_opposite _ _ hTl hT
  have hb := nr.abs_bounds.1
  rw [habs] at hb
  have hR : |toRat (lmd_0 + t)| * (2 * |toRat mu| + A)
      ≤ (1 + 1 / 2 ^ 52) * ((8 / 10 + 1 / 2 ^ 48) * |toRat mu| + A) * |toRat lmd_0| := by
    have hD : 0 < 2 * |toRat mu| + A := by linarith
    have h1 : |toRat (lmd_0 + t)| * (1 - 1 / 2 ^ 53) * (2 * |toRat mu| + A)
        ≤ ((8 / 10 + 1 / 2 ^ 48) * |toRat mu| + A) * |toRat lmd_0| := by
      calc |toRat (lmd_0 + t)| * (1 - 1 / 2 ^ 53) * (2 * |toRat mu| + A)
          ≤ (|toRat lmd_0| - |toRat t|) * (2 * |toRat mu| + A) :=
            mul_le_mul_of_nonneg_right hb hD.le
        _ = |toRat lmd_0| * (2 * |toRat mu| + A) - |toRat t| * (2 * |toRat mu| + A) := by ring
        _ ≤ |toRat lmd_0| * (2 * |toRat mu| + A)
            - (12 / 10 - 1 / 2 ^ 48) * |toRat mu| * |toRat lmd_0| := by linarith
        _ = ((8 / 10 + 1 / 2 ^ 48) * |toRat mu| + A) * |toRat lmd_0| := by ring
    have hX : 0 ≤ ((8 / 10 + 1 / 2 ^ 48) * |toRat mu| + A) * |toRat lmd_0| := by positivity
    have h2 : (1:ℚ) ≤ (1 + 1 / 2 ^ 52) * (1 - 1 / 2 ^ 53) := by norm_num
    have h3 : |toRat (lmd_0 + t)| * (2 * |toRat mu| + A) * (1 - 1 / 2 ^ 53)
        ≤ (1 + 1 / 2 ^ 52) * ((8 / 10 + 1 / 2 ^ 48) * |toRat mu| + A) * |toRat lmd_0|
          * (1 - 1 / 2 ^ 53) := by
      calc |toRat (lmd_0 + t)| * (2 * |toRat mu| + A) * (1 - 1 / 2 ^ 53)
          = |toRat (lmd_0 + t)| * (1 - 1 / 2 ^ 53) * (2 * |toRat mu| + A) := by ring
        _ ≤ ((8 / 10 + 1 / 2 ^ 48) * |toRat mu| + A) * |toRat lmd_0| := h1
        _ = 1 * (((8 / 10 + 1 / 2 ^ 48) * |toRat mu| + A) * |toRat lmd_0|) := (one_mul _).symm
        _ ≤ ((1 + 1 / 2 ^ 52) * (1 - 1 / 2 ^ 53))
            * (((8 / 10 + 1 / 2 ^ 48) * |toRat mu| + A) * |toRat lmd_0|) :=
            mul_le_mul_of_nonneg_right h2 hX
        _ = (1 + 1 / 2 ^ 52) * ((8 / 10 + 1 / 2 ^ 48) * |toRat mu| + A) * |toRat lmd_0|
            * (1 - 1 / 2 ^ 53) := by ring
    exact le_of_mul_le_mul_right h3 (by norm_num)
  refine ⟨?_, hR, fun hsmall => ?_⟩
  · apply nr.sign_mul zR
    have hgap : 0 < |toRat lmd_0| - |toRat t| :=
      lt_of_lt_of_le (mul_pos (abs_pos.mpr zR) (by norm_num)) hb
    rcases lt_trichotomy (toRat lmd_0) 0 with hl | hl | hl
    · have hTt : 0 < toRat t := by
        by_contra hc
        have : 0 ≤ toRat t * toRat lmd_0 := mul_nonneg_of_nonpos_of_nonpos (not_lt.mp hc) hl.le
        linarith
      rw [abs_of_pos hTt, abs_of_neg hl] at hgap
      have : toRat lmd_0 + toRat t < 0 := by linarith
      exact mul_pos_of_neg_of_neg this hl
    · exact absurd hl hl0
    · have hTt : toRat t < 0 := by
        by_contra hc
        have : 0 ≤ toRat t * toRat lmd_0 := mul_nonneg (not_lt.mp hc) hl.le
        linarith
      rw [abs_of_neg hTt, abs_of_pos hl] at hgap
      have : 0 < toRat lmd_0 + toRat t := by linarith
      exact mul_pos this hl
  · have hD : 0 < 2 * |toRat mu| + A := by linarith
    have h4 : |toRat (lmd_0 + t)| * (2 * |toRat mu| + A) ≤ 1 / 1000 * (2 * |toRat mu| + A) :=
      hR.trans hsmall
    exact le_of_mul_le_mul_right h4 hD

/-- C6 (amended), at the designated input: scenario rotor, `mu = 0.2`, starting guess
`1.0`.  The returned value (the same for 2 and for 10000 allowed passes) is positive and
at most `0.5331 * 1.0`. -/
theorem zero_thrust_toward_zero_witness :
    ∃ r, computeUniformInflow (scenarioModel 0) 2 1.0 0 0.2 0 = some r
      ∧ computeUniformInflow (scenarioModel 0) 10000 1.0 0 0.2 0 = some r
      ∧ 0 < toRat r * toRat (1.0 : Binary64)
      ∧ |toRat r| ≤ 5331 / 10000 * |toRat (1.0 : Binary64)| := by
  obtain ⟨r, hr, h1, h2, -⟩ := zero_thrust_toward_zero (scenarioModel 0) 1.0 0.2
    (by decide!) (by decide!)
  refine ⟨r, hr 0, hr 9998, h1, ?_⟩
  have e1 : toRat ((scenarioModel 0).rotor.blade.a0 * (scenarioModel 0).rotor.solidity / 4.0)
      = 8214565720323785 / 2 ^ 56 := by
    have : (scenarioModel 0).rotor.blade.a0 * (scenarioModel 0).rotor.solidity / 4.0
        = Binary64.fin false 8214565720323785 (-56) := by decide!
    rw [this]; simp only [toRat]; norm_num
  have e2 : |toRat (0.2 : Binary64)| = 7205759403792794 / 2 ^ 55 := by
    have : (0.2 : Binary64) = Binary64.fin false 7205759403792794 (-55) := by decide!
    rw [this, abs_toRat_fin]; norm_num
  rw [e1, e2] at h2
  have hpos : (0:ℚ) < 2 * (7205759403792794 / 2 ^ 55) + 8214565720323785 / 2 ^ 56 := by
    norm_num
  apply le_of_mul_le_mul_right _ hpos
  refine h2.trans ?_
  have h0 : (0:ℚ) ≤ |toRat (1.0 : Binary64)| := abs_nonneg _
  have hnum : ((1 + 1 / 2 ^ 52) * ((8 / 10 + 1 / 2 ^ 48) * (7205759403792794 / 2 ^ 55)
      + 8214565720323785 / 2 ^ 56) : ℚ)
      ≤ 5331 / 10000 * (2 * (7205759403792794 / 2 ^ 55) + 8214565720323785 / 2 ^ 56) := by
    norm_num
  calc (1 + 1 / 2 ^ 52) * ((8 / 10 + 1 / 2 ^ 48) * (7205759403792794 / 2 ^ 55)
        + 8214565720323785 / 2 ^ 56) * |toRat (1.0 : Binary64)|
      ≤ (5331 / 10000 * (2 * (7205759403792794 / 2 ^ 55) + 8214565720323785 / 2 ^ 56))
        * |toRat (1.0 : Binary64)| := mul_le_mul_of_nonneg_right hnum h0
    _ = 5331 / 10000 * |toRat (1.0 : Binary64)|
        * (2 * (7205759403792794 / 2 ^ 55) + 8214565720323785 / 2 ^ 56) := by ring

/-! ### C8: the closed form of the harmonics -/

/-- C8, refuted: harmonics scenario (`a0 = 5.7`, `s = 0.08`, `th_1c = 0.02`, `th_1s = 0.03`,
`beta_1c = 0.01`, `beta_1s = 0.04`, `qBar = 0.002`, `pBar = 0.001`).  At `lmd_0 = 0.02` the
code returns `[-6097409606838275 * 2^-59, 6944272052232480 * 2^-58]`, the expression of
the claim `[-6097409606838274 * 2^-59, 6944272052232478 * 2^-58]`.  At `lmd_0 = 5e-324`
the code returns `[-0.0, 0.0]`, the expression of the claim `[NaN, NaN]`. -/
theorem computeHarmonicsInflow_closed_form_counterexample :
    computeHarmonicsInflow (scenarioModel 0) trigAtZero ⟨0.1, 0.02, 0.03⟩ ⟨0.05, 0.01, 0.04⟩
        (constBody 0.2 0 0 0.001 0.002) 30 0.02
      = [Binary64.fin true 6097409606838275 (-59), Binary64.fin false 6944272052232480 (-58)]
    ∧ specHarmonicsInflow (5.7 : Binary64) 0.08 0.02 0.02 0.03 0.01 0.04 0.002 0.001
      = [Binary64.fin true 6097409606838274 (-59), Binary64.fin false 6944272052232478 (-58)]
    ∧ computeHarmonicsInflow (scenarioModel 0) trigAtZero ⟨0.1, 0.02, 0.03⟩ ⟨0.05, 0.01, 0.04⟩
        (constBody 0.2 0 0 0.001 0.002) 30 5e-324
      = [Binary64.fin true 0 0, Binary64.fin false 0 0]
    ∧ specHarmonicsInflow (5.7 : Binary64) 0.08 5e-324 0.02 0.03 0.01 0.04 0.002 0.001
      = [Binary64.nan, Binary64.nan] := by
  decide!

/-- C8 (amended): for every rotor and every input, `computeHarmonicsInflow` returns the
two-element list `[lmd_1c, lmd_1s]`, in that order, where with
`C' = 1/(1 + a0*s/(16*lmd_0))` the components are the doubles
`lmd_1c = C' * (a0*s) / (16*lmd_0) * (th_1c - beta_1s + qBar)` and
`lmd_1s = C' * (a0*s) / (16*lmd_0) * (th_1s + beta_1c + pBar)`, every operation rounded, in
this grouping (`qBar` is the `Y` and `pBar` the `X` component of `omBar_H(Omega)`).  The
grouping `C' * (a0*s/16/lmd_0) * (...)` gives a double that need not be the same; when the
intermediate results of both groupings are normal numbers, each returned component is
within a relative `2^-49` of that double. -/
theorem computeHarmonicsInflow_closed_form (self : HarmonicInflowModel Binary64)
    (libm : Trig Binary64) (pitchState : PitchState Binary64)
    (flappingState : FlappingState Binary64) (bodyState : BodyState Binary64)
    (Omega lmd_0 : Binary64) :
    ∃ C' p X1 X2 : Binary64,
      p = self.rotor.blade.a0 * self.rotor.solidity
      ∧ C' = 1 / (1 + p / (16 * lmd_0))
      ∧ X1 = pitchState._1c - flappingState._1s + (bodyState.omBar_H Omega).Y
      ∧ X2 = pitchState._1s + flappingState._1c + (bodyState.omBar_H Omega).X
      ∧ computeHarmonicsInflow self libm pitchState flappingState bodyState Omega lmd_0
          = [C' * p / (16 * lmd_0) * X1, C' * p / (16 * lmd_0) * X2]
      ∧ ((∀ v ∈ [C' * p, 16 * lmd_0, C' * p / (16 * lmd_0), C' * p / (16 * lmd_0) * X1,
            p / 16, p / 16 / lmd_0, C' * (p / 16 / lmd_0), C' * (p / 16 / lmd_0) * X1],
            isNormal v = true) →
          |toRat (C' * p / (16 * lmd_0) * X1) - toRat (C' * (p / 16 / lmd_0) * X1)|
            ≤ 1 / 2 ^ 49 * |toRat (C' * (p / 16 / lmd_0) * X1)|)
      ∧ ((∀ v ∈ [C' * p, 16 * lmd_0, C' * p / (16 * lmd_0), C' * p / (16 * lmd_0) * X2,
            p / 16, p / 16 / lmd_0, C' * (p / 16 / lmd_0), C' * (p / 16 / lmd_0) * X2],
            isNormal v = true) →
          |toRat (C' * p / (16 * lmd_0) * X2) - toRat (C' * (p / 16 / lmd_0) * X2)|
            ≤ 1 / 2 ^ 49 * |toRat (C' * (p / 16 / lmd_0) * X2)|) := by
  refine ⟨_, _, _, _, rfl, rfl, rfl, rfl, rfl, ?_, ?_⟩
  · intro h
    simp only [List.forall_mem_cons, List.not_mem_nil, false_imp_iff, implies_true, and_true]
      at h
    obtain ⟨h1, h2, h3, h4, h5, h6, h7, h8⟩ := h
    apply grouping_near
    · simp only [List.forall_mem_cons, List.not_mem_nil, false_imp_iff, implies_true,
        and_true]
      exact ⟨h1, h2, h3, h4⟩
    · simp only [List.forall_mem_cons, List.not_mem_nil, false_imp_iff, implies_true,
        and_true]
      exact ⟨h5, h6, h7, h8⟩
  · intro h
    simp only [List.forall_mem_cons, List.not_mem_nil, false_imp_iff, implies_true, and_true]
      at h
    obtain ⟨h1, h2, h3, h4, h5, h6, h7, h8⟩ := h
    apply grouping_near
    · simp only [List.forall_mem_cons, List.not_mem_nil, false_imp_iff, implies_true,
        and_true]
      exact ⟨h1, h2, h3, h4⟩
    · simp only [List.forall_mem_cons, List.not_mem_nil, false_imp_iff, implies_true,
        and_true]
      exact ⟨h5, h6, h7, h8⟩

/-- C8 (amended), at the harmonics scenario with `lmd_0 = 0.02`: the code returns
`[-6097409606838275 * 2^-59, 6944272052232480 * 2^-58]`, each within `2^-49` of the
double given by the other grouping. -/
theorem computeHarmonicsInflow_closed_form_witness :
    computeHarmonicsInflow (scenarioModel 0) trigAtZero ⟨0.1, 0.02, 0.03⟩ ⟨0.05, 0.01, 0.04⟩
        (constBody 0.2 0 0 0.001 0.002) 30 0.02
      = [Binary64.fin true 6097409606838275 (-59), Binary64.fin false 6944272052232480 (-58)]
    ∧ |toRat (Binary64.fin true 6097409606838275 (-59))
        - toRat (Binary64.fin true 6097409606838274 (-59))|
      ≤ 1 / 2 ^ 49 * |toRat (Binary64.fin true 6097409606838274 (-59))|
    ∧ |toRat (Binary64.fin false 6944272052232480 (-58))
        - toRat (Binary64.fin false 6944272052232478 (-58))|
      ≤ 1 / 2 ^ 49 * |toRat (Binary64.fin false 6944272052232478 (-58))| := by
  obtain ⟨C', p, X1, X2, hp, hC, hX1, hX2, hcode, h1, h2⟩ :=
    computeHarmonicsInflow_closed_form (scenarioModel 0) trigAtZero ⟨0.1, 0.02, 0.03⟩
      ⟨0.05, 0.01, 0.04⟩ (constBody 0.2 0 0 0.001 0.002) 30 0.02
  subst hp hC hX1 hX2
  have e1 : (1 / (1 + (scenarioModel 0).rotor.blade.a0 * (scenarioModel 0).rotor.solidity
        / (16 * 0.02)) * ((scenarioModel 0).rotor.blade.a0 * (scenarioModel 0).rotor.solidity)
        / (16 * 0.02)
        * ((⟨0.1, 0.02, 0.03⟩ : PitchState Binary64)._1c
          - (⟨0.05, 0.01, 0.04⟩ : FlappingState Binary64)._1s
          + ((constBody 0.2 0 0 0.001 0.002).omBar_H 30).Y) : Binary64)
      = Binary64.fin true 6097409606838275 (-59) := by decide!
  have e2 : (1 / (1 + (scenarioModel 0).rotor.blade.a0 * (scenarioModel 0).rotor.solidity
        / (16 * 0.02)) * ((scenarioModel 0).rotor.blade.a0 * (scenarioModel 0).rotor.solidity
        / 16 / 0.02)
        * ((⟨0.1, 0.02, 0.03⟩ : PitchState Binary64)._1c
          - (⟨0.05, 0.01, 0.04⟩ : FlappingState Binary64)._1s
          + ((constBody 0.2 0 0 0.001 0.002).omBar_H 30).Y) : Binary64)
      = Binary64.fin true 6097409606838274 (-59) := by decide!
  have e3 : (1 / (1 + (scenarioModel 0).rotor.blade.a0 * (scenarioModel 0).rotor.solidity
        / (16 * 0.02)) * ((scenarioModel 0).rotor.blade.a0 * (scenarioModel 0).rotor.solidity)
        / (16 * 0.02)
        * ((⟨0.1, 0.02, 0.03⟩ : PitchState Binary64)._1s
          + (⟨0.05, 0.01, 0.04⟩ : FlappingState Binary64)._1c
          + ((constBody 0.2 0 0 0.001 0.002).omBar_H 30).X) : Binary64)
      = Binary64.fin false 6944272052232480 (-58) := by decide!
  have e4 : (1 / (1 + (scenarioModel 0).rotor.blade.a0 * (scenarioModel 0).rotor.solidity
        / (16 * 0.02)) * ((scenarioModel 0).rotor.blade.a0 * (scenarioModel 0).rotor.solidity
        / 16 / 0.02)
        * ((⟨0.1, 0.02, 0.03⟩ : PitchState Binary64)._1s
          + (⟨0.05, 0.01, 0.04⟩ : FlappingState Binary64)._1c
          + ((constBody 0.2 0 0 0.001 0.002).omBar_H 30).X) : Binary64)
      = Binary64.fin false 6944272052232478 (-58) := by decide!
  have g1 := h1 (by decide!)
  have g2 := h2 (by decide!)
  rw [e1, e2] at g1
  rw [e3, e4] at g2
  rw [e1, e3] at hcode
  exact ⟨hcode, g1, g2⟩

/-! ### C14: fixed point of the update -/

/-- C14, refuted: scenario rotor, `lmd_0 = 0`, `C_T = 0`, `mu = 1e-200`, `mu_z = 0`.  As real
numbers the guess satisfies the balance (`2*0*S = 0` for every `S`) and the denominator
`2*Lambda^1.5 + (a0*s/4)*Lambda - C_T*(mu_z - lmd_0)` is non-zero, yet the code returns
NaN: `Lambda = mu^2` underflows to zero. -/
theorem computeUniformInflow_fixed_point_counterexample :
    toRat (0 : Binary64) = 0
    ∧ 0 < toRat (1e-200 : Binary64)
    ∧ (∀ S : ℝ, 2 * ((toRat (0 : Binary64) : ℚ) : ℝ) * S = ((toRat (0 : Binary64) : ℚ) : ℝ))
    ∧ (2 * ((((toRat (1e-200 : Binary64)) ^ 2 + (toRat (0 : Binary64) - toRat (0 : Binary64)) ^ 2
            : ℚ) : ℝ)) ^ (1.5 : ℝ)
        + ((toRat (5.7 : Binary64) * toRat (0.08 : Binary64) / 4 : ℚ) : ℝ)
          * (((toRat (1e-200 : Binary64)) ^ 2
              + (toRat (0 : Binary64) - toRat (0 : Binary64)) ^ 2 : ℚ) : ℝ)
        - ((toRat (0 : Binary64) : ℚ) : ℝ)
          * (((toRat (0 : Binary64) - toRat (0 : Binary64) : ℚ)) : ℝ) ≠ 0)
    ∧ computeUniformInflow (scenarioModel 0) 2 0 0 1e-200 0 = some Binary64.nan
    ∧ computeUniformInflow (scenarioModel 0) 10000 0 0 1e-200 0 = some Binary64.nan := by
  have hmu : (1e-200 : Binary64) = Binary64.fin false 6894565328877484 (-717) := by decide!
  have hmupos : 0 < toRat (1e-200 : Binary64) := by
    rw [hmu]; exact toRat_fin_pos _ _ (by norm_num)
  have h2 : (5.7 : Binary64) = Binary64.fin false 6417629469002957 (-50) := by decide!
  have h3 : (0.08 : Binary64) = Binary64.fin false 5764607523034235 (-56) := by decide!
  have hapos : 0 < toRat (5.7 : Binary64) * toRat (0.08 : Binary64) / 4 := by
    have ha := toRat_fin_pos 6417629469002957 (-50) (by norm_num)
    have hs := toRat_fin_pos 5764607523034235 (-56) (by norm_num)
    rw [h2, h3]
    exact div_pos (mul_pos ha hs) (by norm_num)
  refine ⟨toRat_zero, hmupos, ?_, ?_, by decide!, by decide!⟩
  · intro S
    rw [toRat_zero, Rat.cast_zero, mul_zero, zero_mul]
  · rw [toRat_zero]
    generalize toRat (1e-200 : Binary64) = m at hmupos ⊢
    generalize toRat (5.7 : Binary64) * toRat (0.08 : Binary64) / 4 = a at hapos ⊢
    have hL : (0:ℝ) < ((m ^ 2 + ((0:ℚ) - 0) ^ 2 : ℚ) : ℝ) := by
      have : (0:ℚ) < m ^ 2 + ((0:ℚ) - 0) ^ 2 := by positivity
      exact_mod_cast this
    have hA : (0:ℝ) < ((a : ℚ) : ℝ) := by exact_mod_cast hapos
    have hP : (0:ℝ) < ((m ^ 2 + ((0:ℚ) - 0) ^ 2 : ℚ) : ℝ) ^ (1.5 : ℝ) :=
      Real.rpow_pos_of_pos hL _
    have hAL := mul_pos hA hL
    rw [Rat.cast_zero, zero_mul, sub_zero]
    exact (add_pos (mul_pos (by norm_num) hP) hAL).ne'

/-- C14 (amended): let the starting guess be a finite double (`isCanonical`: a zero, a
normal or a subnormal number in IEEE form), let `C_T` be finite, let the balance hold as the doubles evaluate it,
`2*lmd_0*sqrt(Lambda) == C_T`, and let the computed denominator
`2*Lambda^1.5 + a0*s/4*Lambda - C_T*(mu_z - lmd_0)` be neither a zero nor NaN.  Then
`computeUniformInflow` returns a value equal to `lmd_0` (`==`), and `lmd_0` itself, bit for
bit, when `lmd_0` is not a zero. -/
theorem computeUniformInflow_fixed_point (self : HarmonicInflowModel Binary64)
    (lmd_0 C_T mu mu_z : Binary64)
    (hcanon : Binary64.isCanonical lmd_0 = true)
    (hCT : Binary64.isInf C_T = false)
    (hbalance : Binary64.eq
      (2*lmd_0*DoubleMath.sqrt (DoubleMath.pow_2 mu + DoubleMath.pow_2 (lmd_0 - mu_z))) C_T
        = true)
    (hden0 : Binary64.isZero
      (2*DoubleMath.pow_1_5 (DoubleMath.pow_2 mu + DoubleMath.pow_2 (lmd_0 - mu_z))
        + self.rotor.blade.a0*self.rotor.solidity/4.0
          * (DoubleMath.pow_2 mu + DoubleMath.pow_2 (lmd_0 - mu_z))
        - C_T*(mu_z - lmd_0)) = false)
    (hdenn : Binary64.isnan
      (2*DoubleMath.pow_1_5 (DoubleMath.pow_2 mu + DoubleMath.pow_2 (lmd_0 - mu_z))
        + self.rotor.blade.a0*self.rotor.solidity/4.0
          * (DoubleMath.pow_2 mu + DoubleMath.pow_2 (lmd_0 - mu_z))
        - C_T*(mu_z - lmd_0)) = false) :
    ∃ r, (∀ n, computeUniformInflow self (n + 2) lmd_0 C_T mu mu_z = some r)
      ∧ Binary64.eq r lmd_0 = true
      ∧ (Binary64.isZero lmd_0 = false → r = lmd_0) := by
  refine ⟨_, fun n => computeUniformInflow_eq self n lmd_0 C_T mu mu_z, ?_⟩
  simp only [dampedUpdate]
  generalize hL : (DoubleMath.pow_2 mu + DoubleMath.pow_2 (lmd_0 - mu_z) : Binary64) = Lam
    at hbalance hden0 hdenn ⊢
  generalize (2*DoubleMath.pow_1_5 Lam + self.rotor.blade.a0*self.rotor.solidity/4.0 * Lam
        - C_T*(mu_z - lmd_0) : Binary64) = den at hden0 hdenn ⊢
  obtain ⟨hD0, nA, mA, eA, hA⟩ := sub_zero_of_eq_finite _ _ hbalance hCT
  obtain ⟨⟨n2, m2, e2, h2l⟩, ⟨nS, mS, eS, hS⟩⟩ := mul_fin_factors _ _ _ _ _ hA
  obtain ⟨-, ⟨nl, ml, el, hl⟩⟩ := mul_fin_factors _ _ _ _ _ h2l
  obtain ⟨nL, mL, eL, hLam⟩ := sqrt_fin_arg _ _ _ _ hS
  have hN : isZero ((2*lmd_0*DoubleMath.sqrt Lam - C_T) * Lam) = true := by
    rw [hLam] at hD0 ⊢
    exact mul_zero_fin _ _ _ _ hD0
  have hh : isZero (-((2*lmd_0*DoubleMath.sqrt Lam - C_T) * Lam) / den) = true :=
    div_zero_num _ _ (neg_isZero _ hN) hden0 hdenn
  have ht : isZero ((0.6 : Binary64) * (-((2*lmd_0*DoubleMath.sqrt Lam - C_T) * Lam) / den))
      = true := by
    rw [lit_relax]
    exact mul_fin_zero _ _ _ _ hh
  generalize (0.6 : Binary64) * (-((2*lmd_0*DoubleMath.sqrt Lam - C_T) * Lam) / den) = t at ht ⊢
  subst hl
  by_cases hm : ml = 0
  · subst hm
    constructor
    · cases t with
      | nan => simp [isZero] at ht
      | inf s => simp [isZero] at ht
      | fin s m0 e0 =>
        have hm0 : m0 = 0 := by simpa [isZero] using ht
        subst hm0
        show eq (add (fin nl 0 el) (fin s 0 e0)) (fin nl 0 el) = true
        simp only [add, signedInt_zero, add_zero, if_true]
        exact eq_zero_zero _ _ _ _
    · intro h
      simp [isZero] at h
  · have hc : (2 ^ 52 ≤ ml ∧ ml < 2 ^ 53 ∧ -1074 ≤ el ∧ el ≤ 971) ∨ (ml < 2 ^ 52 ∧ el = -1074) := by
      simp only [isCanonical, decide_eq_true_eq] at hcanon
      rcases hcanon with h | h | h
      · exact absurd h hm
      · exact Or.inl h
      · exact Or.inr h
    have hr : fin nl ml el + t = fin nl ml el :=
      add_zero_exact nl ml el t ht (Nat.pos_of_ne_zero hm) hc
    rw [hr]
    exact ⟨eq_self_fin _ _ _, fun _ => rfl⟩

/-- C14 (amended), at `lmd_0 = 0.5`, `C_T = 0.5`, `mu = mu_z = 0` with the scenario rotor:
the balance `2*0.5*sqrt(0.25) == 0.5` holds in doubles, the denominator is `0.5285`, and
the guess is returned unchanged. -/
theorem computeUniformInflow_fixed_point_witness :
    computeUniformInflow (scenarioModel 0) 2 0.5 0.5 0 0 = some 0.5
    ∧ computeUniformInflow (scenarioModel 0) 10000 0.5 0.5 0 0 = some 0.5 := by
  obtain ⟨r, hr, -, h2⟩ := computeUniformInflow_fixed_point (scenarioModel 0) 0.5 0.5 0 0
    (by decide!) (by decide!) (by decide!) (by decide!) (by decide!)
  have h := h2 (by decide!)
  rw [h] at hr
  exact ⟨hr 0, hr 9998⟩

/-! ### C15: one call at zero thrust -/

/-- C16, refuted: harmonics scenario.  At `lmd_0 = 5e-324` (non-zero, `16*lmd_0 + a0*s`
non-zero) the code returns `[-0.0, 0.0]`, the simplified form
`[-0.018000000000000002, 0.041]`.  At `lmd_0 = -0.0285` (non-zero, `16*lmd_0 + a0*s`
non-zero as a number) the code returns `[+inf, -inf]`. -/
theorem computeHarmonicsInflow_simplified_counterexample :
    Binary64.isZero (5e-324 : Binary64) = false
    ∧ Binary64.isZero ((16 : Binary64) * 5e-324 + 5.7 * 0.08) = false
    ∧ computeHarmonicsInflow (scenarioModel 0) trigAtZero ⟨0.1, 0.02, 0.03⟩ ⟨0.05, 0.01, 0.04⟩
        (constBody 0.2 0 0 0.001 0.002) 30 5e-324
      = [Binary64.fin true 0 0, Binary64.fin false 0 0]
    ∧ specSimplifiedHarmonics (5.7 : Binary64) 0.08 5e-324 0.02 0.03 0.01 0.04 0.002 0.001
      = [Binary64.fin true 5188146770730812 (-58), Binary64.fin false 5908722711110091 (-57)]
    ∧ Binary64.isZero (-0.0285 : Binary64) = false
    ∧ toRat (16 : Binary64) * toRat (-0.0285 : Binary64)
        + toRat (5.7 : Binary64) * toRat (0.08 : Binary64) ≠ 0
    ∧ computeHarmonicsInflow (scenarioModel 0) trigAtZero ⟨0.1, 0.02, 0.03⟩ ⟨0.05, 0.01, 0.04⟩
        (constBody 0.2 0 0 0.001 0.002) 30 (-0.0285)
      = [Binary64.inf false, Binary64.inf true] := by
  refine ⟨by decide!, by decide!, by decide!, by decide!, by decide!, ?_, by decide!⟩
  have h1 : (-0.0285 : Binary64) = Binary64.fin true 8214565720323785 (-58) := by decide!
  have h2 : (5.7 : Binary64) = Binary64.fin false 6417629469002957 (-50) := by decide!
  have h3 : (0.08 : Binary64) = Binary64.fin false 5764607523034235 (-56) := by decide!
  rw [toRat_sixteen, h1, h2, h3]
  simp only [toRat]
  norm_num

/-- C16 (amended): for every `lmd_0` and rotor, of either sign, for which the intermediate
results of the gain are normal numbers (so `lmd_0` and `a0*s` are non-zero and nothing
overflows, underflows or cancels to zero) and `16*lmd_0 + a0*s` is not smaller than
`2^-10 * |a0*s|` in size, each returned harmonic component that is a normal number is
within a relative `2^-39` of the simplified form `a0*s*X/(16*lmd_0 + a0*s)` evaluated
without rounding on the same inputs (`X = th_1c - beta_1s + qBar` and
`X = th_1s + beta_1c + pBar`, as computed); within a relative `2^-49` when `lmd_0` and
`a0*s` are positive. -/
theorem computeHarmonicsInflow_simplified (self : HarmonicInflowModel Binary64)
    (libm : Trig Binary64) (pitchState : PitchState Binary64)
    (flappingState : FlappingState Binary64) (bodyState : BodyState Binary64)
    (Omega lmd_0 : Binary64)
    (hn : ∀ v ∈ harmonicGainSteps self.rotor.blade.a0 self.rotor.solidity lmd_0,
      Binary64.isNormal v = true)
    (hpole : |toRat self.rotor.blade.a0 * toRat self.rotor.solidity|
      ≤ 2 ^ 10 * |16 * toRat lmd_0 + toRat self.rotor.blade.a0 * toRat self.rotor.solidity|) :
    ∃ c s X1 X2 : Binary64,
      X1 = pitchState._1c - flappingState._1s + (bodyState.omBar_H Omega).Y
      ∧ X2 = pitchState._1s + flappingState._1c + (bodyState.omBar_H Omega).X
      ∧ computeHarmonicsInflow self libm pitchState flappingState bodyState Omega lmd_0
          = [c, s]
      ∧ (isNormal c = true →
          |toRat c - toRat self.rotor.blade.a0 * toRat self.rotor.solidity * toRat X1
              / (16 * toRat lmd_0 + toRat self.rotor.blade.a0 * toRat self.rotor.solidity)|
            ≤ 1 / 2 ^ 39 * |toRat self.rotor.blade.a0 * toRat self.rotor.solidity * toRat X1
              / (16 * toRat lmd_0 + toRat self.rotor.blade.a0 * toRat self.rotor.solidity)|)
      ∧ (isNormal s = true →
          |toRat s - toRat self.rotor.blade.a0 * toRat self.rotor.solidity * toRat X2
              / (16 * toRat lmd_0 + toRat self.rotor.blade.a0 * toRat self.rotor.solidity)|
            ≤ 1 / 2 ^ 39 * |toRat self.rotor.blade.a0 * toRat self.rotor.solidity * toRat X2
              / (16 * toRat lmd_0 + toRat self.rotor.blade.a0 * toRat self.rotor.solidity)|)
      ∧ (Binary64.gt lmd_0 0 = true →
          Binary64.gt (self.rotor.blade.a0 * self.rotor.solidity) 0 = true →
          (isNormal c = true →
            |toRat c - toRat self.rotor.blade.a0 * toRat self.rotor.solidity * toRat X1
                / (16 * toRat lmd_0 + toRat self.rotor.blade.a0 * toRat self.rotor.solidity)|
              ≤ 1 / 2 ^ 49 * |toRat self.rotor.blade.a0 * toRat self.rotor.solidity * toRat X1
                / (16 * toRat lmd_0 + toRat self.rotor.blade.a0 * toRat self.rotor.solidity)|)
          ∧ (isNormal s = true →
            |toRat s - toRat self.rotor.blade.a0 * toRat self.rotor.solidity * toRat X2
                / (16 * toRat lmd_0 + toRat self.rotor.blade.a0 * toRat self.rotor.solidity)|
              ≤ 1 / 2 ^ 49 * |toRat self.rotor.blade.a0 * toRat self.rotor.solidity * toRat X2
                / (16 * toRat lmd_0
                  + toRat self.rotor.blade.a0 * toRat self.rotor.solidity)|)) :=
  ⟨_, _, _, _, rfl, rfl, rfl,
    harmonic_product_near_signed self.rotor.blade.a0 self.rotor.solidity lmd_0 _ hn hpole,
    harmonic_product_near_signed self.rotor.blade.a0 self.rotor.solidity lmd_0 _ hn hpole,
    fun hl has =>
      ⟨harmonic_product_near self.rotor.blade.a0 self.rotor.solidity lmd_0 _ hl has hn,
       harmonic_product_near self.rotor.blade.a0 self.rotor.solidity lmd_0 _ hl has hn⟩⟩

/-- C16 (amended), at the harmonics scenario with `lmd_0 = 0.05` (both bounds apply; the
sharper one is stated) and with `lmd_0 = -0.05`, where `1 + a0*s/(16*lmd_0) = 0.43`. -/
theorem computeHarmonicsInflow_simplified_witness :
    (∃ c s : Binary64,
      computeHarmonicsInflow (scenarioModel 0) trigAtZero ⟨0.1, 0.02, 0.03⟩ ⟨0.05, 0.01, 0.04⟩
        (constBody 0.2 0 0 0.001 0.002) 30 0.05 = [c, s]
      ∧ |toRat c - toRat (5.7 : Binary64) * toRat (0.08 : Binary64)
            * toRat ((0.02 : Binary64) - 0.04 + 0.002)
            / (16 * toRat (0.05 : Binary64) + toRat (5.7 : Binary64) * toRat (0.08 : Binary64))|
        ≤ 1 / 2 ^ 49 * |toRat (5.7 : Binary64) * toRat (0.08 : Binary64)
            * toRat ((0.02 : Binary64) - 0.04 + 0.002)
            / (16 * toRat (0.05 : Binary64) + toRat (5.7 : Binary64) * toRat (0.08 : Binary64))|
      ∧ |toRat s - toRat (5.7 : Binary64) * toRat (0.08 : Binary64)
            * toRat ((0.03 : Binary64) + 0.01 + 0.001)
            / (16 * toRat (0.05 : Binary64) + toRat (5.7 : Binary64) * toRat (0.08 : Binary64))|
        ≤ 1 / 2 ^ 49 * |toRat (5.7 : Binary64) * toRat (0.08 : Binary64)
            * toRat ((0.03 : Binary64) + 0.01 + 0.001)
            / (16 * toRat (0.05 : Binary64) + toRat (5.7 : Binary64) * toRat (0.08 : Binary64))|)
    ∧ (∃ c s : Binary64,
      computeHarmonicsInflow (scenarioModel 0) trigAtZero ⟨0.1, 0.02, 0.03⟩ ⟨0.05, 0.01, 0.04⟩
        (constBody 0.2 0 0 0.001 0.002) 30 (-0.05) = [c, s]
      ∧ |toRat c - toRat (5.7 : Binary64) * toRat (0.08 : Binary64)
            * toRat ((0.02 : Binary64) - 0.04 + 0.002)
            / (16 * toRat (-0.05 : Binary64)
                + toRat (5.7 : Binary64) * toRat (0.08 : Binary64))|
        ≤ 1 / 2 ^ 39 * |toRat (5.7 : Binary64) * toRat (0.08 : Binary64)
            * toRat ((0.02 : Binary64) - 0.04 + 0.002)
            / (16 * toRat (-0.05 : Binary64)
                + toRat (5.7 : Binary64) * toRat (0.08 : Binary64))|
      ∧ |toRat s - toRat (5.7 : Binary64) * toRat (0.08 : Binary64)
            * toRat ((0.03 : Binary64) + 0.01 + 0.001)
            / (16 * toRat (-0.05 : Binary64)
                + toRat (5.7 : Binary64) * toRat (0.08 : Binary64))|
        ≤ 1 / 2 ^ 39 * |toRat (5.7 : Binary64) * toRat (0.08 : Binary64)
            * toRat ((0.03 : Binary64) + 0.01 + 0.001)
            / (16 * toRat (-0.05 : Binary64)
                + toRat (5.7 : Binary64) * toRat (0.08 : Binary64))|) := by
  constructor
  · obtain ⟨c, s, X1, X2, hX1, hX2, hcs, -, -, hsharp⟩ :=
      computeHarmonicsInflow_simplified (scenarioModel 0) trigAtZero ⟨0.1, 0.02, 0.03⟩
        ⟨0.05, 0.01, 0.04⟩ (constBody 0.2 0 0 0.001 0.002) 30 0.05 (by decide!)
        (scenario_pole_margin 0.05 7205759403792794 false (by decide!) (by norm_num))
    obtain ⟨h1, h2⟩ := hsharp (by decide!) (by decide!)
    have hv : computeHarmonicsInflow (scenarioModel 0) trigAtZero ⟨0.1, 0.02, 0.03⟩
        ⟨0.05, 0.01, 0.04⟩ (constBody 0.2 0 0 0.001 0.002) 30 0.05
        = [Binary64.fin true 7534378749851116 (-60),
           Binary64.fin false 8580820242885993 (-59)] := by
      decide!
    rw [hv] at hcs
    have hc : c = Binary64.fin true 7534378749851116 (-60) := (List.cons.inj hcs).1.symm
    have hs : s = Binary64.fin false 8580820242885993 (-59) :=
      (List.cons.inj (List.cons.inj hcs).2).1.symm
    subst hX1 hX2
    exact ⟨c, s, by rw [hv, hc, hs], h1 (by rw [hc]; decide!), h2 (by rw [hs]; decide!)⟩
  · obtain ⟨c, s, X1, X2, hX1, hX2, hcs, h1, h2, -⟩ :=
      computeHarmonicsInflow_simplified (scenarioModel 0) trigAtZero ⟨0.1, 0.02, 0.03⟩
        ⟨0.05, 0.01, 0.04⟩ (constBody 0.2 0 0 0.001 0.002) 30 (-0.05) (by decide!)
        (scenario_pole_margin (-0.05) 7205759403792794 true (by decide!) (by norm_num))
    have hv : computeHarmonicsInflow (scenarioModel 0) trigAtZero ⟨0.1, 0.02, 0.03⟩
        ⟨0.05, 0.01, 0.04⟩ (constBody 0.2 0 0 0.001 0.002) 30 (-0.05)
        = [Binary64.fin false 6877310835619913 (-58),
           Binary64.fin true 7832492896122678 (-57)] := by
      decide!
    rw [hv] at hcs
    have hc : c = Binary64.fin false 6877310835619913 (-58) := (List.cons.inj hcs).1.symm
    have hs : s = Binary64.fin true 7832492896122678 (-57) :=
      (List.cons.inj (List.cons.inj hcs).2).1.symm
    subst hX1 hX2
    exact ⟨c, s, by rw [hv, hc, hs], h1 (by rw [hc]; decide!), h2 (by rw [hs]; decide!)⟩

/-! ### C17: the harmonic gain -/

/-- C17, refuted: `lmd_0 = 3e-18 > 0`, `a0*s = 5.7*0.08 > 0`.  The gain is `1 + 2^-52 > 1`, and
in the harmonics scenario both returned components exceed `|th_1c - beta_1s + qBar|` and
`|th_1s + beta_1c + pBar|` in size. -/
theorem computeHarmonicsInflow_gain_bound_counterexample :
    Binary64.gt (3e-18 : Binary64) 0 = true
    ∧ Binary64.gt ((5.7 : Binary64) * 0.08) 0 = true
    ∧ 1 / (1 + (5.7 : Binary64) * 0.08 / (16 * 3e-18)) * (5.7 * 0.08) / (16 * 3e-18)
      = Binary64.fin false 4503599627370497 (-52)
    ∧ Binary64.gt (Binary64.fin false 4503599627370497 (-52)) 1 = true
    ∧ computeHarmonicsInflow (scenarioModel 0) trigAtZero ⟨0.1, 0.02, 0.03⟩ ⟨0.05, 0.01, 0.04⟩
        (constBody 0.2 0 0 0.001 0.002) 30 3e-18
      = [Binary64.fin true 5188146770730813 (-58), Binary64.fin false 5908722711110092 (-57)]
    ∧ (0.02 : Binary64) - 0.04 + 0.002 = Binary64.fin true 5188146770730812 (-58)
    ∧ (0.03 : Binary64) + 0.01 + 0.001 = Binary64.fin false 5908722711110091 (-57)
    ∧ Binary64.gt (Binary64.abs (Binary64.fin true 5188146770730813 (-58)))
        (Binary64.abs (Binary64.fin true 5188146770730812 (-58))) = true
    ∧ Binary64.gt (Binary64.abs (Binary64.fin false 5908722711110092 (-57)))
        (Binary64.abs (Binary64.fin false 5908722711110091 (-57))) = true := by
  decide!

/-- C17 (amended): for every positive `lmd_0` and positive `a0*s`, when the intermediate
results of the gain are normal numbers, `computeHarmonicsInflow` returns `[g*X1, g*X2]`
with the gain `g = C_prime*(a0*s)/(16*lmd_0)`, `X1 = th_1c - beta_1s + qBar` and
`X2 = th_1s + beta_1c + pBar` (doubles), where `0 < g ≤ 1 + 2^-50` and each normal
component satisfies `|g*X| ≤ (1 + 2^-49) * |X|`.  When moreover the double
`a0*s/(16*lmd_0)` is at most `2^50`, the gain is below `1` and each normal component is
strictly smaller in size than its `X`. -/
theorem computeHarmonicsInflow_gain_bound (self : HarmonicInflowModel Binary64)
    (libm : Trig Binary64) (pitchState : PitchState Binary64)
    (flappingState : FlappingState Binary64) (bodyState : BodyState Binary64)
    (Omega lmd_0 : Binary64)
    (hl : Binary64.gt lmd_0 0 = true)
    (has : Binary64.gt (self.rotor.blade.a0 * self.rotor.solidity) 0 = true)
    (hn : ∀ v ∈ harmonicGainSteps self.rotor.blade.a0 self.rotor.solidity lmd_0,
      Binary64.isNormal v = true) :
    ∃ g X1 X2 : Binary64,
      g = 1 / (1 + self.rotor.blade.a0 * self.rotor.solidity / (16 * lmd_0))
            * (self.rotor.blade.a0 * self.rotor.solidity) / (16 * lmd_0)
      ∧ X1 = pitchState._1c - flappingState._1s + (bodyState.omBar_H Omega).Y
      ∧ X2 = pitchState._1s + flappingState._1c + (bodyState.omBar_H Omega).X
      ∧ computeHarmonicsInflow self libm pitchState flappingState bodyState Omega lmd_0
          = [g * X1, g * X2]
      ∧ 0 < toRat g ∧ toRat g ≤ 1 + 1 / 2 ^ 50
      ∧ (isNormal (g * X1) = true → |toRat (g * X1)| ≤ (1 + 1 / 2 ^ 49) * |toRat X1|)
      ∧ (isNormal (g * X2) = true → |toRat (g * X2)| ≤ (1 + 1 / 2 ^ 49) * |toRat X2|)
      ∧ (toRat (self.rotor.blade.a0 * self.rotor.solidity / (16 * lmd_0)) ≤ 2 ^ 50 →
          toRat g < 1
          ∧ (isNormal (g * X1) = true → |toRat (g * X1)| < |toRat X1|)
          ∧ (isNormal (g * X2) = true → |toRat (g * X2)| < |toRat X2|)) := by
  obtain ⟨-, -, hP, hQ, -, -, nk, g0, g1, -⟩ :=
    harmonicGain_facts self.rotor.blade.a0 self.rotor.solidity lmd_0 hl has hn
  have hk : isNormal (self.rotor.blade.a0 * self.rotor.solidity / (16 * lmd_0)) = true :=
    hn _ (by simp [harmonicGainSteps])
  refine ⟨_, _, _, rfl, rfl, rfl, rfl, ?_⟩
  generalize 1 / (1 + self.rotor.blade.a0 * self.rotor.solidity / (16 * lmd_0))
      * (self.rotor.blade.a0 * self.rotor.solidity) / (16 * lmd_0) = g at g0 g1 ⊢
  have kpos : 0 < toRat (self.rotor.blade.a0 * self.rotor.solidity / (16 * lmd_0)) :=
    (nk.pos_iff (isNormal_toRat_ne_zero _ hk)).mpr (div_pos hP hQ)
  have k2 := (nk.bounds kpos).2
  rw [div_le_iff₀ hQ] at k2
  generalize toRat (self.rotor.blade.a0 * self.rotor.solidity / (16 * lmd_0)) = k at kpos k2 ⊢
  generalize toRat (self.rotor.blade.a0 * self.rotor.solidity) = P at hP g1 k2
  generalize toRat (16 * lmd_0) = Q at hQ g1 k2
  have hgle : toRat g ≤ 1 + 1 / 2 ^ 50 := by
    have h1 : toRat g * (Q + P) * (1 - 1 / 2 ^ 53) ^ 3 ≤ (Q + P) * (1 + 1 / 2 ^ 53) ^ 2 :=
      g1.trans (mul_le_mul_of_nonneg_right (by linarith) (by positivity))
    have h2 : (1 + 1 / 2 ^ 53 : ℚ) ^ 2 ≤ (1 + 1 / 2 ^ 50) * (1 - 1 / 2 ^ 53) ^ 3 := by norm_num
    have hQP : 0 < Q + P := by linarith
    have h3 : toRat g * (1 - 1 / 2 ^ 53) ^ 3 ≤ (1 + 1 / 2 ^ 53) ^ 2 := by
      have : toRat g * (1 - 1 / 2 ^ 53) ^ 3 * (Q + P) ≤ (1 + 1 / 2 ^ 53) ^ 2 * (Q + P) := by
        linarith
      exact le_of_mul_le_mul_right this hQP
    have h4 : toRat g * (1 - 1 / 2 ^ 53) ^ 3 ≤ (1 + 1 / 2 ^ 50) * (1 - 1 / 2 ^ 53) ^ 3 :=
      h3.trans h2
    exact le_of_mul_le_mul_right h4 (by norm_num)
  have bound : ∀ X : Binary64, isNormal (g * X) = true →
      |toRat (g * X)| ≤ (1 + 1 / 2 ^ 49) * |toRat X| := by
    intro X hN
    obtain ⟨-, h⟩ := mul_abs_le g X _ g0 hgle hN
    have hX : 0 ≤ |toRat X| := abs_nonneg _
    have h5 : (1 + 1 / 2 ^ 50 : ℚ) ≤ (1 + 1 / 2 ^ 49) * (1 - 1 / 2 ^ 53) := by norm_num
    have h6 : |toRat (g * X)| * (1 - 1 / 2 ^ 53)
        ≤ (1 + 1 / 2 ^ 49) * |toRat X| * (1 - 1 / 2 ^ 53) := by
      calc |toRat (g * X)| * (1 - 1 / 2 ^ 53) ≤ (1 + 1 / 2 ^ 50) * |toRat X| := h
        _ ≤ (1 + 1 / 2 ^ 49) * (1 - 1 / 2 ^ 53) * |toRat X| :=
            mul_le_mul_of_nonneg_right h5 hX
        _ = (1 + 1 / 2 ^ 49) * |toRat X| * (1 - 1 / 2 ^ 53) := by ring
    exact le_of_mul_le_mul_right h6 (by norm_num)
  refine ⟨g0, hgle, bound _, bound _, ?_⟩
  intro hk50
  have hPQ : P ≤ 2 ^ 50 * Q * (1 + 1 / 2 ^ 53) := by
    calc P ≤ k * (1 + 1 / 2 ^ 53) * Q := k2
      _ ≤ 2 ^ 50 * (1 + 1 / 2 ^ 53) * Q := by
        apply mul_le_mul_of_nonneg_right _ hQ.le
        exact mul_le_mul_of_nonneg_right hk50 (by norm_num)
      _ = 2 ^ 50 * Q * (1 + 1 / 2 ^ 53) := by ring
  have hQP : 0 < Q + P := by linarith
  have hg52 : toRat g ≤ 1 - 1 / 2 ^ 52 := by
    have h1 : P * (1 + 1 / 2 ^ 53) ^ 2
        ≤ (1 - 1 / 2 ^ 52) * (Q + P) * (1 - 1 / 2 ^ 53) ^ 3 := by
      have : (0:ℚ) ≤ 2 ^ 50 * Q * (1 + 1 / 2 ^ 53) - P := by linarith
      nlinarith
    have h2 : toRat g * ((Q + P) * (1 - 1 / 2 ^ 53) ^ 3)
        ≤ (1 - 1 / 2 ^ 52) * ((Q + P) * (1 - 1 / 2 ^ 53) ^ 3) := by
      calc toRat g * ((Q + P) * (1 - 1 / 2 ^ 53) ^ 3)
          = toRat g * (Q + P) * (1 - 1 / 2 ^ 53) ^ 3 := by ring
        _ ≤ P * (1 + 1 / 2 ^ 53) ^ 2 := g1
        _ ≤ (1 - 1 / 2 ^ 52) * (Q + P) * (1 - 1 / 2 ^ 53) ^ 3 := h1
        _ = (1 - 1 / 2 ^ 52) * ((Q + P) * (1 - 1 / 2 ^ 53) ^ 3) := by ring
    exact le_of_mul_le_mul_right h2 (by positivity)
  have strict : ∀ X : Binary64, isNormal (g * X) = true → |toRat (g * X)| < |toRat X| := by
    intro X hN
    obtain ⟨hX0, h⟩ := mul_abs_le g X _ g0 hg52 hN
    have hX : 0 < |toRat X| := abs_pos.mpr hX0
    have h5 : (1 - 1 / 2 ^ 52 : ℚ) < 1 * (1 - 1 / 2 ^ 53) := by norm_num
    have h6 : |toRat (g * X)| * (1 - 1 / 2 ^ 53) < |toRat X| * (1 - 1 / 2 ^ 53) := by
      calc |toRat (g * X)| * (1 - 1 / 2 ^ 53) ≤ (1 - 1 / 2 ^ 52) * |toRat X| := h
        _ < 1 * (1 - 1 / 2 ^ 53) * |toRat X| := mul_lt_mul_of_pos_right h5 hX
        _ = |toRat X| * (1 - 1 / 2 ^ 53) := by ring
    exact lt_of_mul_lt_mul_right h6 (by norm_num)
  exact ⟨lt_of_le_of_lt hg52 (by norm_num), strict _, strict _⟩

/-- C17 (amended), at the harmonics scenario with `lmd_0 = 0.05`: both returned components
are strictly smaller in size than `0.02 - 0.04 + 0.002` and `0.03 + 0.01 + 0.001`. -/
theorem computeHarmonicsInflow_gain_bound_witness :
    ∃ c s : Binary64,
      computeHarmonicsInflow (scenarioModel 0) trigAtZero ⟨0.1, 0.02, 0.03⟩ ⟨0.05, 0.01, 0.04⟩
        (constBody 0.2 0 0 0.001 0.002) 30 0.05 = [c, s]
      ∧ |toRat c| < |toRat ((0.02 : Binary64) - 0.04 + 0.002)|
      ∧ |toRat s| < |toRat ((0.03 : Binary64) + 0.01 + 0.001)| := by
  obtain ⟨g, X1, X2, hg, hX1, hX2, hcs, -, -, -, -, hstrict⟩ :=
    computeHarmonicsInflow_gain_bound (scenarioModel 0) trigAtZero ⟨0.1, 0.02, 0.03⟩
      ⟨0.05, 0.01, 0.04⟩ (constBody 0.2 0 0 0.001 0.002) 30 0.05 (by decide!) (by decide!)
      (by decide!)
  have hk : (scenarioModel 0).rotor.blade.a0 * (scenarioModel 0).rotor.solidity / (16 * 0.05)
      = Binary64.fin false 5134103575202365 (-53) := by decide!
  rw [hk] at hstrict
  obtain ⟨-, h1, h2⟩ := hstrict (by simp only [toRat]; norm_num)
  subst hg hX1 hX2
  exact ⟨_, _, hcs, h1 (by decide!), h2 (by decide!)⟩

end HarmonicInflowModel

end simulation
